import Mathlib

/-!
Shallow embedding of `packages/native-core/src/tree.rs`: a slab-backed
tree with stable integer handles, height tracking, a projection adapter
(`TreeMap`) and a shared view (`SharedView`).

Modelling conventions:
* `slab::Slab` is a list of entries plus the occupied count and the head of
  the free list, exactly as in the `slab` crate.
* Functions that can panic in Rust (`unwrap`, `expect`, `Slab::remove` on a
  vacant slot) return `Option`, with `none` for the panic.
* The two unbounded recursions of the source (`set_height`,
  `remove_recursive`) take explicit fuel; call sites pass
  `3 * entries.length + 3`, which is shown to be enough on well-formed
  trees, so the fueled functions agree with the source there.
* `u16` height arithmetic wraps modulo 2 ^ 16, the release-profile
  semantics of Rust integer overflow.  The `..Dbg` variants model the
  debug-profile (overflow-checked) semantics instead.
-/

namespace NativeCore

/-- `NodeId(pub usize)`: a stable handle naming one arena slot. -/
structure NodeId where
  val : Nat
deriving DecidableEq

/-- One slot of the slab arena (`slab::Entry`); a vacant slot stores the
index of the next slot on the free list. -/
inductive Entry (T : Type) where
  | vacant (nxt : Nat)
  | occupied (value : T)
deriving DecidableEq

/-- The `slab::Slab` arena: entry vector, occupied count `len`, and the
head `next` of the free list. -/
structure Slab (T : Type) where
  entries : List (Entry T)
  len : Nat
  next : Nat
deriving DecidableEq

namespace Slab

/-- `Slab::default()`. -/
def empty {T : Type} : Slab T := ⟨[], 0, 0⟩

/-- `Slab::get`: `some` exactly on occupied slots. -/
def get {T : Type} (s : Slab T) (k : Nat) : Option T :=
  match s.entries[k]? with
  | some (.occupied v) => some v
  | _ => none

/-- `Slab::insert`: occupy the head of the free list, or push a fresh slot
at the end when the free list is empty (`next = entries.len()`).  The final
fall-through branch is unreachable in the crate (the free-list head is
always vacant); the model leaves the slab unchanged there. -/
def insert {T : Type} (s : Slab T) (v : T) : Nat × Slab T :=
  let key := s.next
  if key = s.entries.length then
    (key, ⟨s.entries ++ [.occupied v], s.len + 1, key + 1⟩)
  else
    match s.entries[key]? with
    | some (.vacant nxt) => (key, ⟨s.entries.set key (.occupied v), s.len + 1, nxt⟩)
    | _ => (key, s)

/-- `Slab::try_remove`: vacate the slot and push it onto the free list. -/
def tryRemoveAt {T : Type} (s : Slab T) (k : Nat) : Option (T × Slab T) :=
  match s.entries[k]? with
  | some (.occupied v) => some (v, ⟨s.entries.set k (.vacant s.next), s.len - 1, k⟩)
  | _ => none

/-- `Slab::get_mut` followed by overwriting the slot; only ever used on
slots that a preceding `get` has shown occupied. -/
def setAt {T : Type} (s : Slab T) (k : Nat) (v : T) : Slab T :=
  { s with entries := s.entries.set k (.occupied v) }

end Slab

/-- `Node<T>`: value, parent link, ordered children, cached height.
`height` is a `u16` in the source; the model stores it as `Nat` and wraps
arithmetic modulo 2 ^ 16 where the source adds. -/
structure Node (T : Type) where
  value : T
  parent : Option NodeId
  children : List NodeId
  height : Nat
deriving DecidableEq

/-- `Tree<T>`: the arena plus the designated root id. -/
structure Tree (T : Type) where
  nodes : Slab (Node T)
  root : NodeId
deriving DecidableEq

/-- `u16` wrap-around of the release profile. -/
def u16Mod (n : Nat) : Nat := n % 65536

/-- Debug-profile checked increment of a `u16`: panics (`none`) instead of
wrapping. -/
def checkedU16Succ (h : Nat) : Option Nat :=
  if h + 1 < 65536 then some (h + 1) else none

/-- `Vec::position(|child| child == &id)` on a children vector. -/
def listPos (l : List NodeId) (x : NodeId) : Option Nat :=
  match l with
  | [] => none
  | y :: ys => if y = x then some 0 else (listPos ys x).map (· + 1)

namespace Tree

variable {T : Type}

/-- Internal: the full node record stored at an id. -/
def getNode (t : Tree T) (id : NodeId) : Option (Node T) :=
  t.nodes.get id.val

/-- Overwrite the record at an id (a `get_mut` write). -/
def setNode (t : Tree T) (id : NodeId) (n : Node T) : Tree T :=
  { t with nodes := t.nodes.setAt id.val n }

/-- `TreeView::get`. -/
def get (t : Tree T) (id : NodeId) : Option T :=
  (t.getNode id).map (·.value)

/-- `TreeView::get_mut`; as a pure read it returns the same value as
`get`, the write side is modelled by `modifyValue`. -/
def get_mut (t : Tree T) (id : NodeId) : Option T :=
  (t.getNode id).map (·.value)

/-- Writing through `get_mut(id)`: replace the stored value. -/
def modifyValue (t : Tree T) (id : NodeId) (g : T → T) : Tree T :=
  match t.getNode id with
  | none => t
  | some n => t.setNode id { n with value := g n.value }

/-- `TreeView::children_ids`. -/
def children_ids (t : Tree T) (id : NodeId) : Option (List NodeId) :=
  (t.getNode id).map (·.children)

/-- `TreeView::parent_id`. -/
def parent_id (t : Tree T) (id : NodeId) : Option NodeId :=
  (t.getNode id).bind (·.parent)

/-- `TreeView::parent` for `Tree`: the value stored at the parent.  The
inner lookup is an `unwrap` in the source; it cannot fail on well-formed
trees, and the model folds the impossible failure into `none`. -/
def parent (t : Tree T) (id : NodeId) : Option T :=
  (t.getNode id).bind fun n => n.parent.bind fun p => (t.getNode p).map (·.value)

/-- `TreeView::parent_mut`, as a pure read. -/
def parent_mut (t : Tree T) (id : NodeId) : Option T :=
  (t.getNode id).bind fun n => n.parent.bind fun p => (t.getNode p).map (·.value)

/-- `TreeView::height`. -/
def height (t : Tree T) (id : NodeId) : Option Nat :=
  (t.getNode id).map (·.height)

/-- `TreeView::size` = `Slab::len`. -/
def size (t : Tree T) : Nat := t.nodes.len

/-- `TreeView::contains`. -/
def contains (t : Tree T) (id : NodeId) : Bool := (t.get id).isSome

/-- Fuel passed to the fueled recursions; large enough on any well-formed
tree (shown below), so the model agrees with the unfueled source there. -/
def treeFuel (t : Tree T) : Nat := 3 * t.nodes.entries.length + 3

/-- `Tree::set_height`, in worklist form: assign `h` to the first id, push
its children at height `(h+1) mod 2^16`, continue with the rest at `h`.
Processing order (node, then its subtree, then later siblings) is exactly
the source's recursion order. -/
def setHeightList : Nat → Tree T → List NodeId → Nat → Option (Tree T)
  | _, t, [], _ => some t
  | 0, _, _ :: _, _ => none
  | fuel + 1, t, id :: rest, h =>
    match t.getNode id with
    | none => none
    | some n =>
      match setHeightList fuel (t.setNode id { n with height := h }) n.children (u16Mod (h + 1)) with
      | none => none
      | some t2 => setHeightList fuel t2 rest h

/-- Debug-profile `set_height`: the `height + 1` for the children is an
overflow-checked add, evaluated only when the children loop runs. -/
def setHeightListDbg : Nat → Tree T → List NodeId → Nat → Option (Tree T)
  | _, t, [], _ => some t
  | 0, _, _ :: _, _ => none
  | fuel + 1, t, id :: rest, h =>
    match t.getNode id with
    | none => none
    | some n =>
      let t1 := t.setNode id { n with height := h }
      let below : Option (Tree T) :=
        match n.children with
        | [] => some t1
        | c :: cs =>
          match checkedU16Succ h with
          | none => none
          | some h1 => setHeightListDbg fuel t1 (c :: cs) h1
      match below with
      | none => none
      | some t2 => setHeightListDbg fuel t2 rest h

/-- `Tree::remove_recursive` over a worklist: `Slab::remove` each id
(panic, hence `none`, on a vacant slot), then recurse into its children,
then the rest. -/
def removeRecList : Nat → Slab (Node T) → List NodeId → Option (Slab (Node T))
  | _, s, [] => some s
  | 0, _, _ :: _ => none
  | fuel + 1, s, id :: rest =>
    match s.tryRemoveAt id.val with
    | none => none
    | some (n, s1) =>
      match removeRecList fuel s1 n.children with
      | none => none
      | some s2 => removeRecList fuel s2 rest

/-- `Tree::try_remove`.  `some none` is the recoverable not-found return;
the outer `none` is a panic inside the body (a dangling parent link, or
`Slab::remove` failing during the recursive descent). -/
def tryRemove (t : Tree T) (id : NodeId) : Option (Option (Node T × Tree T)) :=
  match t.nodes.tryRemoveAt id.val with
  | none => some none
  | some (n, s1) =>
    let detached : Option (Slab (Node T)) :=
      match n.parent with
      | none => some s1
      | some p =>
        match s1.get p.val with
        | none => none
        | some pn => some (s1.setAt p.val { pn with children := pn.children.filter (fun c => c != id) })
    match detached with
    | none => none
    | some s2 =>
      match removeRecList (3 * s2.entries.length + 3) s2 n.children with
      | none => none
      | some s3 => some (some (n, { t with nodes := s3 }))

/-- `TreeLike::remove`: `try_remove(id).map(|node| node.value)`.  The outer
`none` is a panic, the inner `Option T` is the source's return value. -/
def remove (t : Tree T) (id : NodeId) : Option (Option T × Tree T) :=
  match t.tryRemove id with
  | none => none
  | some none => some (none, t)
  | some (some (n, t1)) => some (some n.value, t1)

/-- `TreeLike::new`. -/
def new (v : T) : Tree T :=
  let r := Slab.empty.insert { value := v, parent := none, children := [], height := 0 }
  { nodes := r.2, root := ⟨r.1⟩ }

/-- `TreeLike::create_node`. -/
def create_node (t : Tree T) (v : T) : NodeId × Tree T :=
  let r := t.nodes.insert { value := v, parent := none, children := [], height := 0 }
  (⟨r.1⟩, { t with nodes := r.2 })

/-- `TreeLike::add_child`: set the parent link, append to the parent's
children, recompute heights for the whole attached subtree. -/
def add_child (t : Tree T) (parent child : NodeId) : Option (Tree T) :=
  match t.getNode child with
  | none => none
  | some cn =>
    let t1 := t.setNode child { cn with parent := some parent }
    match t1.getNode parent with
    | none => none
    | some pn =>
      let t2 := t1.setNode parent { pn with children := pn.children ++ [child] }
      setHeightList (treeFuel t2) t2 [child] (u16Mod (pn.height + 1))

/-- Debug-profile `add_child`: the `parent.height + 1` is checked. -/
def add_child_dbg (t : Tree T) (parent child : NodeId) : Option (Tree T) :=
  match t.getNode child with
  | none => none
  | some cn =>
    let t1 := t.setNode child { cn with parent := some parent }
    match t1.getNode parent with
    | none => none
    | some pn =>
      let t2 := t1.setNode parent { pn with children := pn.children ++ [child] }
      match checkedU16Succ pn.height with
      | none => none
      | some h => setHeightListDbg (treeFuel t2) t2 [child] h

/-- `TreeLike::insert_before`: look up `id`, take its parent (`expect`
panics on a parentless id), link `new`, splice it in at `id`'s index, and
recompute heights. -/
def insert_before (t : Tree T) (id new : NodeId) : Option (Tree T) :=
  match t.getNode id with
  | none => none
  | some n =>
    match n.parent with
    | none => none
    | some parentId =>
      match t.getNode new with
      | none => none
      | some nn =>
        let t1 := t.setNode new { nn with parent := some parentId }
        match t1.getNode parentId with
        | none => none
        | some pn =>
          match listPos pn.children id with
          | none => none
          | some index =>
            let t2 := t1.setNode parentId { pn with children := List.insertIdx index new pn.children }
            setHeightList (treeFuel t2) t2 [new] (u16Mod (pn.height + 1))

/-- `TreeLike::insert_after`: as `insert_before` but at `index + 1`. -/
def insert_after (t : Tree T) (id new : NodeId) : Option (Tree T) :=
  match t.getNode id with
  | none => none
  | some n =>
    match n.parent with
    | none => none
    | some parentId =>
      match t.getNode new with
      | none => none
      | some nn =>
        let t1 := t.setNode new { nn with parent := some parentId }
        match t1.getNode parentId with
        | none => none
        | some pn =>
          match listPos pn.children id with
          | none => none
          | some index =>
            let t2 := t1.setNode parentId { pn with children := List.insertIdx (index + 1) new pn.children }
            setHeightList (treeFuel t2) t2 [new] (u16Mod (pn.height + 1))

/-- Debug-profile `insert_before`. -/
def insert_before_dbg (t : Tree T) (id new : NodeId) : Option (Tree T) :=
  match t.getNode id with
  | none => none
  | some n =>
    match n.parent with
    | none => none
    | some parentId =>
      match t.getNode new with
      | none => none
      | some nn =>
        let t1 := t.setNode new { nn with parent := some parentId }
        match t1.getNode parentId with
        | none => none
        | some pn =>
          match listPos pn.children id with
          | none => none
          | some index =>
            let t2 := t1.setNode parentId { pn with children := List.insertIdx index new pn.children }
            match checkedU16Succ pn.height with
            | none => none
            | some h => setHeightListDbg (treeFuel t2) t2 [new] h

/-- Debug-profile `insert_after`. -/
def insert_after_dbg (t : Tree T) (id new : NodeId) : Option (Tree T) :=
  match t.getNode id with
  | none => none
  | some n =>
    match n.parent with
    | none => none
    | some parentId =>
      match t.getNode new with
      | none => none
      | some nn =>
        let t1 := t.setNode new { nn with parent := some parentId }
        match t1.getNode parentId with
        | none => none
        | some pn =>
          match listPos pn.children id with
          | none => none
          | some index =>
            let t2 := t1.setNode parentId { pn with children := List.insertIdx (index + 1) new pn.children }
            match checkedU16Succ pn.height with
            | none => none
            | some h => setHeightListDbg (treeFuel t2) t2 [new] h

/-- `TreeLike::replace`: remove `old` and its subtree (an `expect`, so a
missing `old` panics), then rewrite `old` to `new` inside the parent's
children — a loop that can no longer find `old`, because `try_remove`
already retained it out — and recompute `new`'s heights. -/
def replace (t : Tree T) (oldId newId : NodeId) : Option (Tree T) :=
  match t.tryRemove oldId with
  | none => none
  | some none => none
  | some (some (old, t1)) =>
    match old.parent with
    | none => some t1
    | some parentId =>
      match t1.getNode parentId with
      | none => none
      | some pn =>
        let t2 := t1.setNode parentId
          { pn with children := pn.children.map (fun c => if c = oldId then newId else c) }
        setHeightList (treeFuel t2) t2 [newId] (u16Mod (pn.height + 1))

/-- Debug-profile `replace`: the `parent.height + 1` is checked. -/
def replace_dbg (t : Tree T) (oldId newId : NodeId) : Option (Tree T) :=
  match t.tryRemove oldId with
  | none => none
  | some none => none
  | some (some (old, t1)) =>
    match old.parent with
    | none => some t1
    | some parentId =>
      match t1.getNode parentId with
      | none => none
      | some pn =>
        let t2 := t1.setNode parentId
          { pn with children := pn.children.map (fun c => if c = oldId then newId else c) }
        match checkedU16Succ pn.height with
        | none => none
        | some h => setHeightListDbg (treeFuel t2) t2 [newId] h

/-- Physical effect of `Vec::retain` on the backing buffer: kept elements
are compacted to the front, and slots past the number of kept elements
keep their previous contents (`NodeId` is `Copy`, nothing is dropped). -/
def retainBuf (buf : List NodeId) (len : Nat) (bad : NodeId) : List NodeId :=
  let kept := (buf.take len).filter (fun c => c != bad)
  kept ++ buf.drop kept.length

/-- One iteration of the loop in `remove_all_children`.  The loop iterates
a borrowed `&[NodeId]` slice of `id`'s children vector while each
`remove(*child)` shrinks that same vector through a raw pointer, so the
iteration reads the live physical buffer `buf` at position `i`; the
`unwrap` on the removal result is a panic (`none`) when the slot read from
the buffer is stale. -/
def racStep (id : NodeId) (st : Tree T × List NodeId × List T) (i : Nat) :
    Option (Tree T × List NodeId × List T) :=
  match st with
  | (t, buf, acc) =>
    match buf[i]? with
    | none => none
    | some c =>
      let len := ((t.children_ids id).getD []).length
      match t.remove c with
      | none => none
      | some (none, _) => none
      | some (some v, t1) =>
        some (t1, if t.parent_id c = some id then retainBuf buf len c else buf, acc ++ [v])

/-- `TreeLike::remove_all_children`: iterate the children slice (length
fixed at entry), removing each id the buffer yields.  `none` models the
panics this aliasing bug can produce. -/
def remove_all_children (t : Tree T) (id : NodeId) : Option (List T × Tree T) :=
  match t.children_ids id with
  | none => none
  | some cs =>
    match (List.range cs.length).foldlM (racStep id) (t, cs, []) with
    | none => none
    | some (t1, _, acc) => some (acc, t1)

end Tree

/-- The projection adapter `TreeMap`.  A Rust `FMut : Fn(&mut T1) -> &mut T2`
is a lens: reading through the returned reference yields `mapMut v`, and
writing `w` through it updates the base value to `mapMutPut v w`. -/
structure TreeMap (T1 T2 : Type) where
  tree : Tree T1
  map : T1 → T2
  mapMut : T1 → T2
  mapMutPut : T1 → T2 → T1

namespace TreeMap

variable {T1 T2 : Type}

/-- `TreeMap`'s `root`: delegates. -/
def root (m : TreeMap T1 T2) : NodeId := m.tree.root

/-- `TreeMap`'s `get`: `self.tree.get(id).map(|node| (self.map)(node))`. -/
def get (m : TreeMap T1 T2) (id : NodeId) : Option T2 :=
  (m.tree.get id).map m.map

/-- `TreeMap`'s `get_mut`, as a read: the mutable projection applied to the
wrapped node's value. -/
def get_mut (m : TreeMap T1 T2) (id : NodeId) : Option T2 :=
  (m.tree.get_mut id).map m.mapMut

/-- Mutating through the adapter's `get_mut(id)` with `g`: the write lands
in the base tree at the same id, through the lens. -/
def modifyValue (m : TreeMap T1 T2) (id : NodeId) (g : T2 → T2) : TreeMap T1 T2 :=
  { m with tree := m.tree.modifyValue id (fun v => m.mapMutPut v (g (m.mapMut v))) }

/-- `TreeMap`'s `children_ids`: delegates. -/
def children_ids (m : TreeMap T1 T2) (id : NodeId) : Option (List NodeId) :=
  m.tree.children_ids id

/-- `TreeMap`'s `parent_id`: delegates. -/
def parent_id (m : TreeMap T1 T2) (id : NodeId) : Option NodeId :=
  m.tree.parent_id id

/-- `TreeMap`'s `parent`: the projection of the wrapped tree's parent. -/
def parent (m : TreeMap T1 T2) (id : NodeId) : Option T2 :=
  (m.tree.parent id).map m.map

/-- `TreeMap`'s `height`: delegates. -/
def height (m : TreeMap T1 T2) (id : NodeId) : Option Nat :=
  m.tree.height id

/-- `TreeMap`'s `size`: delegates. -/
def size (m : TreeMap T1 T2) : Nat := m.tree.size

end TreeMap

/-!
The functional content of `SharedView`'s per-id operations: each one is
`with_node(id, f)`, which locks `id`, applies `f` to the full underlying
tree, and unlocks, so the value returned is exactly `f` applied to the
tree.  Locking affects only scheduling, not the returned value.
-/
namespace SharedView

variable {T : Type}

/-- `SharedView::root`: reads the underlying tree without locking. -/
def root (t : Tree T) : NodeId := t.root

/-- `SharedView::get`: `with_node(id, |t| t.get(id))`. -/
def get (t : Tree T) (id : NodeId) : Option T := t.get id

/-- `SharedView::get_mut`: `with_node(id, |t| t.get_mut(id))`. -/
def get_mut (t : Tree T) (id : NodeId) : Option T := t.get_mut id

/-- `SharedView::children_ids`: `with_node(id, |t| t.children_ids(id))`. -/
def children_ids (t : Tree T) (id : NodeId) : Option (List NodeId) := t.children_ids id

/-- `SharedView::parent`: the source runs `with_node(id, |t| t.get(id))` —
it reads the node's own value, not the parent's. -/
def parent (t : Tree T) (id : NodeId) : Option T := t.get id

/-- `SharedView::parent_mut`: `with_node(id, |t| t.parent_mut(id))`. -/
def parent_mut (t : Tree T) (id : NodeId) : Option T := t.parent_mut id

/-- `SharedView::parent_id`: `with_node(id, |t| t.parent_id(id))`. -/
def parent_id (t : Tree T) (id : NodeId) : Option NodeId := t.parent_id id

/-- `SharedView::height`: bypasses locking. -/
def height (t : Tree T) (id : NodeId) : Option Nat := t.height id

/-- `SharedView::size`: bypasses locking. -/
def size (t : Tree T) : Nat := t.size

end SharedView

/-! ### Invariants: occupancy accounting, the slab free list, subtree
enumerations, and structural well-formedness -/

/-- Whether slot `k` of the entry vector is occupied. -/
def isOccB {T : Type} (entries : List (Entry T)) (k : Nat) : Bool :=
  match entries[k]? with
  | some (.occupied _) => true
  | _ => false

/-- The set of occupied slot indices. -/
def occFinset {T : Type} (entries : List (Entry T)) : Finset Nat :=
  (Finset.range entries.length).filter (fun k => isOccB entries k = true)

/-- The number of occupied slots. -/
def occupiedCount {T : Type} (entries : List (Entry T)) : Nat := (occFinset entries).card

/-- Slot `k` is vacant (and stores a free-list pointer). -/
def isVacantAt {T : Type} (entries : List (Entry T)) (k : Nat) : Prop :=
  ∃ m, entries[k]? = some (.vacant m)

/-- `Chain entries n vs`: starting from pointer `n`, following the stored
free-list pointers visits exactly the slots `vs` and terminates at the
one-past-the-end sentinel `entries.length`. -/
inductive Chain {T : Type} (entries : List (Entry T)) : Nat → List Nat → Prop
  | nil : Chain entries entries.length []
  | cons {k m : Nat} {ks : List Nat} : entries[k]? = some (.vacant m) →
      Chain entries m ks → Chain entries k (k :: ks)

/-- Well-formedness of the slab: `len` counts the occupied slots, and the
free list is a valid chain covering every vacant slot. -/
structure SlabWF {T : Type} (s : Slab T) : Prop where
  lenEq : s.len = occupiedCount s.entries
  free : ∃ vs, Chain s.entries s.next vs ∧ ∀ k, isVacantAt s.entries k → k ∈ vs

/-- `InTree t a x`: `x` lies in the subtree rooted at `a` (following
children links). -/
inductive InTree {T : Type} (t : Tree T) : NodeId → NodeId → Prop
  | refl (a : NodeId) : InTree t a a
  | step {a b c : NodeId} {cs : List NodeId} : InTree t a b → t.children_ids b = some cs →
      c ∈ cs → InTree t a c

/-- `UpChain t x a`: following parent links upward from `x` reaches `a`. -/
inductive UpChain {T : Type} (t : Tree T) : NodeId → NodeId → Prop
  | refl (a : NodeId) : UpChain t a a
  | step {a p b : NodeId} : t.parent_id a = some p → UpChain t p b → UpChain t a b

/-- `SubF t ids L`: `L` is the depth-first enumeration of the forest of
subtrees rooted at `ids` — each root, then its subtree, then the later
roots.  This is exactly the processing order of `set_height` and
`remove_recursive`. -/
inductive SubF {T : Type} (t : Tree T) : List NodeId → List NodeId → Prop
  | nil : SubF t [] []
  | cons {id : NodeId} {cs rest l l2 : List NodeId} :
      t.children_ids id = some cs → SubF t cs l → SubF t rest l2 →
      SubF t (id :: rest) (id :: (l ++ l2))

/-- Structural well-formedness of a tree: the slab invariant, a live
parentless root at height 0, coherent parent/children links with no
duplicate siblings, the height equation along every link, and a rank
function certifying acyclicity of the parent graph. -/
structure WF {T : Type} (t : Tree T) : Prop where
  slab : SlabWF t.nodes
  root_live : (t.getNode t.root).isSome = true
  root_par : t.parent_id t.root = none
  root_h : t.height t.root = some 0
  par_child : ∀ c p, t.parent_id c = some p → ∃ pn, t.getNode p = some pn ∧ c ∈ pn.children
  child_par : ∀ p pn, t.getNode p = some pn → ∀ c ∈ pn.children, t.parent_id c = some p
  child_nodup : ∀ p pn, t.getNode p = some pn → pn.children.Nodup
  hts : ∀ c p, t.parent_id c = some p →
      ∃ hp, t.height p = some hp ∧ t.height c = some (u16Mod (hp + 1))
  rank : ∃ d : Nat → Nat, ∀ c p, t.parent_id c = some p → d c.val = d p.val + 1

/-- The trees reachable through the public mutation interface when every
attachment supplies an existing, currently detached, non-root subtree
whose own subtree does not contain the attachment target (the
caller-maintained no-cycle precondition), and the root is never removed
or replaced. -/
inductive Reached {T : Type} : Tree T → Prop
  | new (v : T) : Reached (Tree.new v)
  | create {t : Tree T} (v : T) : Reached t → Reached (t.create_node v).2
  | add_child {t t' : Tree T} {p c : NodeId} : Reached t →
      t.parent_id c = none → c ≠ t.root → ¬ InTree t c p →
      t.add_child p c = some t' → Reached t'
  | insert_before {t t' : Tree T} {id c : NodeId} : Reached t →
      t.parent_id c = none → c ≠ t.root →
      (∀ p, t.parent_id id = some p → ¬ InTree t c p) →
      t.insert_before id c = some t' → Reached t'
  | insert_after {t t' : Tree T} {id c : NodeId} : Reached t →
      t.parent_id c = none → c ≠ t.root →
      (∀ p, t.parent_id id = some p → ¬ InTree t c p) →
      t.insert_after id c = some t' → Reached t'
  | remove {t t' : Tree T} {id : NodeId} {v : Option T} : Reached t →
      id ≠ t.root → t.remove id = some (v, t') → Reached t'
  | remove_all {t t' : Tree T} {id : NodeId} {vs : List T} : Reached t →
      t.remove_all_children id = some (vs, t') → Reached t'
  | replace {t t' : Tree T} {oldId c : NodeId} : Reached t →
      oldId ≠ t.root → t.parent_id c = none → c ≠ t.root →
      t.replace oldId c = some t' → Reached t'

/-! ### Shared example trees for the concrete claims -/

/-- Root `10` (id 0) with one attached child `20` (id 1) and one detached
node `30` (id 2), built through the public operations. -/
def exBase : Option (Tree Nat) :=
  (Tree.add_child ((Tree.new 10).create_node 20).2 ⟨0⟩ ⟨1⟩).map fun t => (t.create_node 30).2

/-- Root `0` (id 0) with three attached children `1, 2, 3` (ids 1, 2, 3). -/
def exThree : Option (Tree Nat) :=
  ((Tree.add_child (((Tree.new 0).create_node 1).2) ⟨0⟩ ⟨1⟩).bind fun t1 =>
    Tree.add_child (t1.create_node 2).2 ⟨0⟩ ⟨2⟩).bind fun t2 =>
    Tree.add_child (t2.create_node 3).2 ⟨0⟩ ⟨3⟩

/-- A tree whose node 1 sits at the maximal representable height 65535 and
has one child (node 2); used for the height-overflow claims. -/
def maxHeightTree : Tree Nat :=
  { nodes :=
      { entries :=
          [.occupied { value := 0, parent := none, children := [], height := 0 },
           .occupied { value := 1, parent := none, children := [⟨2⟩], height := 65535 },
           .occupied { value := 2, parent := some ⟨1⟩, children := [], height := 0 }],
        len := 3, next := 3 },
    root := ⟨0⟩ }

/-- The literal result of building root `10` with one attached child `20`:
`add_child ((new 10).create_node 20).2 ⟨0⟩ ⟨1⟩`. -/
def exA : Tree Nat :=
  { nodes :=
      { entries :=
          [.occupied { value := 10, parent := none, children := [⟨1⟩], height := 0 },
           .occupied { value := 20, parent := some ⟨0⟩, children := [], height := 1 }],
        len := 2, next := 2 },
    root := ⟨0⟩ }

/-- `exA` plus a detached node `30` (id 2): the literal value of `exBase`. -/
def exB : Tree Nat :=
  { nodes :=
      { entries :=
          [.occupied { value := 10, parent := none, children := [⟨1⟩], height := 0 },
           .occupied { value := 20, parent := some ⟨0⟩, children := [], height := 1 },
           .occupied { value := 30, parent := none, children := [], height := 0 }],
        len := 3, next := 3 },
    root := ⟨0⟩ }

section SanityChecks

/-- The `creation` test of the source, replayed on the model. -/
example :
    (Tree.add_child ((Tree.new 1).create_node 0).2 ⟨0⟩ ⟨1⟩).map (fun t => t.size) = some 2 ∧
    (Tree.add_child ((Tree.new 1).create_node 0).2 ⟨0⟩ ⟨1⟩).map (fun t => t.height ⟨1⟩) =
      some (some 1) ∧
    (Tree.add_child ((Tree.new 1).create_node 0).2 ⟨0⟩ ⟨1⟩).map (fun t => t.children_ids ⟨0⟩) =
      some (some [⟨1⟩]) := by
  decide

/-- The `insertion` test of the source, replayed on the model. -/
example :
    ((((Tree.add_child (((Tree.new 0).create_node 2).2) ⟨0⟩ ⟨1⟩).bind fun t1 =>
      (Tree.insert_before (t1.create_node 1).2 ⟨1⟩ ⟨2⟩)).bind fun t2 =>
      (Tree.insert_after (t2.create_node 3).2 ⟨1⟩ ⟨3⟩)).map
      (fun t => t.children_ids ⟨0⟩)) = some (some [⟨2⟩, ⟨1⟩, ⟨3⟩]) := by
  decide

end SanityChecks

section BasicLemmas

variable {T : Type}

theorem Slab.get_lt_length {s : Slab T} {k : Nat} {v : T} (h : s.get k = some v) :
    k < s.entries.length := by
  by_contra hk
  have : s.entries[k]? = none := by
    simp [List.getElem?_eq_none_iff]
    omega
  simp [Slab.get, this] at h

theorem Slab.get_setAt_self {s : Slab T} {k : Nat} {v w : T} (h : s.get k = some w) :
    (s.setAt k v).get k = some v := by
  have hk := Slab.get_lt_length h
  simp [Slab.get, Slab.setAt, List.getElem?_set, hk]

theorem Slab.get_setAt_ne (s : Slab T) {j k : Nat} (v : T) (h : j ≠ k) :
    (s.setAt k v).get j = s.get j := by
  simp [Slab.get, Slab.setAt, List.getElem?_set, (Ne.symm h)]

theorem Slab.length_setAt (s : Slab T) (k : Nat) (v : T) :
    (s.setAt k v).entries.length = s.entries.length := by
  simp [Slab.setAt]

theorem Slab.len_setAt (s : Slab T) (k : Nat) (v : T) : (s.setAt k v).len = s.len := rfl

theorem Slab.tryRemoveAt_eq_some {s : Slab T} {k : Nat} {v : T} (h : s.get k = some v) :
    s.tryRemoveAt k =
      some (v, ⟨s.entries.set k (.vacant s.next), s.len - 1, k⟩) := by
  simp only [Slab.get] at h
  simp only [Slab.tryRemoveAt]
  cases he : s.entries[k]? with
  | none => simp [he] at h
  | some e =>
    cases e with
    | vacant nxt => simp [he] at h
    | occupied w => simp [he] at h; subst h; rfl

theorem Slab.tryRemoveAt_eq_none {s : Slab T} {k : Nat} (h : s.get k = none) :
    s.tryRemoveAt k = none := by
  simp only [Slab.get] at h
  simp only [Slab.tryRemoveAt]
  cases he : s.entries[k]? with
  | none => rfl
  | some e =>
    cases e with
    | vacant nxt => rfl
    | occupied w => simp [he] at h

theorem Slab.get_tryRemoveAt_self {s s' : Slab T} {k : Nat} {v : T}
    (h : s.tryRemoveAt k = some (v, s')) : s'.get k = none := by
  simp only [Slab.tryRemoveAt] at h
  cases he : s.entries[k]? with
  | none => simp [he] at h
  | some e =>
    cases e with
    | vacant nxt => simp [he] at h
    | occupied w =>
      simp [he] at h
      have hk : k < s.entries.length := by
        by_contra hk
        have : s.entries[k]? = none := by simp [List.getElem?_eq_none_iff]; omega
        simp [this] at he
      cases h with
      | intro h1 h2 => subst h2; simp [Slab.get, List.getElem?_set, hk]

theorem Slab.get_tryRemoveAt_ne {s s' : Slab T} {j k : Nat} {v : T}
    (h : s.tryRemoveAt k = some (v, s')) (hne : j ≠ k) : s'.get j = s.get j := by
  simp only [Slab.tryRemoveAt] at h
  cases he : s.entries[k]? with
  | none => simp [he] at h
  | some e =>
    cases e with
    | vacant nxt => simp [he] at h
    | occupied w =>
      simp [he] at h
      cases h with
      | intro h1 h2 => subst h2; simp [Slab.get, List.getElem?_set, Ne.symm hne]

theorem Slab.length_tryRemoveAt {s s' : Slab T} {k : Nat} {v : T}
    (h : s.tryRemoveAt k = some (v, s')) : s'.entries.length = s.entries.length := by
  simp only [Slab.tryRemoveAt] at h
  cases he : s.entries[k]? with
  | none => simp [he] at h
  | some e =>
    cases e with
    | vacant nxt => simp [he] at h
    | occupied w =>
      simp [he] at h
      cases h with
      | intro h1 h2 => subst h2; simp

theorem Slab.len_tryRemoveAt {s s' : Slab T} {k : Nat} {v : T}
    (h : s.tryRemoveAt k = some (v, s')) : s'.len = s.len - 1 := by
  simp only [Slab.tryRemoveAt] at h
  cases he : s.entries[k]? with
  | none => simp [he] at h
  | some e =>
    cases e with
    | vacant nxt => simp [he] at h
    | occupied w =>
      simp [he] at h
      cases h with
      | intro h1 h2 => subst h2; rfl

theorem Slab.value_tryRemoveAt {s s' : Slab T} {k : Nat} {v : T}
    (h : s.tryRemoveAt k = some (v, s')) : s.get k = some v := by
  simp only [Slab.tryRemoveAt] at h
  cases he : s.entries[k]? with
  | none => simp [he] at h
  | some e =>
    cases e with
    | vacant nxt => simp [he] at h
    | occupied w => simp [he] at h; simp [Slab.get, he, h.1]

theorem Tree.getNode_setNode_self {t : Tree T} {id : NodeId} {n0 n : Node T}
    (h : t.getNode id = some n0) : (t.setNode id n).getNode id = some n :=
  Slab.get_setAt_self h

theorem Tree.getNode_setNode_ne (t : Tree T) {i j : NodeId} (n : Node T) (h : j ≠ i) :
    (t.setNode i n).getNode j = t.getNode j := by
  have : j.val ≠ i.val := by
    intro hv; exact h (by cases j; cases i; simpa using hv)
  exact Slab.get_setAt_ne t.nodes n this

theorem Tree.root_setNode (t : Tree T) (id : NodeId) (n : Node T) :
    (t.setNode id n).root = t.root := rfl

theorem Tree.get_eq_none_iff {t : Tree T} {id : NodeId} :
    t.get id = none ↔ t.getNode id = none := by
  simp [Tree.get]

theorem Tree.height_eq_some {t : Tree T} {p : NodeId} {h : Nat} (hh : t.height p = some h) :
    ∃ pn, t.getNode p = some pn ∧ pn.height = h := by
  unfold Tree.height at hh
  cases hg : t.getNode p with
  | none => simp [hg] at hh
  | some pn => exact ⟨pn, rfl, by simp [hg] at hh; exact hh⟩

theorem Tree.parent_id_eq_some {t : Tree T} {c p : NodeId} (hh : t.parent_id c = some p) :
    ∃ n, t.getNode c = some n ∧ n.parent = some p := by
  unfold Tree.parent_id at hh
  cases hg : t.getNode c with
  | none => simp [hg] at hh
  | some n => exact ⟨n, rfl, by simp [hg] at hh; exact hh⟩

theorem Tree.children_ids_eq_some {t : Tree T} {p : NodeId} {l : List NodeId}
    (hh : t.children_ids p = some l) : ∃ n, t.getNode p = some n ∧ n.children = l := by
  unfold Tree.children_ids at hh
  cases hg : t.getNode p with
  | none => simp [hg] at hh
  | some n => exact ⟨n, rfl, by simp [hg] at hh; exact hh⟩

theorem NodeId.val_ne {i j : NodeId} (h : i ≠ j) : i.val ≠ j.val := by
  intro hv
  exact h (by cases i; cases j; simpa using hv)

end BasicLemmas

section SlabTheory

variable {T : Type}

theorem Chain.mem_vacant {e : List (Entry T)} {n : Nat} {vs : List Nat}
    (h : Chain e n vs) : ∀ k ∈ vs, isVacantAt e k := by
  induction h with
  | nil => intro k hk; cases hk
  | cons hv _ ih =>
    intro k hk
    rcases List.mem_cons.mp hk with h1 | h2
    · subst h1; exact ⟨_, hv⟩
    · exact ih k h2

theorem Chain.deterministic {e : List (Entry T)} {n : Nat} {l1 l2 : List Nat}
    (h1 : Chain e n l1) (h2 : Chain e n l2) : l1 = l2 := by
  induction h1 generalizing l2 with
  | nil =>
    cases h2 with
    | nil => rfl
    | cons hv _ =>
      have : e.length < e.length := List.getElem?_eq_some_iff.mp hv |>.1
      omega
  | cons hv hc ih =>
    cases h2 with
    | nil =>
      have : e.length < e.length := List.getElem?_eq_some_iff.mp hv |>.1
      omega
    | cons hv2 hc2 =>
      rw [hv] at hv2
      cases hv2
      exact congrArg _ (ih hc2)

theorem Chain.suffix {e : List (Entry T)} {n : Nat} {l : List Nat} (h : Chain e n l) :
    ∀ pre k post, l = pre ++ k :: post → Chain e k (k :: post) := by
  induction h with
  | nil =>
    intro pre k post hp
    exact absurd hp (by simp)
  | cons hv hc ih =>
    intro pre k post hp
    cases pre with
    | nil =>
      simp at hp
      obtain ⟨h1, h2⟩ := hp
      subst h1; subst h2
      exact Chain.cons hv hc
    | cons a pre' =>
      simp at hp
      exact ih pre' k post hp.2

theorem Chain.nodup {e : List (Entry T)} {n : Nat} {l : List Nat} (h : Chain e n l) :
    l.Nodup := by
  induction h with
  | nil => exact List.nodup_nil
  | cons hv hc ih =>
    refine List.Nodup.cons ?_ ih
    intro hmem
    obtain ⟨pre, post, hsplit⟩ := List.append_of_mem hmem
    have hsuf := Chain.suffix hc pre _ post hsplit
    have heq := Chain.deterministic (Chain.cons hv hc) hsuf
    have hlen := congrArg List.length heq
    simp [hsplit] at hlen
    omega

theorem Chain.congr_entries {e e' : List (Entry T)} {n : Nat} {l : List Nat}
    (hlen : e'.length = e.length) (hag : ∀ j ∈ l, e'[j]? = e[j]?)
    (h : Chain e n l) : Chain e' n l := by
  induction h with
  | nil => rw [← hlen]; exact Chain.nil
  | cons hv hc ih =>
    refine Chain.cons ?_ (ih fun j hj => hag j (by simp [hj]))
    rw [hag _ (by simp)]
    exact hv

theorem isOccB_congr {e e' : List (Entry T)} {k : Nat} (h : e'[k]? = e[k]?) :
    isOccB e' k = isOccB e k := by
  unfold isOccB
  rw [h]

theorem occFinset_mem {e : List (Entry T)} {k : Nat} :
    k ∈ occFinset e ↔ k < e.length ∧ isOccB e k = true := by
  simp [occFinset]

theorem occ_mem_of_get {e : List (Entry T)} {k : Nat} {v : T}
    (h : e[k]? = some (.occupied v)) : k ∈ occFinset e := by
  refine occFinset_mem.mpr ⟨List.getElem?_eq_some_iff.mp h |>.1, ?_⟩
  simp [isOccB, h]

theorem occ_set_vacant {e : List (Entry T)} {k m : Nat} {v : T}
    (h : e[k]? = some (.occupied v)) :
    occupiedCount (e.set k (.vacant m)) + 1 = occupiedCount e := by
  have hk : k < e.length := List.getElem?_eq_some_iff.mp h |>.1
  have hset : occFinset (e.set k (.vacant m)) = (occFinset e).erase k := by
    ext j
    simp only [occFinset_mem, Finset.mem_erase, List.length_set]
    constructor
    · rintro ⟨hj, hocc⟩
      by_cases hjk : j = k
      · subst hjk
        simp [isOccB, List.getElem?_set, hj] at hocc
      · have hag : (e.set k (Entry.vacant m))[j]? = e[j]? := by
          simp [List.getElem?_set, Ne.symm hjk]
        exact ⟨hjk, hj, by rwa [isOccB_congr hag] at hocc⟩
    · rintro ⟨hjk, hj, hocc⟩
      have hag : (e.set k (Entry.vacant m))[j]? = e[j]? := by
        simp [List.getElem?_set, Ne.symm hjk]
      exact ⟨hj, by rwa [isOccB_congr hag]⟩
  unfold occupiedCount
  rw [hset]
  exact Finset.card_erase_add_one (occ_mem_of_get h)

theorem occ_set_occupied_of_vacant {e : List (Entry T)} {k m : Nat} {v : T}
    (h : e[k]? = some (.vacant m)) :
    occupiedCount (e.set k (.occupied v)) = occupiedCount e + 1 := by
  have hk : k < e.length := List.getElem?_eq_some_iff.mp h |>.1
  have hset : occFinset (e.set k (.occupied v)) = insert k (occFinset e) := by
    ext j
    simp only [occFinset_mem, Finset.mem_insert, List.length_set]
    constructor
    · rintro ⟨hj, hocc⟩
      by_cases hjk : j = k
      · exact Or.inl hjk
      · have hag : (e.set k (Entry.occupied v))[j]? = e[j]? := by
          simp [List.getElem?_set, Ne.symm hjk]
        exact Or.inr ⟨hj, by rwa [isOccB_congr hag] at hocc⟩
    · rintro (hjk | ⟨hj, hocc⟩)
      · subst hjk
        exact ⟨hk, by simp [isOccB, List.getElem?_set, hk]⟩
      · by_cases hjk : j = k
        · subst hjk; exact ⟨hk, by simp [isOccB, List.getElem?_set, hk]⟩
        · have hag : (e.set k (Entry.occupied v))[j]? = e[j]? := by
            simp [List.getElem?_set, Ne.symm hjk]
          exact ⟨hj, by rwa [isOccB_congr hag]⟩
  unfold occupiedCount
  rw [hset, Finset.card_insert_of_not_mem]
  intro hmem
  have := (occFinset_mem.mp hmem).2
  simp [isOccB, h] at this

theorem occ_set_occupied_of_occupied {e : List (Entry T)} {k : Nat} {w v : T}
    (h : e[k]? = some (.occupied w)) :
    occupiedCount (e.set k (.occupied v)) = occupiedCount e := by
  have hk : k < e.length := List.getElem?_eq_some_iff.mp h |>.1
  have hset : occFinset (e.set k (.occupied v)) = occFinset e := by
    ext j
    simp only [occFinset_mem, List.length_set]
    by_cases hjk : j = k
    · subst hjk
      simp [isOccB, List.getElem?_set, hk, h]
    · have hag : (e.set k (Entry.occupied v))[j]? = e[j]? := by
        simp [List.getElem?_set, Ne.symm hjk]
      rw [isOccB_congr hag]
  unfold occupiedCount
  rw [hset]

theorem occ_append_occupied (e : List (Entry T)) (v : T) :
    occupiedCount (e ++ [.occupied v]) = occupiedCount e + 1 := by
  have hset : occFinset (e ++ [.occupied v]) = insert e.length (occFinset e) := by
    ext j
    simp only [occFinset_mem, Finset.mem_insert, List.length_append, List.length_singleton]
    constructor
    · rintro ⟨hj, hocc⟩
      by_cases hjl : j = e.length
      · exact Or.inl hjl
      · have hjlt : j < e.length := by omega
        exact Or.inr ⟨hjlt, by rwa [isOccB_congr (List.getElem?_append_left hjlt)] at hocc⟩
    · rintro (hjl | ⟨hj, hocc⟩)
      · subst hjl
        exact ⟨by omega, by simp [isOccB, List.getElem?_concat_length]⟩
      · exact ⟨by omega, by rwa [isOccB_congr (List.getElem?_append_left hj)]⟩
  unfold occupiedCount
  rw [hset, Finset.card_insert_of_not_mem]
  intro hmem
  have := (occFinset_mem.mp hmem).1
  omega

theorem occupiedCount_le_length (e : List (Entry T)) : occupiedCount e ≤ e.length := by
  calc occupiedCount e ≤ (Finset.range e.length).card := Finset.card_le_card (Finset.filter_subset _ _)
  _ = e.length := Finset.card_range _

theorem isVacantAt_congr {e e' : List (Entry T)} {k : Nat} (h : e'[k]? = e[k]?) :
    isVacantAt e' k ↔ isVacantAt e k := by
  unfold isVacantAt
  rw [h]

theorem Slab.get_eq_some_iff {s : Slab T} {k : Nat} {w : T} :
    s.get k = some w ↔ s.entries[k]? = some (.occupied w) := by
  unfold Slab.get
  cases he : s.entries[k]? with
  | none => simp
  | some e =>
    cases e with
    | vacant m => simp
    | occupied u => simp

/-- `setAt` on an occupied slot preserves the slab invariant. -/
theorem SlabWF.setAt_occupied {s : Slab T} {k : Nat} {w : T} (wf : SlabWF s)
    (h : s.get k = some w) (v : T) : SlabWF (s.setAt k v) := by
  have he := Slab.get_eq_some_iff.mp h
  constructor
  · show s.len = _
    rw [wf.lenEq]
    exact (occ_set_occupied_of_occupied he).symm
  · obtain ⟨vs, hc, hcov⟩ := wf.free
    refine ⟨vs, ?_, ?_⟩
    · refine Chain.congr_entries (by simp [Slab.setAt]) ?_ hc
      intro j hj
      obtain ⟨m, hm⟩ := hc.mem_vacant j hj
      have hjk : j ≠ k := by
        intro hjk; subst hjk; rw [hm] at he; cases he
      simp [Slab.setAt, List.getElem?_set, Ne.symm hjk]
    · intro j hv
      by_cases hjk : j = k
      · subst hjk
        obtain ⟨m, hm⟩ := hv
        have hj2 : j < s.entries.length := List.getElem?_eq_some_iff.mp he |>.1
        simp [Slab.setAt, List.getElem?_set, hj2] at hm
      · refine hcov j ?_
        have hag : (s.setAt k v).entries[j]? = s.entries[j]? := by
          simp [Slab.setAt, List.getElem?_set, Ne.symm hjk]
        rwa [isVacantAt_congr hag] at hv

/-- `try_remove` on an occupied slot preserves the slab invariant. -/
theorem SlabWF.tryRemoveAt {s s' : Slab T} {k : Nat} {v : T} (wf : SlabWF s)
    (h : s.tryRemoveAt k = some (v, s')) : SlabWF s' := by
  have hv := Slab.value_tryRemoveAt h
  have he := Slab.get_eq_some_iff.mp hv
  have hs' : s' = ⟨s.entries.set k (.vacant s.next), s.len - 1, k⟩ := by
    have := Slab.tryRemoveAt_eq_some (v := v) hv
    rw [h] at this
    cases this
    rfl
  subst hs'
  constructor
  · show s.len - 1 = occupiedCount (s.entries.set k (.vacant s.next))
    rw [wf.lenEq]
    have := occ_set_vacant (m := s.next) he
    omega
  · obtain ⟨vs, hc, hcov⟩ := wf.free
    have hchain : Chain (s.entries.set k (.vacant s.next)) s.next vs := by
      refine Chain.congr_entries (by simp) ?_ hc
      intro j hj
      obtain ⟨m, hm⟩ := hc.mem_vacant j hj
      have hjk : j ≠ k := by
        intro hjk; subst hjk; rw [hm] at he; cases he
      simp [List.getElem?_set, Ne.symm hjk]
    have hk : k < s.entries.length := List.getElem?_eq_some_iff.mp he |>.1
    refine ⟨k :: vs, Chain.cons (by simp [List.getElem?_set, hk]) hchain, ?_⟩
    intro j hvj
    have hvj2 : isVacantAt (s.entries.set k (Entry.vacant s.next)) j := hvj
    by_cases hjk : j = k
    · simp [hjk]
    · simp only [List.mem_cons]
      refine Or.inr (hcov j ?_)
      have hag : (s.entries.set k (Entry.vacant s.next))[j]? = s.entries[j]? := by
        simp [List.getElem?_set, Ne.symm hjk]
      rwa [isVacantAt_congr hag] at hvj2

theorem Chain.eq_nil_of_end {e : List (Entry T)} {vs : List Nat}
    (h : Chain e e.length vs) : vs = [] := by
  cases h with
  | nil => rfl
  | cons hv _ =>
    have := List.getElem?_eq_some_iff.mp hv |>.1
    omega

theorem Chain.head_of_ne {e : List (Entry T)} {n : Nat} {vs : List Nat}
    (h : Chain e n vs) (hne : n ≠ e.length) :
    ∃ m ks, vs = n :: ks ∧ e[n]? = some (.vacant m) ∧ Chain e m ks := by
  cases h with
  | nil => exact absurd rfl hne
  | cons hv hc => exact ⟨_, _, rfl, hv, hc⟩

/-- `Slab::insert` specification: the chosen key was not occupied before,
afterwards it holds the value, every other slot is unchanged, `len`
increments, and the invariant is preserved. -/
theorem SlabWF.insert_spec {s : Slab T} (wf : SlabWF s) (v : T) :
    s.get (s.insert v).1 = none ∧
    (s.insert v).2.get (s.insert v).1 = some v ∧
    (∀ j, j ≠ (s.insert v).1 → (s.insert v).2.get j = s.get j) ∧
    (s.insert v).2.len = s.len + 1 ∧
    SlabWF (s.insert v).2 := by
  obtain ⟨vs, hc, hcov⟩ := wf.free
  by_cases hkey : s.next = s.entries.length
  · have hins : s.insert v =
        (s.next, ⟨s.entries ++ [.occupied v], s.len + 1, s.next + 1⟩) := by
      simp [Slab.insert, hkey]
    have hnil : vs = [] := Chain.eq_nil_of_end (hkey ▸ hc)
    subst hnil
    rw [hins]
    refine ⟨?_, ?_, ?_, rfl, ?_, ?_⟩
    · unfold Slab.get
      rw [hkey]
      simp [List.getElem?_eq_none_iff]
    · unfold Slab.get
      rw [hkey]
      simp [List.getElem?_concat_length]
    · intro j hj
      unfold Slab.get
      rcases Nat.lt_or_ge j s.entries.length with hlt | hge
      · rw [List.getElem?_append_left hlt]
      · have hgt : s.entries.length < j := by omega
        rw [List.getElem?_eq_none_iff.mpr (by simp; omega),
          List.getElem?_eq_none_iff.mpr (by omega)]
    · show s.len + 1 = _
      rw [wf.lenEq, occ_append_occupied]
    · refine ⟨[], ?_, ?_⟩
      · have : s.next + 1 = (s.entries ++ [Entry.occupied v]).length := by simp; omega
        rw [this]
        exact Chain.nil
      · intro k hvk
        obtain ⟨m, hm⟩ := hvk
        exfalso
        rcases Nat.lt_or_ge k s.entries.length with hlt | hge
        · rw [List.getElem?_append_left hlt] at hm
          exact absurd (hcov k ⟨m, hm⟩) (List.not_mem_nil k)
        · rw [List.getElem?_append_right hge] at hm
          rcases Nat.lt_or_ge (k - s.entries.length) 1 with h1 | h1
          · interval_cases h : k - s.entries.length
            · simp at hm
          · rw [List.getElem?_eq_none_iff.mpr (by simp; omega)] at hm
            cases hm
  · obtain ⟨m, ks, hvs, hv, hc2⟩ := Chain.head_of_ne hc hkey
    subst hvs
    have hnodup := Chain.nodup hc
    have hknotin : s.next ∉ ks := (List.nodup_cons.mp hnodup).1
    have hins : s.insert v =
        (s.next, ⟨s.entries.set s.next (.occupied v), s.len + 1, m⟩) := by
      simp [Slab.insert, hkey, hv]
    have hlt : s.next < s.entries.length := List.getElem?_eq_some_iff.mp hv |>.1
    rw [hins]
    refine ⟨?_, ?_, ?_, rfl, ?_, ?_⟩
    · simp [Slab.get, hv]
    · simp [Slab.get, List.getElem?_set, hlt]
    · intro j hj
      simp [Slab.get, List.getElem?_set, Ne.symm hj]
    · show s.len + 1 = occupiedCount (s.entries.set s.next (.occupied v))
      rw [wf.lenEq, occ_set_occupied_of_vacant hv]
    · refine ⟨ks, ?_, ?_⟩
      · refine Chain.congr_entries (by simp) ?_ hc2
        intro j hj
        have hjk : j ≠ s.next := fun h => hknotin (h ▸ hj)
        simp [List.getElem?_set, Ne.symm hjk]
      · intro j hvj
        have hvj2 : isVacantAt (s.entries.set s.next (Entry.occupied v)) j := hvj
        by_cases hjk : j = s.next
        · subst hjk
          obtain ⟨m2, hm2⟩ := hvj2
          simp [List.getElem?_set, hlt] at hm2
        · have hag : (s.entries.set s.next (Entry.occupied v))[j]? = s.entries[j]? := by
            simp [List.getElem?_set, Ne.symm hjk]
          have hvac : isVacantAt s.entries j := (isVacantAt_congr hag).mp hvj2
          have hm := hcov j hvac
          simp only [List.mem_cons] at hm
          rcases hm with h1 | h2
          · exact absurd h1 hjk
          · exact h2

end SlabTheory

section StructureTheory

variable {T : Type}

theorem Tree.live_of_parent_id {t : Tree T} {c p : NodeId} (h : t.parent_id c = some p) :
    ∃ n, t.getNode c = some n ∧ n.parent = some p :=
  Tree.parent_id_eq_some h

theorem Tree.parent_id_of_node {t : Tree T} {c : NodeId} {n : Node T}
    (h : t.getNode c = some n) : t.parent_id c = n.parent := by
  unfold Tree.parent_id
  rw [h]
  rfl

theorem Tree.children_ids_of_node {t : Tree T} {c : NodeId} {n : Node T}
    (h : t.getNode c = some n) : t.children_ids c = some n.children := by
  unfold Tree.children_ids
  rw [h]
  rfl

theorem Tree.height_of_node {t : Tree T} {c : NodeId} {n : Node T}
    (h : t.getNode c = some n) : t.height c = some n.height := by
  unfold Tree.height
  rw [h]
  rfl

theorem InTree.trans {t : Tree T} {a b c : NodeId} (h1 : InTree t a b)
    (h2 : InTree t b c) : InTree t a c := by
  induction h2 with
  | refl => exact h1
  | step _ hcs hmem ih => exact InTree.step ih hcs hmem

theorem InTree.congr_children {t t' : Tree T}
    (hag : ∀ x, t'.children_ids x = t.children_ids x) {a x : NodeId} :
    InTree t a x → InTree t' a x := by
  intro h
  induction h with
  | refl => exact InTree.refl a
  | step _ hcs hmem ih => exact InTree.step ih (by rw [hag]; exact hcs) hmem

theorem WF.up_of_in {t : Tree T} (wf : WF t) {a x : NodeId} (h : InTree t a x) :
    UpChain t x a := by
  induction h with
  | refl => exact UpChain.refl _
  | step _ hcs hmem ih =>
    rename_i b c cs hb
    obtain ⟨bn, hbn, hbc⟩ := Tree.children_ids_eq_some hcs
    have hpc : t.parent_id c = some b := wf.child_par b bn hbn c (hbc ▸ hmem)
    exact UpChain.step hpc ih

theorem WF.in_of_up {t : Tree T} (wf : WF t) {a x : NodeId} (h : UpChain t x a) :
    InTree t a x := by
  induction h with
  | refl => exact InTree.refl _
  | step hp _ ih =>
    obtain ⟨pn, hpn, hmem⟩ := wf.par_child _ _ hp
    exact InTree.step ih (Tree.children_ids_of_node hpn) hmem

/-- Going up strictly decreases the rank (or stays put). -/
theorem UpChain.rank_gt_of_ne {t : Tree T} {d : Nat → Nat}
    (hd : ∀ c p, t.parent_id c = some p → d c.val = d p.val + 1) {x a : NodeId}
    (h : UpChain t x a) : a = x ∨ d a.val < d x.val := by
  induction h with
  | refl => exact Or.inl rfl
  | step hp _ ih =>
    have heq := hd _ _ hp
    refine Or.inr ?_
    rcases ih with h1 | h1
    · rw [h1]
      omega
    · omega

/-- Parent chains are deterministic: two ancestors at the same rank agree. -/
theorem UpChain.unique {t : Tree T} {d : Nat → Nat}
    (hd : ∀ c p, t.parent_id c = some p → d c.val = d p.val + 1) {x a b : NodeId}
    (h1 : UpChain t x a) (h2 : UpChain t x b) (heq : d a.val = d b.val) : a = b := by
  induction h1 generalizing b with
  | refl =>
    rename_i z
    rcases UpChain.rank_gt_of_ne hd h2 with h3 | h3
    · exact h3.symm
    · omega
  | step hp hc ih =>
    rename_i y p c
    cases h2 with
    | refl =>
      rcases UpChain.rank_gt_of_ne hd (UpChain.step hp hc) with h3 | h3
      · exact h3
      · omega
    | step hp2 hc2 =>
      rename_i p2
      rw [hp] at hp2
      cases hp2
      exact ih hc2 heq

theorem InTree.rank_gt_of_ne_anchor {t : Tree T} (wf : WF t) {d : Nat → Nat}
    (hd : ∀ c p, t.parent_id c = some p → d c.val = d p.val + 1) {a x : NodeId}
    (h : InTree t a x) : x = a ∨ d a.val < d x.val := by
  rcases UpChain.rank_gt_of_ne hd (wf.up_of_in h) with h1 | h1
  · exact Or.inl h1.symm
  · exact Or.inr h1

/-- Two subtree roots at the same rank containing a common node coincide. -/
theorem InTree.anchor_unique {t : Tree T} (wf : WF t) {d : Nat → Nat}
    (hd : ∀ c p, t.parent_id c = some p → d c.val = d p.val + 1) {a b x : NodeId}
    (h1 : InTree t a x) (h2 : InTree t b x) (heq : d a.val = d b.val) : a = b :=
  UpChain.unique hd (wf.up_of_in h1) (wf.up_of_in h2) heq

theorem InTree.parent_mem {t : Tree T} (wf : WF t) {a x q : NodeId}
    (h : InTree t a x) (hne : x ≠ a) (hq : t.parent_id x = some q) : InTree t a q := by
  cases h with
  | refl => exact absurd rfl hne
  | step hb hcs hmem =>
    rename_i b cs
    obtain ⟨bn, hbn, hbc⟩ := Tree.children_ids_eq_some hcs
    have := wf.child_par b bn hbn x (hbc ▸ hmem)
    rw [hq] at this
    cases this
    exact hb

theorem SubF.nil_inv {t : Tree T} {L : List NodeId} (h : SubF t [] L) : L = [] := by
  cases h
  rfl

theorem SubF.subset {t : Tree T} {ids L : List NodeId} (h : SubF t ids L) :
    ∀ a ∈ ids, a ∈ L := by
  induction h with
  | nil => intro a ha; cases ha
  | cons hcs hsub hrest ih1 ih2 =>
    intro a ha
    rcases List.mem_cons.mp ha with h1 | h1
    · simp [h1]
    · simp [ih2 a h1]

theorem SubF.mem_live {t : Tree T} {ids L : List NodeId} (h : SubF t ids L) :
    ∀ x ∈ L, ∃ cs, t.children_ids x = some cs := by
  induction h with
  | nil => intro x hx; cases hx
  | cons hcs hsub hrest ih1 ih2 =>
    intro x hx
    rcases List.mem_cons.mp hx with h1 | h1
    · subst h1; exact ⟨_, hcs⟩
    · rcases List.mem_append.mp h1 with h2 | h2
      · exact ih1 x h2
      · exact ih2 x h2

theorem SubF.closed {t : Tree T} {ids L : List NodeId} (h : SubF t ids L) :
    ∀ x ∈ L, ∀ cs, t.children_ids x = some cs → ∀ c ∈ cs, c ∈ L := by
  induction h with
  | nil => intro x hx; cases hx
  | cons hcs hsub hrest ih1 ih2 =>
    rename_i id cs0 rest l l2
    intro x hx cs hcsx c hc
    rcases List.mem_cons.mp hx with h1 | h1
    · subst h1
      rw [hcs] at hcsx
      cases hcsx
      have := SubF.subset hsub c hc
      simp [this]
    · rcases List.mem_append.mp h1 with h2 | h2
      · have := ih1 x h2 cs hcsx c hc
        simp [this]
      · have := ih2 x h2 cs hcsx c hc
        simp [this]

theorem SubF.mem_under {t : Tree T} {ids L : List NodeId} (h : SubF t ids L) :
    ∀ x ∈ L, ∃ a ∈ ids, InTree t a x := by
  induction h with
  | nil => intro x hx; cases hx
  | cons hcs hsub hrest ih1 ih2 =>
    rename_i id cs0 rest l l2
    intro x hx
    rcases List.mem_cons.mp hx with h1 | h1
    · subst h1
      exact ⟨x, by simp, InTree.refl x⟩
    · rcases List.mem_append.mp h1 with h2 | h2
      · obtain ⟨c, hc, hin⟩ := ih1 x h2
        exact ⟨id, by simp, InTree.trans (InTree.step (InTree.refl id) hcs hc) hin⟩
      · obtain ⟨b, hb, hin⟩ := ih2 x h2
        exact ⟨b, by simp [hb], hin⟩

theorem SubF.congr_tree {t t' : Tree T} {ids L : List NodeId} (h : SubF t ids L)
    (hag : ∀ x ∈ L, t'.children_ids x = t.children_ids x) : SubF t' ids L := by
  induction h with
  | nil => exact SubF.nil
  | cons hcs hsub hrest ih1 ih2 =>
    rename_i id cs0 rest l l2
    refine SubF.cons ?_ (ih1 ?_) (ih2 ?_)
    · rw [hag id (by simp)]; exact hcs
    · intro x hx; exact hag x (by simp [hx])
    · intro x hx; exact hag x (by simp [hx])

theorem SubF.sub_mem {t : Tree T} {ids L : List NodeId} (h : SubF t ids L)
    {a x : NodeId} (ha : a ∈ ids) (hin : InTree t a x) : x ∈ L := by
  induction hin with
  | refl => exact SubF.subset h a ha
  | step _ hcs hmem ih => exact SubF.closed h _ ih _ hcs _ hmem

theorem SubF.mem_iff {t : Tree T} {a : NodeId} {L : List NodeId} (h : SubF t [a] L)
    {x : NodeId} : x ∈ L ↔ InTree t a x := by
  constructor
  · intro hx
    obtain ⟨b, hb, hin⟩ := SubF.mem_under h x hx
    simp at hb
    subst hb
    exact hin
  · intro hin
    exact SubF.sub_mem h (by simp) hin

theorem SubF.singleton_inv {t : Tree T} {a : NodeId} {L : List NodeId}
    (h : SubF t [a] L) :
    ∃ cs l, t.children_ids a = some cs ∧ SubF t cs l ∧ L = a :: (l ++ []) := by
  cases h with
  | cons hcs hsub hrest =>
    have := SubF.nil_inv hrest
    subst this
    exact ⟨_, _, hcs, hsub, rfl⟩

/-- Depth-first enumerations of sibling forests have no duplicates, given
well-formedness, a rank function, and roots of equal rank. -/
theorem SubF.nodup_of {t : Tree T} (wf : WF t) {d : Nat → Nat}
    (hd : ∀ c p, t.parent_id c = some p → d c.val = d p.val + 1) :
    ∀ {ids L : List NodeId}, SubF t ids L → ids.Nodup →
      (∀ a ∈ ids, ∀ b ∈ ids, d a.val = d b.val) → L.Nodup := by
  intro ids L h
  induction h with
  | nil => intro _ _; exact List.nodup_nil
  | cons hcs hsub hrest ih1 ih2 =>
    rename_i id cs0 rest l l2
    intro hnodup hranks
    obtain ⟨idn, hidn, hchil⟩ := Tree.children_ids_eq_some hcs
    have hcs0 : ∀ c ∈ cs0, t.parent_id c = some id := by
      intro c hc
      exact wf.child_par id idn hidn c (hchil ▸ hc)
    have hl : l.Nodup := by
      refine ih1 ?_ ?_
      · exact hchil ▸ wf.child_nodup id idn hidn
      · intro a ha b hb
        rw [hd a id (hcs0 a ha), hd b id (hcs0 b hb)]
    have hl2 : l2.Nodup := by
      refine ih2 (List.nodup_cons.mp hnodup).2 ?_
      intro a ha b hb
      exact hranks a (by simp [ha]) b (by simp [hb])
    have hidl : ∀ x ∈ l, InTree t id x ∧ d id.val < d x.val := by
      intro x hx
      obtain ⟨c, hc, hin⟩ := SubF.mem_under hsub x hx
      have hinc : InTree t id x :=
        InTree.trans (InTree.step (InTree.refl id) hcs hc) hin
      have hcr := hd c id (hcs0 c hc)
      rcases InTree.rank_gt_of_ne_anchor wf hd hin with h1 | h1
      · subst h1; exact ⟨hinc, by omega⟩
      · exact ⟨hinc, by omega⟩
    have hidnotl : id ∉ l := by
      intro hmem
      have := (hidl id hmem).2
      omega
    have hidnotl2 : id ∉ l2 := by
      intro hmem
      obtain ⟨b, hb, hin⟩ := SubF.mem_under hrest id hmem
      have hbid : b ≠ id := by
        intro h1
        subst h1
        exact (List.nodup_cons.mp hnodup).1 hb
      rcases InTree.rank_gt_of_ne_anchor wf hd hin with h1 | h1
      · exact hbid h1.symm
      · have := hranks b (by simp [hb]) id (by simp)
        omega
    have hdisj : l.Disjoint l2 := by
      intro x hx hx2
      obtain ⟨b, hb, hin⟩ := SubF.mem_under hrest x hx2
      have hinid := (hidl x hx).1
      have hrank : d b.val = d id.val := hranks b (by simp [hb]) id (by simp)
      have hbid : b = id := InTree.anchor_unique wf hd hin hinid hrank
      subst hbid
      exact (List.nodup_cons.mp hnodup).1 hb
    refine List.nodup_cons.mpr ⟨?_, List.nodup_append.mpr ⟨hl, hl2, hdisj⟩⟩
    simp only [List.mem_append]
    rintro (h1 | h1)
    · exact hidnotl h1
    · exact hidnotl2 h1

theorem NodeId.val_injective : Function.Injective NodeId.val := by
  intro a b h
  cases a; cases b; simpa using h

theorem live_nodup_length_le {t : Tree T} {l : List NodeId} (hnd : l.Nodup)
    (hlive : ∀ x ∈ l, ∃ n, t.getNode x = some n) :
    l.length ≤ occupiedCount t.nodes.entries := by
  have hmapnd : (l.map NodeId.val).Nodup := hnd.map NodeId.val_injective
  have hsub : (l.map NodeId.val).toFinset ⊆ occFinset t.nodes.entries := by
    intro k hk
    rw [List.mem_toFinset, List.mem_map] at hk
    obtain ⟨x, hx, hxk⟩ := hk
    obtain ⟨n, hn⟩ := hlive x hx
    have : t.nodes.entries[x.val]? = some (.occupied n) := Slab.get_eq_some_iff.mp hn
    exact hxk ▸ occ_mem_of_get this
  calc l.length = (l.map NodeId.val).length := by simp
  _ = (l.map NodeId.val).toFinset.card := (List.toFinset_card_of_nodup hmapnd).symm
  _ ≤ occupiedCount t.nodes.entries := Finset.card_le_card hsub

/-- Every live node has a depth-first subtree enumeration (strong
induction on the number of live slots at unchanged or deeper rank). -/
theorem SubF.exists_aux {t : Tree T} (wf : WF t) {d : Nat → Nat}
    (hd : ∀ c p, t.parent_id c = some p → d c.val = d p.val + 1) :
    ∀ N (a : NodeId) (n : Node T),
      ((occFinset t.nodes.entries).filter fun k => d a.val ≤ d k).card < N →
      t.getNode a = some n → ∃ L, SubF t [a] L := by
  intro N
  induction N with
  | zero =>
    intro a n hcard
    omega
  | succ N ih =>
    intro a n hcard hn
    have hmu : ∀ c ∈ n.children,
        ((occFinset t.nodes.entries).filter fun k => d c.val ≤ d k).card < N := by
      intro c hc
      have hpc : t.parent_id c = some a := wf.child_par a n hn c hc
      have hdc : d c.val = d a.val + 1 := hd c a hpc
      have hsub : ((occFinset t.nodes.entries).filter fun k => d c.val ≤ d k) ⊆
          ((occFinset t.nodes.entries).filter fun k => d a.val ≤ d k) := by
        intro k hk
        rw [Finset.mem_filter] at hk ⊢
        exact ⟨hk.1, by omega⟩
      have hamem : a.val ∈ (occFinset t.nodes.entries).filter fun k => d a.val ≤ d k := by
        rw [Finset.mem_filter]
        exact ⟨occ_mem_of_get (Slab.get_eq_some_iff.mp hn), le_refl _⟩
      have hanot : a.val ∉ (occFinset t.nodes.entries).filter fun k => d c.val ≤ d k := by
        rw [Finset.mem_filter]
        rintro ⟨-, hle⟩
        omega
      have hss := (Finset.ssubset_iff_of_subset hsub).mpr ⟨a.val, hamem, hanot⟩
      have := Finset.card_lt_card hss
      omega
    have hforest : ∀ cs : List NodeId, (∀ c ∈ cs, c ∈ n.children) → ∃ l, SubF t cs l := by
      intro cs
      induction cs with
      | nil => exact fun _ => ⟨[], SubF.nil⟩
      | cons c cs' ihc =>
        intro hsubm
        obtain ⟨l', hl'⟩ := ihc fun x hx => hsubm x (by simp [hx])
        have hcmem := hsubm c (by simp)
        have hpc : t.parent_id c = some a := wf.child_par a n hn c hcmem
        obtain ⟨cn, hcn, -⟩ := Tree.parent_id_eq_some hpc
        obtain ⟨Lc, hLc⟩ := ih c cn (hmu c hcmem) hcn
        obtain ⟨ccs, lc, hccs, hsubc, hLceq⟩ := SubF.singleton_inv hLc
        exact ⟨c :: (lc ++ l'), SubF.cons hccs hsubc hl'⟩
    obtain ⟨l, hl⟩ := hforest n.children fun _ h => h
    exact ⟨a :: (l ++ []), SubF.cons (Tree.children_ids_of_node hn) hl SubF.nil⟩

theorem SubF.exists_of_live {t : Tree T} (wf : WF t) {a : NodeId} {n : Node T}
    (hn : t.getNode a = some n) : ∃ L, SubF t [a] L := by
  obtain ⟨d, hd⟩ := wf.rank
  exact SubF.exists_aux wf hd _ a n (Nat.lt_succ_self _) hn

theorem SubF.nodup_single {t : Tree T} (wf : WF t) {a : NodeId} {L : List NodeId}
    (h : SubF t [a] L) : L.Nodup := by
  obtain ⟨d, hd⟩ := wf.rank
  refine SubF.nodup_of wf hd h (by simp) ?_
  intro x hx y hy
  simp at hx hy
  subst hx; subst hy; rfl

end StructureTheory

section SetHeightTheory

variable {T : Type}

theorem Slab.get_congr {s s' : Slab T} {k : Nat} (h : s'.entries[k]? = s.entries[k]?) :
    s'.get k = s.get k := by
  unfold Slab.get
  rw [h]

theorem Tree.entries_setNode_ne {t : Tree T} {id : NodeId} {n : Node T} {k : Nat}
    (hk : k ≠ id.val) : (t.setNode id n).nodes.entries[k]? = t.nodes.entries[k]? := by
  show (t.nodes.entries.set id.val (.occupied n))[k]? = _
  simp [List.getElem?_set, Ne.symm hk]

theorem Tree.getNode_congr {t t' : Tree T} {x : NodeId}
    (h : t'.nodes.entries[x.val]? = t.nodes.entries[x.val]?) : t'.getNode x = t.getNode x :=
  Slab.get_congr h

theorem mem_vals {l : List NodeId} {x : NodeId} : x.val ∈ l.map NodeId.val ↔ x ∈ l := by
  rw [List.mem_map]
  constructor
  · rintro ⟨y, hy, hv⟩
    have : y = x := NodeId.val_injective hv
    exact this ▸ hy
  · intro h
    exact ⟨x, h, rfl⟩

/-- Effect of the fueled `set_height` worklist on an enumerated forest:
with enough fuel it succeeds; slots outside the forest are untouched; the
forest members keep value, parent and children and get new heights; every
worklist root ends at height `h`; and inside the forest each child sits
exactly one (wrapped) step below its parent. -/
theorem setHeightList_effect {t0 : Tree T} {ids L : List NodeId}
    (hsf : SubF t0 ids L) :
    ∀ (fuel : Nat) (t : Tree T) (h : Nat),
      L.Nodup →
      (∀ x ∈ L, ∃ n, t.getNode x = some n ∧ t0.children_ids x = some n.children) →
      2 * L.length + 1 ≤ fuel →
      ∃ t', Tree.setHeightList fuel t ids h = some t' ∧
        (∀ k : Nat, k ∉ L.map NodeId.val → t'.nodes.entries[k]? = t.nodes.entries[k]?) ∧
        t'.nodes.entries.length = t.nodes.entries.length ∧
        t'.nodes.len = t.nodes.len ∧
        t'.nodes.next = t.nodes.next ∧
        t'.root = t.root ∧
        (∀ x ∈ L, ∃ n, t.getNode x = some n ∧
          ∃ hh, t'.getNode x = some { n with height := hh }) ∧
        (∀ a ∈ ids, t'.height a = some h) ∧
        (∀ x ∈ L, ∀ cs, t0.children_ids x = some cs → ∀ c ∈ cs,
          ∃ hx, t'.height x = some hx ∧ t'.height c = some (u16Mod (hx + 1))) := by
  induction hsf with
  | nil =>
    intro fuel t h _ _ _
    refine ⟨t, ?_, ?_⟩
    · cases fuel <;> rfl
    · exact ⟨fun _ _ => rfl, rfl, rfl, rfl, rfl, fun x hx => absurd hx (List.not_mem_nil x),
        fun a ha => absurd ha (List.not_mem_nil a), fun x hx => absurd hx (List.not_mem_nil x)⟩
  | cons hcs hsub hrest ih1 ih2 =>
    rename_i id cs rest l l2
    intro fuel t h hnodup hag hfuel
    simp only [List.length_cons, List.length_append] at hfuel
    obtain ⟨n, hn, hnch⟩ := hag id (by simp)
    have hchil : n.children = cs := by
      rw [hcs] at hnch
      exact (Option.some.injEq _ _ ▸ hnch :).symm
    cases fuel with
    | zero => omega
    | succ f =>
      have hnodup2 := List.nodup_cons.mp hnodup
      have hnodupl := (List.nodup_append.mp hnodup2.2).1
      have hnodupl2 := (List.nodup_append.mp hnodup2.2).2.1
      have hdisj := (List.nodup_append.mp hnodup2.2).2.2
      have hidl : id ∉ l := fun hmem => hnodup2.1 (by simp [hmem])
      have hidl2 : id ∉ l2 := fun hmem => hnodup2.1 (by simp [hmem])
      set t1 := t.setNode id { n with height := h } with ht1
      have hag1 : ∀ x ∈ l, ∃ nx, t1.getNode x = some nx ∧ t0.children_ids x = some nx.children := by
        intro x hx
        obtain ⟨nx, hnx, hnxch⟩ := hag x (by simp [hx])
        refine ⟨nx, ?_, hnxch⟩
        rw [ht1, Tree.getNode_setNode_ne _ _ (show x ≠ id from fun he => hidl (he ▸ hx))]
        exact hnx
      obtain ⟨t2, heq2, hout2, hlen2, hslen2, hnext2, hroot2, hshape2, htop2, hin2⟩ :=
        ih1 f t1 (u16Mod (h + 1)) hnodupl hag1 (by omega)
      have hpres12 : ∀ x : NodeId, x ∉ l → t2.getNode x = t1.getNode x := by
        intro x hx
        exact Tree.getNode_congr (hout2 x.val (fun hm => hx (mem_vals.mp hm)))
      have hag2 : ∀ x ∈ l2, ∃ nx, t2.getNode x = some nx ∧ t0.children_ids x = some nx.children := by
        intro x hx
        obtain ⟨nx, hnx, hnxch⟩ := hag x (by simp [hx])
        have hxl : x ∉ l := fun hm => hdisj hm hx
        refine ⟨nx, ?_, hnxch⟩
        rw [hpres12 x hxl, ht1,
          Tree.getNode_setNode_ne _ _ (show x ≠ id from fun he => hidl2 (he ▸ hx))]
        exact hnx
      obtain ⟨t3, heq3, hout3, hlen3, hslen3, hnext3, hroot3, hshape3, htop3, hin3⟩ :=
        ih2 f t2 h hnodupl2 hag2 (by omega)
      have hpres23 : ∀ x : NodeId, x ∉ l2 → t3.getNode x = t2.getNode x := by
        intro x hx
        exact Tree.getNode_congr (hout3 x.val (fun hm => hx (mem_vals.mp hm)))
      have heq2' : Tree.setHeightList f t1 n.children (u16Mod (h + 1)) = some t2 := by
        rw [hchil]; exact heq2
      have hrun : Tree.setHeightList (f + 1) t (id :: rest) h = some t3 := by
        show (match t.getNode id with
          | none => none
          | some n =>
            match Tree.setHeightList f (t.setNode id { n with height := h })
                n.children (u16Mod (h + 1)) with
            | none => none
            | some t2 => Tree.setHeightList f t2 rest h) = some t3
        rw [hn]
        simp only [← ht1, heq2', heq3]
      have hid3 : t3.getNode id = some { n with height := h } := by
        rw [hpres23 id hidl2, hpres12 id hidl, ht1]
        exact Tree.getNode_setNode_self hn
      refine ⟨t3, hrun, ?_, ?_, ?_, ?_, ?_, ?_, ?_, ?_⟩
      · intro k hk
        have hkid : k ≠ id.val := fun he => hk (by simp [he])
        have hkl : k ∉ l.map NodeId.val := fun hm => hk (by simp [hm])
        have hkl2 : k ∉ l2.map NodeId.val := fun hm => hk (by simp [hm])
        rw [hout3 k hkl2, hout2 k hkl, ht1, Tree.entries_setNode_ne hkid]
      · rw [hlen3, hlen2, ht1]
        show (t.nodes.entries.set id.val _).length = _
        simp
      · rw [hslen3, hslen2]; rfl
      · rw [hnext3, hnext2]; rfl
      · rw [hroot3, hroot2]; rfl
      · intro x hx
        rcases List.mem_cons.mp hx with h1 | h1
        · subst h1
          exact ⟨n, hn, h, hid3⟩
        · rcases List.mem_append.mp h1 with h2 | h2
          · obtain ⟨nx, hnx1, hh, hnx2⟩ := hshape2 x h2
            obtain ⟨nx0, hnx0, hnxch0⟩ := hag x (by simp [h1])
            have : t1.getNode x = some nx0 := by
              rw [ht1, Tree.getNode_setNode_ne _ _ (show x ≠ id from fun he => hidl (he ▸ h2))]
              exact hnx0
            rw [this] at hnx1
            have hinj : nx0 = nx := by injection hnx1
            subst hinj
            refine ⟨nx0, hnx0, hh, ?_⟩
            rw [hpres23 x (fun hm => hdisj h2 hm)]
            exact hnx2
          · obtain ⟨nx, hnx1, hh, hnx2⟩ := hshape3 x h2
            obtain ⟨nx0, hnx0, hnxch0⟩ := hag x (by simp [h1])
            have : t2.getNode x = some nx0 := by
              rw [hpres12 x (fun hm => hdisj hm h2), ht1,
                Tree.getNode_setNode_ne _ _ (show x ≠ id from fun he => hidl2 (he ▸ h2))]
              exact hnx0
            rw [this] at hnx1
            have hinj : nx0 = nx := by injection hnx1
            subst hinj
            exact ⟨nx0, hnx0, hh, hnx2⟩
      · intro a ha
        rcases List.mem_cons.mp ha with h1 | h1
        · subst h1
          rw [Tree.height_of_node hid3]
        · exact htop3 a h1
      · intro x hx cs2 hcs2 c hc
        rcases List.mem_cons.mp hx with h1 | h1
        · subst h1
          rw [hcs] at hcs2
          cases hcs2
          have hcl : c ∈ l := SubF.subset hsub c hc
          refine ⟨h, Tree.height_of_node hid3, ?_⟩
          have hct2 := htop2 c hc
          have : t3.getNode c = t2.getNode c := hpres23 c (fun hm => hdisj hcl hm)
          unfold Tree.height at hct2 ⊢
          rw [this]
          exact hct2
        · rcases List.mem_append.mp h1 with h2 | h2
          · obtain ⟨hx2, hhx2, hhc2⟩ := hin2 x h2 cs2 hcs2 c hc
            have hcl : c ∈ l := SubF.closed hsub x h2 cs2 hcs2 c hc
            refine ⟨hx2, ?_, ?_⟩
            · unfold Tree.height at hhx2 ⊢
              rw [hpres23 x (fun hm => hdisj h2 hm)]
              exact hhx2
            · unfold Tree.height at hhc2 ⊢
              rw [hpres23 c (fun hm => hdisj hcl hm)]
              exact hhc2
          · exact hin3 x h2 cs2 hcs2 c hc

end SetHeightTheory

section RemovalTheory

variable {T : Type}

/-- Effect of the fueled `remove_recursive` worklist on an enumerated
forest: with enough fuel it succeeds, the forest slots become vacant,
every other slot is untouched, `len` drops by the forest size, and the
slab invariant is preserved. -/
theorem removeRecList_effect {t0 : Tree T} {ids L : List NodeId} (hsf : SubF t0 ids L) :
    ∀ (fuel : Nat) (s : Slab (Node T)),
      L.Nodup →
      (∀ x ∈ L, s.get x.val = t0.getNode x) →
      2 * L.length + 1 ≤ fuel →
      ∃ s', Tree.removeRecList fuel s ids = some s' ∧
        (∀ x ∈ L, s'.get x.val = none) ∧
        (∀ k : Nat, k ∉ L.map NodeId.val → s'.entries[k]? = s.entries[k]?) ∧
        s'.entries.length = s.entries.length ∧
        s'.len = s.len - L.length ∧
        (SlabWF s → SlabWF s') := by
  induction hsf with
  | nil =>
    intro fuel s _ _ _
    refine ⟨s, by cases fuel <;> rfl, fun x hx => absurd hx (List.not_mem_nil x),
      fun _ _ => rfl, rfl, by simp, fun h => h⟩
  | cons hcs hsub hrest ih1 ih2 =>
    rename_i id cs rest l l2
    intro fuel s hnodup hag hfuel
    simp only [List.length_cons, List.length_append] at hfuel
    obtain ⟨n0, hn0, hn0ch⟩ := Tree.children_ids_eq_some hcs
    have hgetid : s.get id.val = some n0 := by rw [hag id (by simp)]; exact hn0
    cases fuel with
    | zero => omega
    | succ f =>
      have hnodup2 := List.nodup_cons.mp hnodup
      have hnodupl := (List.nodup_append.mp hnodup2.2).1
      have hnodupl2 := (List.nodup_append.mp hnodup2.2).2.1
      have hdisj := (List.nodup_append.mp hnodup2.2).2.2
      have hidl : id ∉ l := fun hmem => hnodup2.1 (by simp [hmem])
      have hidl2 : id ∉ l2 := fun hmem => hnodup2.1 (by simp [hmem])
      have htr := Slab.tryRemoveAt_eq_some hgetid
      set s1 : Slab (Node T) :=
        ⟨s.entries.set id.val (.vacant s.next), s.len - 1, id.val⟩ with hs1
      have hs1get : ∀ x : NodeId, x ≠ id → s1.get x.val = s.get x.val := by
        intro x hx
        exact Slab.get_tryRemoveAt_ne htr (NodeId.val_ne hx)
      have hag1 : ∀ x ∈ l, s1.get x.val = t0.getNode x := by
        intro x hx
        rw [hs1get x (fun he => hidl (he ▸ hx))]
        exact hag x (by simp [hx])
      obtain ⟨s2, heq2, hdead2, hout2, hlen2, hslen2, hwf2⟩ :=
        ih1 f s1 hnodupl hag1 (by omega)
      have hpres12 : ∀ x : NodeId, x ∉ l → s2.get x.val = s1.get x.val := by
        intro x hx
        exact Slab.get_congr (hout2 x.val (fun hm => hx (mem_vals.mp hm)))
      have hag2 : ∀ x ∈ l2, s2.get x.val = t0.getNode x := by
        intro x hx
        rw [hpres12 x (fun hm => hdisj hm hx), hs1get x (fun he => hidl2 (he ▸ hx))]
        exact hag x (by simp [hx])
      obtain ⟨s3, heq3, hdead3, hout3, hlen3, hslen3, hwf3⟩ :=
        ih2 f s2 hnodupl2 hag2 (by omega)
      have hpres23 : ∀ x : NodeId, x ∉ l2 → s3.get x.val = s2.get x.val := by
        intro x hx
        exact Slab.get_congr (hout3 x.val (fun hm => hx (mem_vals.mp hm)))
      have hrun : Tree.removeRecList (f + 1) s (id :: rest) = some s3 := by
        show (match s.tryRemoveAt id.val with
          | none => none
          | some (n, s1) =>
            match Tree.removeRecList f s1 n.children with
            | none => none
            | some s2 => Tree.removeRecList f s2 rest) = some s3
        rw [htr]
        have heq2' : Tree.removeRecList f s1 n0.children = some s2 := by
          rw [hn0ch]; exact heq2
        simp only [← hs1, heq2', heq3]
      refine ⟨s3, hrun, ?_, ?_, ?_, ?_, ?_⟩
      · intro x hx
        rcases List.mem_cons.mp hx with h1 | h1
        · subst h1
          rw [hpres23 x hidl2, hpres12 x hidl]
          exact Slab.get_tryRemoveAt_self htr
        · rcases List.mem_append.mp h1 with h2 | h2
          · rw [hpres23 x (fun hm => hdisj h2 hm)]
            exact hdead2 x h2
          · exact hdead3 x h2
      · intro k hk
        have hkid : k ≠ id.val := fun he => hk (by simp [he])
        have hkl : k ∉ l.map NodeId.val := fun hm => hk (by simp [hm])
        have hkl2 : k ∉ l2.map NodeId.val := fun hm => hk (by simp [hm])
        rw [hout3 k hkl2, hout2 k hkl, hs1]
        show (s.entries.set id.val (.vacant s.next))[k]? = _
        simp [List.getElem?_set, Ne.symm hkid]
      · rw [hlen3, hlen2, hs1]
        simp
      · rw [hslen3, hslen2, hs1]
        simp only [List.length_cons, List.length_append]
        omega
      · intro hwf
        exact hwf3 (hwf2 (SlabWF.tryRemoveAt hwf htr))

theorem UpChain.eq_of_parent_none {t : Tree T} {x a : NodeId} (h : UpChain t x a)
    (hp : t.parent_id x = none) : a = x := by
  cases h with
  | refl => rfl
  | step hstep _ => rw [hp] at hstep; cases hstep

theorem root_not_in_subtree {t : Tree T} (wf : WF t) {id : NodeId} (hne : id ≠ t.root) :
    ¬ InTree t id t.root := by
  intro hin
  have := UpChain.eq_of_parent_none (wf.up_of_in hin) wf.root_par
  exact hne this

theorem parent_not_in_subtree {t : Tree T} (wf : WF t) {id p : NodeId}
    (hp : t.parent_id id = some p) : ¬ InTree t id p := by
  obtain ⟨d, hd⟩ := wf.rank
  intro hin
  have hdip := hd id p hp
  rcases InTree.rank_gt_of_ne_anchor wf hd hin with h1 | h1
  · rw [h1] at hdip; omega
  · omega

theorem filter_ne_of_not_mem {cs : List NodeId} {id : NodeId} (h : id ∉ cs) :
    cs.filter (fun y => y != id) = cs := by
  refine List.filter_eq_self.mpr ?_
  intro a ha
  rw [bne_iff_ne]
  intro he
  exact h (he ▸ ha)

theorem mem_filter_ne {cs : List NodeId} {id y : NodeId} :
    y ∈ cs.filter (fun z => z != id) ↔ y ∈ cs ∧ y ≠ id := by
  rw [List.mem_filter]
  simp [bne_iff_ne]

/-- Full effect of `Tree::try_remove` on a live id under well-formedness:
it succeeds, frees exactly the subtree, decrements `size` by the subtree
size, keeps every survivor's value, parent and height, and removes `id`
from children lists (a no-op except at the parent). -/
theorem tryRemove_effect {t : Tree T} (wf : WF t) {id : NodeId} {L : List NodeId}
    (hs : SubF t [id] L) :
    ∃ n t', t.getNode id = some n ∧ t.tryRemove id = some (some (n, t')) ∧
      t'.root = t.root ∧
      (∀ x ∈ L, t'.getNode x = none) ∧
      t'.size + L.length = t.size ∧
      L.length ≤ t.size ∧
      SlabWF t'.nodes ∧
      (∀ x, x ∉ L → t'.parent_id x = t.parent_id x ∧ t'.height x = t.height x ∧
        (t'.getNode x).isSome = (t.getNode x).isSome ∧ t'.get x = t.get x) ∧
      (∀ x, x ∉ L → ∀ cs, t.children_ids x = some cs →
        t'.children_ids x = some (cs.filter (fun y => y != id))) := by
  obtain ⟨cs, l, hcs, hsub, hL⟩ := SubF.singleton_inv hs
  obtain ⟨n, hn, hnch⟩ := Tree.children_ids_eq_some hcs
  have hnodup : L.Nodup := SubF.nodup_single wf hs
  have hlive : ∀ x ∈ L, ∃ nx, t.getNode x = some nx := by
    intro x hx
    obtain ⟨csx, hcsx⟩ := SubF.mem_live hs x hx
    obtain ⟨nx, hnx, -⟩ := Tree.children_ids_eq_some hcsx
    exact ⟨nx, hnx⟩
  have hocc : L.length ≤ occupiedCount t.nodes.entries := live_nodup_length_le hnodup hlive
  have hsize : L.length ≤ t.size := by
    show L.length ≤ t.nodes.len
    rw [wf.slab.lenEq]
    exact hocc
  have hlenle : L.length ≤ t.nodes.entries.length :=
    le_trans hocc (occupiedCount_le_length _)
  have hidL : id ∈ L := SubF.subset hs id (by simp)
  have hmemL : ∀ x, x ∈ L ↔ InTree t id x := fun x => SubF.mem_iff hs
  have hLl : ∀ x ∈ l, x ∈ L := by
    intro x hx
    rw [hL]
    simp [hx]
  have hnodupl : l.Nodup := by
    rw [hL] at hnodup
    have := (List.nodup_cons.mp hnodup).2
    rw [List.nodup_append] at this
    exact this.1
  have hidl : id ∉ l := by
    rw [hL] at hnodup
    intro hmem
    exact (List.nodup_cons.mp hnodup).1 (by simp [hmem])
  have htr := Slab.tryRemoveAt_eq_some (Slab.get_eq_some_iff.mpr (Slab.get_eq_some_iff.mp hn))
  set s1 : Slab (Node T) :=
    ⟨t.nodes.entries.set id.val (.vacant t.nodes.next), t.nodes.len - 1, id.val⟩ with hs1
  have hs1get : ∀ x : NodeId, x ≠ id → s1.get x.val = t.nodes.get x.val := by
    intro x hx
    exact Slab.get_tryRemoveAt_ne htr (NodeId.val_ne hx)
  have hs1dead : s1.get id.val = none := Slab.get_tryRemoveAt_self htr
  have hs1len : s1.entries.length = t.nodes.entries.length := by rw [hs1]; simp
  have hllen : l.length + 1 = L.length := by rw [hL]; simp
  cases hnp : n.parent with
  | none =>
    have hag : ∀ x ∈ l, s1.get x.val = t.getNode x := by
      intro x hx
      exact hs1get x (fun he => hidl (he ▸ hx))
    obtain ⟨s3, heq3, hdead3, hout3, hlen3, hslen3, hwf3⟩ :=
      removeRecList_effect hsub (3 * s1.entries.length + 3) s1 hnodupl hag (by omega)
    have hpres : ∀ x : NodeId, x ∉ l → s3.get x.val = s1.get x.val := by
      intro x hx
      exact Slab.get_congr (hout3 x.val (fun hm => hx (mem_vals.mp hm)))
    refine ⟨n, { nodes := s3, root := t.root }, hn, ?_, rfl, ?_, ?_, hsize, ?_, ?_, ?_⟩
    · show (match t.nodes.tryRemoveAt id.val with
        | none => some none
        | some (n, s1) => _) = _
      rw [htr]
      simp only [hnp, ← hs1]
      rw [show Tree.removeRecList (3 * s1.entries.length + 3) s1 n.children = some s3 by
        rw [hnch]; exact heq3]
    · intro x hx
      rw [hL] at hx
      rcases List.mem_cons.mp hx with h1 | h1
      · subst h1
        show s3.get x.val = none
        rw [hpres x hidl]
        exact hs1dead
      · simp only [List.append_nil] at h1
        exact hdead3 x h1
    · show s3.len + L.length = t.nodes.len
      rw [hslen3]
      have e1 : s1.len = t.nodes.len - 1 := rfl
      have e2 : L.length ≤ t.nodes.len := hsize
      omega
    · exact hwf3 (SlabWF.tryRemoveAt wf.slab htr)
    · intro x hx
      have hxid : x ≠ id := fun he => hx (he ▸ hidL)
      have hxl : x ∉ l := fun hm => hx (hLl x hm)
      have hget : Tree.getNode { nodes := s3, root := t.root } x = t.getNode x := by
        show s3.get x.val = t.nodes.get x.val
        rw [hpres x hxl]
        exact hs1get x hxid
      refine ⟨?_, ?_, ?_, ?_⟩
      · unfold Tree.parent_id; rw [hget]
      · unfold Tree.height; rw [hget]
      · rw [hget]
      · unfold Tree.get; rw [hget]
    · intro x hx csx hcsx
      have hxid : x ≠ id := fun he => hx (he ▸ hidL)
      have hxl : x ∉ l := fun hm => hx (hLl x hm)
      have hget : Tree.getNode { nodes := s3, root := t.root } x = t.getNode x := by
        show s3.get x.val = t.nodes.get x.val
        rw [hpres x hxl]
        exact hs1get x hxid
      have hidcs : id ∉ csx := by
        intro hmem
        obtain ⟨xn, hxn, hxnch⟩ := Tree.children_ids_eq_some hcsx
        have := wf.child_par x xn hxn id (hxnch ▸ hmem)
        rw [Tree.parent_id_of_node hn, hnp] at this
        cases this
      rw [filter_ne_of_not_mem hidcs]
      unfold Tree.children_ids
      rw [hget]
      exact hcsx
  | some p =>
    have hpid : t.parent_id id = some p := by
      rw [Tree.parent_id_of_node hn, hnp]
    have hpnotin : p ∉ L := by
      rw [hmemL]
      exact parent_not_in_subtree wf hpid
    have hppid : p ≠ id := fun he => hpnotin (he ▸ hidL)
    obtain ⟨pn, hpn, hpmem⟩ := wf.par_child id p hpid
    have hs1p : s1.get p.val = some pn := by
      rw [hs1get p hppid]
      exact hpn
    set pnF : Node T := { pn with children := pn.children.filter (fun y => y != id) } with hpnF
    set s2 : Slab (Node T) := s1.setAt p.val pnF with hs2
    have hs2get : ∀ x : NodeId, x ≠ p → s2.get x.val = s1.get x.val := by
      intro x hx
      exact Slab.get_setAt_ne s1 pnF (NodeId.val_ne hx)
    have hs2p : s2.get p.val = some pnF := Slab.get_setAt_self hs1p
    have hs2len : s2.entries.length = t.nodes.entries.length := by
      rw [hs2, Slab.length_setAt, hs1len]
    have hag : ∀ x ∈ l, s2.get x.val = t.getNode x := by
      intro x hx
      have hxp : x ≠ p := fun he => hpnotin (he ▸ hLl x hx)
      rw [hs2get x hxp]
      exact hs1get x (fun he => hidl (he ▸ hx))
    obtain ⟨s3, heq3, hdead3, hout3, hlen3, hslen3, hwf3⟩ :=
      removeRecList_effect hsub (3 * s2.entries.length + 3) s2 hnodupl hag (by omega)
    have hpres : ∀ x : NodeId, x ∉ l → s3.get x.val = s2.get x.val := by
      intro x hx
      exact Slab.get_congr (hout3 x.val (fun hm => hx (mem_vals.mp hm)))
    refine ⟨n, { nodes := s3, root := t.root }, hn, ?_, rfl, ?_, ?_, hsize, ?_, ?_, ?_⟩
    · show (match t.nodes.tryRemoveAt id.val with
        | none => some none
        | some (n, s1) => _) = _
      rw [htr]
      simp only [hnp, ← hs1, hs1p, ← hpnF, ← hs2]
      rw [show Tree.removeRecList (3 * s2.entries.length + 3) s2 n.children = some s3 by
        rw [hnch]; exact heq3]
    · intro x hx
      rw [hL] at hx
      rcases List.mem_cons.mp hx with h1 | h1
      · subst h1
        show s3.get x.val = none
        rw [hpres x hidl, hs2get x (fun he => hppid he.symm)]
        exact hs1dead
      · simp only [List.append_nil] at h1
        exact hdead3 x h1
    · show s3.len + L.length = t.nodes.len
      rw [hslen3]
      have e0 : s2.len = s1.len := rfl
      have e1 : s1.len = t.nodes.len - 1 := rfl
      have e2 : L.length ≤ t.nodes.len := hsize
      omega
    · exact hwf3 (SlabWF.setAt_occupied (SlabWF.tryRemoveAt wf.slab htr) hs1p pnF)
    · intro x hx
      have hxid : x ≠ id := fun he => hx (he ▸ hidL)
      have hxl : x ∉ l := fun hm => hx (hLl x hm)
      by_cases hxp : x = p
      · subst hxp
        have hget : Tree.getNode { nodes := s3, root := t.root } x = some pnF := by
          show s3.get x.val = some pnF
          rw [hpres x hxl]
          exact hs2p
        refine ⟨?_, ?_, ?_, ?_⟩
        · rw [Tree.parent_id_of_node hget, Tree.parent_id_of_node hpn]
        · rw [Tree.height_of_node hget, Tree.height_of_node hpn]
        · rw [hget, hpn]
          rfl
        · unfold Tree.get
          rw [hget, hpn]
          rfl
      · have hget : Tree.getNode { nodes := s3, root := t.root } x = t.getNode x := by
          show s3.get x.val = t.nodes.get x.val
          rw [hpres x hxl, hs2get x hxp]
          exact hs1get x hxid
        refine ⟨?_, ?_, ?_, ?_⟩
        · unfold Tree.parent_id; rw [hget]
        · unfold Tree.height; rw [hget]
        · rw [hget]
        · unfold Tree.get; rw [hget]
    · intro x hx csx hcsx
      have hxid : x ≠ id := fun he => hx (he ▸ hidL)
      have hxl : x ∉ l := fun hm => hx (hLl x hm)
      by_cases hxp : x = p
      · subst hxp
        have hget : Tree.getNode { nodes := s3, root := t.root } x = some pnF := by
          show s3.get x.val = some pnF
          rw [hpres x hxl]
          exact hs2p
        have hcseq : csx = pn.children := by
          rw [Tree.children_ids_of_node hpn] at hcsx
          cases hcsx
          rfl
        rw [Tree.children_ids_of_node hget, hcseq]
      · have hget : Tree.getNode { nodes := s3, root := t.root } x = t.getNode x := by
          show s3.get x.val = t.nodes.get x.val
          rw [hpres x hxl, hs2get x hxp]
          exact hs1get x hxid
        have hidcs : id ∉ csx := by
          intro hmem
          obtain ⟨xn, hxn, hxnch⟩ := Tree.children_ids_eq_some hcsx
          have := wf.child_par x xn hxn id (hxnch ▸ hmem)
          rw [hpid] at this
          cases this
          exact hxp rfl
        rw [filter_ne_of_not_mem hidcs]
        unfold Tree.children_ids
        rw [hget]
        exact hcsx

/-- Rebuild well-formedness after a subtree removal, from the effect
facts: the whole subtree is dead, survivors keep parent, height and
liveness, and every surviving children list loses exactly the removed
id. -/
theorem WF.rebuild {t t' : Tree T} (wf : WF t) {id : NodeId} {L : List NodeId}
    (hs : SubF t [id] L) (hroot : id ≠ t.root)
    (hroot' : t'.root = t.root)
    (hdead : ∀ x ∈ L, t'.getNode x = none)
    (hsur : ∀ x, x ∉ L → t'.parent_id x = t.parent_id x ∧ t'.height x = t.height x ∧
      (t'.getNode x).isSome = (t.getNode x).isSome)
    (hchl : ∀ x, x ∉ L → ∀ cs, t.children_ids x = some cs →
      t'.children_ids x = some (cs.filter (fun y => y != id)))
    (hslab : SlabWF t'.nodes) : WF t' := by
  have hmemL : ∀ x, x ∈ L ↔ InTree t id x := fun x => SubF.mem_iff hs
  have hrootL : t.root ∉ L := by
    rw [hmemL]
    exact root_not_in_subtree wf hroot
  have hidL : id ∈ L := SubF.subset hs id (by simp)
  have hlive' : ∀ x (r : Node T), t'.getNode x = some r → x ∉ L := by
    intro x r hr hmem
    rw [hdead x hmem] at hr
    cases hr
  obtain ⟨d, hd⟩ := wf.rank
  have hparL : ∀ x q, x ∈ L → x ≠ id → t.parent_id x = some q → q ∈ L := by
    intro x q hx hxid hq
    rw [hmemL] at hx ⊢
    exact InTree.parent_mem wf hx hxid hq
  have holdrec : ∀ (q : NodeId) (qn' : Node T), t'.getNode q = some qn' →
      ∃ qn, t.getNode q = some qn ∧
        qn'.children = qn.children.filter (fun y => y != id) := by
    intro q qn' hqn'
    have hqL : q ∉ L := hlive' q qn' hqn'
    have hqsome : (t.getNode q).isSome = true := by
      rw [← (hsur q hqL).2.2, hqn']
      rfl
    obtain ⟨qn, hqn⟩ := Option.isSome_iff_exists.mp hqsome
    have hch' := hchl q hqL qn.children (Tree.children_ids_of_node hqn)
    rw [Tree.children_ids_of_node hqn'] at hch'
    exact ⟨qn, hqn, Option.some.inj hch'⟩
  constructor
  case slab => exact hslab
  case root_live =>
    rw [hroot', (hsur t.root hrootL).2.2]
    exact wf.root_live
  case root_par =>
    rw [hroot', (hsur t.root hrootL).1]
    exact wf.root_par
  case root_h =>
    rw [hroot', (hsur t.root hrootL).2.1]
    exact wf.root_h
  case par_child =>
    intro c q hcq
    obtain ⟨cn', hcn', hcp⟩ := Tree.parent_id_eq_some hcq
    have hcL : c ∉ L := hlive' c cn' hcn'
    have hold : t.parent_id c = some q := by rw [← (hsur c hcL).1]; exact hcq
    obtain ⟨qn, hqn, hmemq⟩ := wf.par_child c q hold
    have hqL : q ∉ L := by
      intro hq
      exact hcL (SubF.closed hs q hq qn.children (Tree.children_ids_of_node hqn) c hmemq)
    have hch' := hchl q hqL qn.children (Tree.children_ids_of_node hqn)
    obtain ⟨qn', hqn', hqch'⟩ := Tree.children_ids_eq_some hch'
    refine ⟨qn', hqn', ?_⟩
    rw [hqch']
    refine mem_filter_ne.mpr ⟨hmemq, ?_⟩
    intro he
    exact hcL (he ▸ hidL)
  case child_par =>
    intro q qn' hqn' c hc
    have hqL : q ∉ L := hlive' q qn' hqn'
    obtain ⟨qn, hqn, hqch⟩ := holdrec q qn' hqn'
    rw [hqch] at hc
    obtain ⟨hcold, hcid⟩ := mem_filter_ne.mp hc
    have hold := wf.child_par q qn hqn c hcold
    have hcL : c ∉ L := by
      intro hcmem
      exact hqL (hparL c q hcmem hcid hold)
    rw [(hsur c hcL).1]
    exact hold
  case child_nodup =>
    intro q qn' hqn'
    obtain ⟨qn, hqn, hqch⟩ := holdrec q qn' hqn'
    rw [hqch]
    exact (wf.child_nodup q qn hqn).filter _
  case hts =>
    intro c q hcq
    obtain ⟨cn', hcn', hcp⟩ := Tree.parent_id_eq_some hcq
    have hcL : c ∉ L := hlive' c cn' hcn'
    have hold : t.parent_id c = some q := by rw [← (hsur c hcL).1]; exact hcq
    obtain ⟨qn, hqn, hmemq⟩ := wf.par_child c q hold
    have hqL : q ∉ L := by
      intro hq
      exact hcL (SubF.closed hs q hq qn.children (Tree.children_ids_of_node hqn) c hmemq)
    obtain ⟨hp, hhq, hhc⟩ := wf.hts c q hold
    refine ⟨hp, ?_, ?_⟩
    · rw [(hsur q hqL).2.1]
      exact hhq
    · rw [(hsur c hcL).2.1]
      exact hhc
  case rank =>
    refine ⟨d, ?_⟩
    intro c q hcq
    obtain ⟨cn', hcn', hcp⟩ := Tree.parent_id_eq_some hcq
    have hcL : c ∉ L := hlive' c cn' hcn'
    have hold : t.parent_id c = some q := by rw [← (hsur c hcL).1]; exact hcq
    exact hd c q hold

/-- `TreeLike::remove` on a live id under well-formedness: it returns the
stored value, frees exactly the subtree, drops `size` by the subtree
size, pulls the id out of its former parent's children, leaves every
survivor's value intact, and (away from the root) re-establishes
well-formedness. -/
theorem remove_spec {t : Tree T} (wf : WF t) {id : NodeId} {L : List NodeId}
    (hs : SubF t [id] L) :
    ∃ n t', t.getNode id = some n ∧ t.remove id = some (some n.value, t') ∧
      t'.root = t.root ∧
      (∀ x ∈ L, t'.get x = none) ∧
      t'.size + L.length = t.size ∧ L.length ≤ t.size ∧
      (∀ p, t.parent_id id = some p → ∃ cs, t'.children_ids p = some cs ∧ id ∉ cs) ∧
      (∀ x, x ∉ L → t'.get x = t.get x) ∧
      (id ≠ t.root → WF t') := by
  obtain ⟨n, t', hn, htr, hroot', hdead, hsz, hle, hslab, hsur, hchl⟩ := tryRemove_effect wf hs
  refine ⟨n, t', hn, ?_, hroot', ?_, hsz, hle, ?_, ?_, ?_⟩
  · unfold Tree.remove
    rw [htr]
  · intro x hx
    unfold Tree.get
    rw [hdead x hx]
    rfl
  · intro p hp
    have hpL : p ∉ L := by
      rw [SubF.mem_iff hs]
      exact parent_not_in_subtree wf hp
    obtain ⟨pn, hpn, hpmem⟩ := wf.par_child id p hp
    have hch := hchl p hpL pn.children (Tree.children_ids_of_node hpn)
    refine ⟨_, hch, ?_⟩
    intro hmem
    exact (mem_filter_ne.mp hmem).2 rfl
  · intro x hx
    exact (hsur x hx).2.2.2
  · intro hroot
    exact WF.rebuild wf hs hroot hroot' hdead
      (fun x hx => ⟨(hsur x hx).1, (hsur x hx).2.1, (hsur x hx).2.2.1⟩) hchl hslab

end RemovalTheory

section AttachTheory

variable {T : Type}

/-- Rebuild the slab invariant when only heights changed: occupancy and
vacancy patterns are untouched. -/
theorem SlabWF.of_same_occupancy {s s' : Slab (Node T)} (wf : SlabWF s)
    (hlen : s'.entries.length = s.entries.length)
    (hlen2 : s'.len = s.len) (hnext : s'.next = s.next)
    (hocc : ∀ k, isOccB s'.entries k = isOccB s.entries k)
    (hvac : ∀ (k m : Nat), s'.entries[k]? = some ((Entry.vacant m : Entry (Node T))) ↔
      s.entries[k]? = some ((Entry.vacant m : Entry (Node T)))) :
    SlabWF s' := by
  have hoccF : occFinset s'.entries = occFinset s.entries := by
    ext j
    simp only [occFinset_mem, hlen, hocc]
  constructor
  · show s'.len = _
    rw [hlen2, wf.lenEq]
    unfold occupiedCount
    rw [hoccF]
  · obtain ⟨vs, hc, hcov⟩ := wf.free
    refine ⟨vs, ?_, ?_⟩
    · rw [hnext]
      refine Chain.congr_entries hlen ?_ hc
      intro j hj
      obtain ⟨m, hm⟩ := hc.mem_vacant j hj
      rw [hm]
      exact (hvac j m).mpr hm
    · intro k hvk
      obtain ⟨m, hm⟩ := hvk
      exact hcov k ⟨m, (hvac k m).mp hm⟩

/-- Core specification of an attachment (`add_child`, `insert_before`,
`insert_after` share it): linking a detached non-root subtree `c` under a
live `p` outside that subtree and rewriting `p`'s children to any
duplicate-free list that adds exactly `c`, then running `set_height`,
succeeds and yields a well-formed tree with the expected links and
heights. -/
theorem attach_spec {t : Tree T} (wf : WF t) {p c : NodeId} {cn pn : Node T}
    (hc : t.getNode c = some cn) (hcdet : cn.parent = none) (hcroot : c ≠ t.root)
    (hp : t.getNode p = some pn) (hnc : ¬ InTree t c p)
    {newChildren : List NodeId}
    (hmem : ∀ x, x ∈ newChildren ↔ x ∈ pn.children ∨ x = c)
    (hnodup : newChildren.Nodup) :
    ∃ t', Tree.setHeightList
        (Tree.treeFuel ((t.setNode c { cn with parent := some p }).setNode p
          { pn with children := newChildren }))
        ((t.setNode c { cn with parent := some p }).setNode p
          { pn with children := newChildren })
        [c] (u16Mod (pn.height + 1)) = some t' ∧
      WF t' ∧ t'.root = t.root ∧
      t'.children_ids p = some newChildren ∧
      t'.parent_id c = some p ∧
      t'.height c = some (u16Mod (pn.height + 1)) ∧
      (∀ x, x ≠ c → t'.parent_id x = t.parent_id x) ∧
      (∀ x, x ≠ p → t'.children_ids x = t.children_ids x) ∧
      (∀ x, ¬ InTree t c x → t'.height x = t.height x) ∧
      (∀ x, (t'.getNode x).isSome = (t.getNode x).isSome) ∧
      t'.nodes.next = t.nodes.next ∧
      t'.nodes.entries.length = t.nodes.entries.length := by
  classical
  have hpc : p ≠ c := fun he => hnc (by rw [he]; exact InTree.refl c)
  set cn1 : Node T := { cn with parent := some p } with hcn1
  set t1 : Tree T := t.setNode c cn1 with ht1
  set pn1 : Node T := { pn with children := newChildren } with hpn1
  set t2 : Tree T := t1.setNode p pn1 with ht2
  have ht1p : t1.getNode p = some pn := by
    rw [ht1, Tree.getNode_setNode_ne _ _ hpc]
    exact hp
  have hrec2c : t2.getNode c = some cn1 := by
    rw [ht2, Tree.getNode_setNode_ne _ _ (Ne.symm hpc), ht1]
    exact Tree.getNode_setNode_self hc
  have hrec2p : t2.getNode p = some pn1 := Tree.getNode_setNode_self ht1p
  have hrec2other : ∀ x : NodeId, x ≠ c → x ≠ p → t2.getNode x = t.getNode x := by
    intro x hxc hxp
    rw [ht2, Tree.getNode_setNode_ne _ _ hxp, ht1, Tree.getNode_setNode_ne _ _ hxc]
  have hch2 : ∀ x : NodeId, x ≠ p → t2.children_ids x = t.children_ids x := by
    intro x hxp
    by_cases hxc : x = c
    · subst hxc
      rw [Tree.children_ids_of_node hrec2c, Tree.children_ids_of_node hc]
    · unfold Tree.children_ids
      rw [hrec2other x hxc hxp]
  have hch2p : t2.children_ids p = some newChildren :=
    Tree.children_ids_of_node hrec2p
  obtain ⟨Lc, hsLc⟩ := SubF.exists_of_live wf hc
  have hnodupLc : Lc.Nodup := SubF.nodup_single wf hsLc
  have hLcmem : ∀ x, x ∈ Lc ↔ InTree t c x := fun x => SubF.mem_iff hsLc
  have hcLc : c ∈ Lc := SubF.subset hsLc c (by simp)
  have hpLc : p ∉ Lc := fun hm => hnc ((hLcmem p).mp hm)
  have hrootLc : t.root ∉ Lc := fun hm => root_not_in_subtree wf hcroot ((hLcmem _).mp hm)
  have hsf2 : SubF t2 [c] Lc := by
    refine SubF.congr_tree hsLc ?_
    intro x hx
    exact hch2 x (fun he => hpLc (he ▸ hx))
  have hlive2 : ∀ x ∈ Lc, ∃ n, t2.getNode x = some n := by
    intro x hx
    by_cases hxc : x = c
    · exact ⟨cn1, hxc ▸ hrec2c⟩
    · obtain ⟨csx, hcsx⟩ := SubF.mem_live hsLc x hx
      obtain ⟨nx, hnx, -⟩ := Tree.children_ids_eq_some hcsx
      refine ⟨nx, ?_⟩
      rw [hrec2other x hxc (fun he => hpLc (he ▸ hx))]
      exact hnx
  have hocc2 : Lc.length ≤ t2.nodes.entries.length :=
    le_trans (live_nodup_length_le hnodupLc hlive2) (occupiedCount_le_length _)
  obtain ⟨t', heqSH, houtE, hlenE, hslenE, hnextE, hrootE, hshape, htop, hinD⟩ :=
    setHeightList_effect hsf2 (Tree.treeFuel t2) t2 (u16Mod (pn.height + 1)) hnodupLc
      (fun x hx => (hlive2 x hx).elim fun n hn => ⟨n, hn, Tree.children_ids_of_node hn⟩)
      (by unfold Tree.treeFuel; omega)
  have hpres : ∀ x : NodeId, x ∉ Lc → t'.getNode x = t2.getNode x := by
    intro x hx
    exact Tree.getNode_congr (houtE x.val (fun hm => hx (mem_vals.mp hm)))
  obtain ⟨nC, hnC2, hhC, hnC'⟩ := hshape c hcLc
  have hnCeq : nC = cn1 := by
    rw [hrec2c] at hnC2
    exact (Option.some.inj hnC2).symm
  subst hnCeq
  have h'c : t'.getNode c = some { cn1 with height := hhC } := hnC'
  have h'p : t'.getNode p = some pn1 := by
    rw [hpres p hpLc]
    exact hrec2p
  have hparC : t'.parent_id c = some p := by
    rw [Tree.parent_id_of_node h'c]
  have htopc : t'.height c = some (u16Mod (pn.height + 1)) := htop c (by simp)
  -- records of other subtree members
  have hLcrec : ∀ x ∈ Lc, x ≠ c → ∃ nx, t.getNode x = some nx ∧
      ∃ hh, t'.getNode x = some { nx with height := hh } := by
    intro x hx hxc
    obtain ⟨nx2, hnx2, hh, hnx'⟩ := hshape x hx
    rw [hrec2other x hxc (fun he => hpLc (he ▸ hx))] at hnx2
    exact ⟨nx2, hnx2, hh, hnx'⟩
  have Hpar : ∀ x : NodeId, x ≠ c → t'.parent_id x = t.parent_id x := by
    intro x hxc
    by_cases hxL : x ∈ Lc
    · obtain ⟨nx, hnx, hh, hnx'⟩ := hLcrec x hxL hxc
      rw [Tree.parent_id_of_node hnx', Tree.parent_id_of_node hnx]
    · by_cases hxp : x = p
      · subst hxp
        rw [Tree.parent_id_of_node h'p, Tree.parent_id_of_node hp]
      · unfold Tree.parent_id
        rw [hpres x hxL, hrec2other x hxc hxp]
  have Hchil : ∀ x : NodeId, x ≠ p → t'.children_ids x = t.children_ids x := by
    intro x hxp
    by_cases hxL : x ∈ Lc
    · by_cases hxc : x = c
      · subst hxc
        rw [Tree.children_ids_of_node h'c, Tree.children_ids_of_node hc]
      · obtain ⟨nx, hnx, hh, hnx'⟩ := hLcrec x hxL hxc
        rw [Tree.children_ids_of_node hnx', Tree.children_ids_of_node hnx]
    · unfold Tree.children_ids
      rw [hpres x hxL]
      by_cases hxc : x = c
      · exact absurd (hxc ▸ hcLc) hxL
      · rw [hrec2other x hxc hxp]
  have HchilP : t'.children_ids p = some newChildren := Tree.children_ids_of_node h'p
  have Hlive : ∀ x : NodeId, (t'.getNode x).isSome = (t.getNode x).isSome := by
    intro x
    by_cases hxL : x ∈ Lc
    · by_cases hxc : x = c
      · subst hxc; rw [h'c, hc]; rfl
      · obtain ⟨nx, hnx, hh, hnx'⟩ := hLcrec x hxL hxc
        rw [hnx, hnx']; rfl
    · by_cases hxp : x = p
      · subst hxp; rw [h'p, hp]; rfl
      · rw [hpres x hxL]
        by_cases hxc : x = c
        · exact absurd (hxc ▸ hcLc) hxL
        · rw [hrec2other x hxc hxp]
  have Hht_out : ∀ x : NodeId, x ∉ Lc → t'.height x = t.height x := by
    intro x hxL
    by_cases hxp : x = p
    · subst hxp
      rw [Tree.height_of_node h'p, Tree.height_of_node hp]
    · unfold Tree.height
      rw [hpres x hxL]
      by_cases hxc : x = c
      · exact absurd (hxc ▸ hcLc) hxL
      · rw [hrec2other x hxc hxp]
  have HinD : ∀ x ∈ Lc, ∀ cs, t.children_ids x = some cs → ∀ y ∈ cs,
      ∃ hx, t'.height x = some hx ∧ t'.height y = some (u16Mod (hx + 1)) := by
    intro x hx cs hcs y hy
    refine hinD x hx cs ?_ y hy
    rw [hch2 x (fun he => hpLc (he ▸ hx))]
    exact hcs
  have hmemLc_par : ∀ x q, x ∈ Lc → x ≠ c → t.parent_id x = some q → q ∈ Lc := by
    intro x q hx hxc hq
    rw [hLcmem] at hx ⊢
    exact InTree.parent_mem wf hx hxc hq
  have hcnotold : c ∉ pn.children := by
    intro hmem
    have := wf.child_par p pn hp c hmem
    rw [Tree.parent_id_of_node hc, hcdet] at this
    cases this
  obtain ⟨d, hd⟩ := wf.rank
  refine ⟨t', heqSH, ?_, ?_, HchilP, hparC, htopc, Hpar, Hchil,
    (fun x hx => Hht_out x (fun hmem => hx ((hLcmem x).mp hmem))), Hlive, ?_, ?_⟩
  · constructor
    case slab =>
      -- t -> t1 -> t2 are occupied-slot overwrites, then only heights change
      have hw2 : SlabWF t2.nodes := by
        refine SlabWF.setAt_occupied ?_ (show t1.nodes.get p.val = some pn from ht1p) pn1
        exact SlabWF.setAt_occupied wf.slab (show t.nodes.get c.val = some cn from hc) cn1
      refine SlabWF.of_same_occupancy hw2 hlenE hslenE hnextE ?_ ?_
      · intro k
        by_cases hk : k ∈ Lc.map NodeId.val
        · obtain ⟨x, hxLc, hxk⟩ := List.mem_map.mp hk
          subst hxk
          obtain ⟨nx, hnx⟩ := hlive2 x hxLc
          obtain ⟨nx0, hnx0, hh, hnx'⟩ := hshape x hxLc
          have : t'.nodes.get x.val = some { nx0 with height := hh } := hnx'
          have h1 := Slab.get_eq_some_iff.mp this
          have h2 := Slab.get_eq_some_iff.mp (show t2.nodes.get x.val = some nx0 from hnx0)
          simp [isOccB, h1, h2]
        · unfold isOccB
          rw [houtE k hk]
      · intro k m
        by_cases hk : k ∈ Lc.map NodeId.val
        · obtain ⟨x, hxLc, hxk⟩ := List.mem_map.mp hk
          subst hxk
          obtain ⟨nx0, hnx0, hh, hnx'⟩ := hshape x hxLc
          have h1 := Slab.get_eq_some_iff.mp
            (show t'.nodes.get x.val = some { nx0 with height := hh } from hnx')
          have h2 := Slab.get_eq_some_iff.mp (show t2.nodes.get x.val = some nx0 from hnx0)
          rw [h1, h2]
          constructor <;> (intro h3; cases h3)
        · rw [houtE k hk]
    case root_live =>
      rw [hrootE, ht2, ht1]
      show (t'.getNode t.root).isSome = true
      rw [Hlive t.root]
      exact wf.root_live
    case root_par =>
      rw [hrootE, ht2, ht1]
      show t'.parent_id t.root = none
      rw [Hpar t.root (Ne.symm hcroot)]
      exact wf.root_par
    case root_h =>
      rw [hrootE, ht2, ht1]
      show t'.height t.root = some 0
      rw [Hht_out t.root hrootLc]
      exact wf.root_h
    case par_child =>
      intro y q hyq
      by_cases hyc : y = c
      · subst hyc
        rw [hparC] at hyq
        cases hyq
        refine ⟨pn1, h'p, ?_⟩
        show y ∈ newChildren
        rw [hmem]
        exact Or.inr rfl
      · rw [Hpar y hyc] at hyq
        obtain ⟨qn, hqn, hmemq⟩ := wf.par_child y q hyq
        by_cases hqp : q = p
        · subst hqp
          have : qn = pn := by rw [hp] at hqn; exact (Option.some.inj hqn).symm
          subst this
          refine ⟨pn1, h'p, ?_⟩
          show y ∈ newChildren
          rw [hmem]
          exact Or.inl hmemq
        · have := Hchil q hqp
          rw [Tree.children_ids_of_node hqn] at this
          obtain ⟨qn', hqn', hqch'⟩ := Tree.children_ids_eq_some this
          exact ⟨qn', hqn', hqch' ▸ hmemq⟩
    case child_par =>
      intro q qn' hqn' y hy
      by_cases hqp : q = p
      · subst hqp
        have : qn'.children = newChildren := by
          have := HchilP
          rw [Tree.children_ids_of_node hqn'] at this
          exact Option.some.inj this
        rw [this] at hy
        rcases (hmem y).mp hy with h1 | h1
        · have hyc : y ≠ c := fun he => hcnotold (he ▸ h1)
          rw [Hpar y hyc]
          exact wf.child_par q pn hp y h1
        · subst h1
          exact hparC
      · have hch := Hchil q hqp
        rw [Tree.children_ids_of_node hqn'] at hch
        obtain ⟨qn, hqn, hqch⟩ := Tree.children_ids_eq_some hch.symm
        have hyold : y ∈ qn.children := by rw [hqch]; exact hy
        have hold := wf.child_par q qn hqn y hyold
        have hyc : y ≠ c := by
          intro he
          subst he
          rw [Tree.parent_id_of_node hc, hcdet] at hold
          cases hold
        rw [Hpar y hyc]
        exact hold
    case child_nodup =>
      intro q qn' hqn'
      by_cases hqp : q = p
      · subst hqp
        have : qn'.children = newChildren := by
          have := HchilP
          rw [Tree.children_ids_of_node hqn'] at this
          exact Option.some.inj this
        rw [this]
        exact hnodup
      · have hch := Hchil q hqp
        rw [Tree.children_ids_of_node hqn'] at hch
        obtain ⟨qn, hqn, hqch⟩ := Tree.children_ids_eq_some hch.symm
        rw [← hqch]
        exact wf.child_nodup q qn hqn
    case hts =>
      intro y q hyq
      by_cases hyc : y = c
      · subst hyc
        rw [hparC] at hyq
        have hqp2 : q = p := (Option.some.inj hyq).symm
        rw [hqp2]
        refine ⟨pn.height, ?_, ?_⟩
        · rw [Hht_out p hpLc]
          exact Tree.height_of_node hp
        · exact htopc
      · rw [Hpar y hyc] at hyq
        by_cases hyL : y ∈ Lc
        · have hqL : q ∈ Lc := hmemLc_par y q hyL hyc hyq
          obtain ⟨qn, hqn, hmemq⟩ := wf.par_child y q hyq
          exact HinD q hqL qn.children (Tree.children_ids_of_node hqn) y hmemq
        · have hqL : q ∉ Lc := by
            intro hq
            obtain ⟨qn, hqn, hmemq⟩ := wf.par_child y q hyq
            exact hyL (SubF.closed hsLc q hq qn.children (Tree.children_ids_of_node hqn) y hmemq)
          obtain ⟨hp2, hhq, hhy⟩ := wf.hts y q hyq
          refine ⟨hp2, ?_, ?_⟩
          · rw [Hht_out q hqL]; exact hhq
          · rw [Hht_out y hyL]; exact hhy
    case rank =>
      refine ⟨fun k => if InTree t c ⟨k⟩ then d k - d c.val + d p.val + 1 else d k, ?_⟩
      intro y q hyq
      beta_reduce
      have etaY : (⟨y.val⟩ : NodeId) = y := rfl
      have etaQ : (⟨q.val⟩ : NodeId) = q := rfl
      by_cases hyc : y = c
      · subst hyc
        rw [hparC] at hyq
        cases hyq
        rw [if_pos (etaY ▸ InTree.refl y), if_neg (etaQ ▸ hnc)]
        omega
      · rw [Hpar y hyc] at hyq
        have hdy := hd y q hyq
        by_cases hyS : InTree t c y
        · have hqS : InTree t c q := InTree.parent_mem wf hyS hyc hyq
          have hcy : d c.val ≤ d y.val := by
            rcases InTree.rank_gt_of_ne_anchor wf hd hyS with h1 | h1
            · rw [h1]
            · omega
          have hcq : d c.val ≤ d q.val := by
            rcases InTree.rank_gt_of_ne_anchor wf hd hqS with h1 | h1
            · rw [h1]
            · omega
          rw [if_pos (etaY ▸ hyS), if_pos (etaQ ▸ hqS)]
          omega
        · have hqS : ¬ InTree t c q := by
            intro hq
            obtain ⟨qn, hqn, hmemq⟩ := wf.par_child y q hyq
            exact hyS (InTree.step hq (Tree.children_ids_of_node hqn) hmemq)
          rw [if_neg (etaY ▸ hyS), if_neg (etaQ ▸ hqS)]
          exact hdy
  · rw [hrootE, ht2, ht1]
    rfl
  · rw [hnextE, ht2, ht1]
    rfl
  · rw [hlenE, ht2, ht1]
    simp [Tree.setNode, Slab.setAt]

/-- Running `set_height` over a detached non-root subtree (the tail of
`replace` after the parent-children rewrite turned out to be a no-op)
rewrites only heights inside that subtree and preserves well-formedness:
the subtree's top has no parent link whose height equation could break. -/
theorem setHeightList_detached_spec {t : Tree T} (wf : WF t) {c : NodeId} {cn : Node T}
    (hc : t.getNode c = some cn) (hcdet : cn.parent = none) (hcroot : c ≠ t.root)
    (h0 : Nat) :
    ∃ t', Tree.setHeightList (Tree.treeFuel t) t [c] h0 = some t' ∧
      WF t' ∧ t'.root = t.root ∧
      t'.height c = some h0 ∧
      (∀ x, t'.parent_id x = t.parent_id x) ∧
      (∀ x, t'.children_ids x = t.children_ids x) ∧
      (∀ x, ¬ InTree t c x → t'.height x = t.height x) ∧
      (∀ x, (t'.getNode x).isSome = (t.getNode x).isSome) := by
  classical
  obtain ⟨Lc, hsLc⟩ := SubF.exists_of_live wf hc
  have hnodupLc : Lc.Nodup := SubF.nodup_single wf hsLc
  have hLcmem : ∀ x, x ∈ Lc ↔ InTree t c x := fun x => SubF.mem_iff hsLc
  have hcLc : c ∈ Lc := SubF.subset hsLc c (by simp)
  have hrootLc : t.root ∉ Lc := fun hm => root_not_in_subtree wf hcroot ((hLcmem _).mp hm)
  have hlive : ∀ x ∈ Lc, ∃ n, t.getNode x = some n := by
    intro x hx
    obtain ⟨csx, hcsx⟩ := SubF.mem_live hsLc x hx
    obtain ⟨nx, hnx, -⟩ := Tree.children_ids_eq_some hcsx
    exact ⟨nx, hnx⟩
  have hocc2 : Lc.length ≤ t.nodes.entries.length :=
    le_trans (le_trans (live_nodup_length_le hnodupLc hlive) (occupiedCount_le_length _))
      (le_refl _)
  obtain ⟨t', heqSH, houtE, hlenE, hslenE, hnextE, hrootE, hshape, htop, hinD⟩ :=
    setHeightList_effect hsLc (Tree.treeFuel t) t h0 hnodupLc
      (fun x hx => (hlive x hx).elim fun n hn => ⟨n, hn, Tree.children_ids_of_node hn⟩)
      (by unfold Tree.treeFuel; omega)
  have hpres : ∀ x : NodeId, x ∉ Lc → t'.getNode x = t.getNode x := by
    intro x hx
    exact Tree.getNode_congr (houtE x.val (fun hm => hx (mem_vals.mp hm)))
  have Hpar : ∀ x : NodeId, t'.parent_id x = t.parent_id x := by
    intro x
    by_cases hxL : x ∈ Lc
    · obtain ⟨nx, hnx, hh, hnx'⟩ := hshape x hxL
      rw [Tree.parent_id_of_node hnx', Tree.parent_id_of_node hnx]
    · unfold Tree.parent_id
      rw [hpres x hxL]
  have Hchil : ∀ x : NodeId, t'.children_ids x = t.children_ids x := by
    intro x
    by_cases hxL : x ∈ Lc
    · obtain ⟨nx, hnx, hh, hnx'⟩ := hshape x hxL
      rw [Tree.children_ids_of_node hnx', Tree.children_ids_of_node hnx]
    · unfold Tree.children_ids
      rw [hpres x hxL]
  have Hlive : ∀ x : NodeId, (t'.getNode x).isSome = (t.getNode x).isSome := by
    intro x
    by_cases hxL : x ∈ Lc
    · obtain ⟨nx, hnx, hh, hnx'⟩ := hshape x hxL
      rw [hnx, hnx']; rfl
    · rw [hpres x hxL]
  have Hht_out : ∀ x : NodeId, x ∉ Lc → t'.height x = t.height x := by
    intro x hx
    unfold Tree.height
    rw [hpres x hx]
  have htopc : t'.height c = some h0 := htop c (by simp)
  have hmemLc_par : ∀ x q, x ∈ Lc → x ≠ c → t.parent_id x = some q → q ∈ Lc := by
    intro x q hx hxc hq
    rw [hLcmem] at hx ⊢
    exact InTree.parent_mem wf hx hxc hq
  obtain ⟨d, hd⟩ := wf.rank
  refine ⟨t', heqSH, ?_, ?_, htopc, Hpar, Hchil,
    (fun x hx => Hht_out x (fun hmem => hx ((hLcmem x).mp hmem))), Hlive⟩
  · constructor
    case slab =>
      refine SlabWF.of_same_occupancy wf.slab hlenE hslenE hnextE ?_ ?_
      · intro k
        by_cases hk : k ∈ Lc.map NodeId.val
        · obtain ⟨x, hxLc, hxk⟩ := List.mem_map.mp hk
          subst hxk
          obtain ⟨nx0, hnx0, hh, hnx'⟩ := hshape x hxLc
          have h1 := Slab.get_eq_some_iff.mp
            (show t'.nodes.get x.val = some { nx0 with height := hh } from hnx')
          have h2 := Slab.get_eq_some_iff.mp (show t.nodes.get x.val = some nx0 from hnx0)
          simp [isOccB, h1, h2]
        · unfold isOccB
          rw [houtE k hk]
      · intro k m
        by_cases hk : k ∈ Lc.map NodeId.val
        · obtain ⟨x, hxLc, hxk⟩ := List.mem_map.mp hk
          subst hxk
          obtain ⟨nx0, hnx0, hh, hnx'⟩ := hshape x hxLc
          have h1 := Slab.get_eq_some_iff.mp
            (show t'.nodes.get x.val = some { nx0 with height := hh } from hnx')
          have h2 := Slab.get_eq_some_iff.mp (show t.nodes.get x.val = some nx0 from hnx0)
          rw [h1, h2]
          constructor <;> (intro h3; cases h3)
        · rw [houtE k hk]
    case root_live =>
      rw [hrootE]
      show (t'.getNode t.root).isSome = true
      rw [Hlive t.root]
      exact wf.root_live
    case root_par =>
      rw [hrootE]
      show t'.parent_id t.root = none
      rw [Hpar t.root]
      exact wf.root_par
    case root_h =>
      rw [hrootE]
      show t'.height t.root = some 0
      rw [Hht_out t.root hrootLc]
      exact wf.root_h
    case par_child =>
      intro y q hyq
      rw [Hpar y] at hyq
      obtain ⟨qn, hqn, hmemq⟩ := wf.par_child y q hyq
      have hch : t'.children_ids q = some qn.children := by
        rw [Hchil q]
        exact Tree.children_ids_of_node hqn
      obtain ⟨qn', hqn', hqch⟩ := Tree.children_ids_eq_some hch
      refine ⟨qn', hqn', ?_⟩
      rw [hqch]
      exact hmemq
    case child_par =>
      intro q qn' hqn' y hy
      have hch : t'.children_ids q = some qn'.children := Tree.children_ids_of_node hqn'
      rw [Hchil q] at hch
      obtain ⟨qn, hqn, hqch⟩ := Tree.children_ids_eq_some hch
      have := wf.child_par q qn hqn y (by rw [hqch]; exact hy)
      rw [Hpar y]
      exact this
    case child_nodup =>
      intro q qn' hqn'
      have hch : t'.children_ids q = some qn'.children := Tree.children_ids_of_node hqn'
      rw [Hchil q] at hch
      obtain ⟨qn, hqn, hqch⟩ := Tree.children_ids_eq_some hch
      rw [← hqch]
      exact wf.child_nodup q qn hqn
    case hts =>
      intro y q hyq
      rw [Hpar y] at hyq
      have hyc : y ≠ c := by
        intro he
        subst he
        rw [Tree.parent_id_of_node hc, hcdet] at hyq
        cases hyq
      by_cases hyL : y ∈ Lc
      · have hqL : q ∈ Lc := hmemLc_par y q hyL hyc hyq
        obtain ⟨qn, hqn, hmemq⟩ := wf.par_child y q hyq
        exact hinD q hqL qn.children (Tree.children_ids_of_node hqn) y hmemq
      · have hqL : q ∉ Lc := by
          intro hq
          obtain ⟨qn, hqn, hmemq⟩ := wf.par_child y q hyq
          exact hyL (SubF.closed hsLc q hq qn.children (Tree.children_ids_of_node hqn) y hmemq)
        obtain ⟨hp0, hhp, hhc⟩ := wf.hts y q hyq
        refine ⟨hp0, ?_, ?_⟩
        · rw [Hht_out q hqL]; exact hhp
        · rw [Hht_out y hyL]; exact hhc
    case rank =>
      refine ⟨d, ?_⟩
      intro y q hyq
      rw [Hpar y] at hyq
      exact hd y q hyq
  · rw [hrootE]

end AttachTheory

section OpTheory

variable {T : Type}

theorem listPos_lt {l : List NodeId} {x : NodeId} {i : Nat} (h : listPos l x = some i) :
    i < l.length := by
  induction l generalizing i with
  | nil => cases h
  | cons y ys ih =>
    unfold listPos at h
    by_cases hyx : y = x
    · rw [if_pos hyx] at h
      cases h
      simp
    · rw [if_neg hyx] at h
      obtain ⟨j, hj, hji⟩ := Option.map_eq_some'.mp h
      subst hji
      simpa using ih hj

theorem listPos_mem {l : List NodeId} {x : NodeId} (h : x ∈ l) :
    ∃ i, listPos l x = some i := by
  induction l with
  | nil => cases h
  | cons y ys ih =>
    by_cases hyx : y = x
    · exact ⟨0, by unfold listPos; rw [if_pos hyx]⟩
    · have hmem : x ∈ ys := by
        rcases List.mem_cons.mp h with h1 | h1
        · exact absurd h1.symm hyx
        · exact h1
      obtain ⟨j, hj⟩ := ih hmem
      exact ⟨j + 1, by unfold listPos; rw [if_neg hyx, hj]; rfl⟩

theorem listPos_get {l : List NodeId} {x : NodeId} {i : Nat} (h : listPos l x = some i) :
    l[i]? = some x := by
  induction l generalizing i with
  | nil => cases h
  | cons y ys ih =>
    unfold listPos at h
    by_cases hyx : y = x
    · rw [if_pos hyx] at h
      cases h
      rw [hyx]
      simp
    · rw [if_neg hyx] at h
      obtain ⟨j, hj, hji⟩ := Option.map_eq_some'.mp h
      subst hji
      simpa using ih hj

theorem Slab.setAt_self {s : Slab T} {k : Nat} {v : T} (h : s.get k = some v) :
    s.setAt k v = s := by
  have he := Slab.get_eq_some_iff.mp h
  have hlt : k < s.entries.length := (List.getElem?_eq_some_iff.mp he).1
  unfold Slab.setAt
  have hset : s.entries.set k (Entry.occupied v) = s.entries := by
    apply List.ext_getElem?
    intro j
    rw [List.getElem?_set]
    by_cases hj : k = j
    · subst hj
      rw [if_pos rfl, if_pos hlt, he]
    · rw [if_neg hj]
  rw [hset]

theorem Tree.setNode_self {t : Tree T} {id : NodeId} {n : Node T}
    (h : t.getNode id = some n) : t.setNode id n = t := by
  unfold Tree.setNode
  rw [Slab.setAt_self (show t.nodes.get id.val = some n from h)]

theorem Tree.getNode_eq_none_of_ge {t : Tree T} {x : NodeId}
    (h : t.nodes.entries.length ≤ x.val) : t.getNode x = none := by
  show t.nodes.get x.val = none
  unfold Slab.get
  rw [List.getElem?_eq_none_iff.mpr h]

theorem InTree.eq_of_leaf {t : Tree T} {a x : NodeId} (hleaf : t.children_ids a = some [])
    (h : InTree t a x) : x = a := by
  induction h with
  | refl => rfl
  | step h1 h2 h3 ih =>
    subst ih
    rw [hleaf] at h2
    cases h2
    cases h3

theorem foldlM_option_inv {α β : Type} {f : β → α → Option β} {P : β → Prop}
    (hstep : ∀ b a b', P b → f b a = some b' → P b') :
    ∀ (l : List α) (b b' : β), P b → List.foldlM f b l = some b' → P b' := by
  intro l
  induction l with
  | nil =>
    intro b b' hb h
    rw [List.foldlM_nil] at h
    cases h
    exact hb
  | cons a l ih =>
    intro b b' hb h
    rw [List.foldlM_cons] at h
    obtain ⟨b1, hb1, hrest⟩ := Option.bind_eq_some.mp h
    exact ih b1 b' (hstep b a b1 hb hb1) hrest

theorem mem_retainBuf {buf : List NodeId} {len : Nat} {bad x : NodeId}
    (h : x ∈ Tree.retainBuf buf len bad) : x ∈ buf := by
  unfold Tree.retainBuf at h
  simp only [List.mem_append] at h
  rcases h with h | h
  · exact List.mem_of_mem_take (List.mem_of_mem_filter h)
  · exact List.mem_of_mem_drop h

theorem Tree.add_child_inv {t t' : Tree T} {p c : NodeId}
    (h : t.add_child p c = some t') :
    ∃ cn pn, t.getNode c = some cn ∧
      (t.setNode c { cn with parent := some p }).getNode p = some pn ∧
      Tree.setHeightList
        (Tree.treeFuel ((t.setNode c { cn with parent := some p }).setNode p
          { pn with children := pn.children ++ [c] }))
        ((t.setNode c { cn with parent := some p }).setNode p
          { pn with children := pn.children ++ [c] })
        [c] (u16Mod (pn.height + 1)) = some t' := by
  cases hc : t.getNode c with
  | none => simp [Tree.add_child, hc] at h
  | some cn =>
    cases hp : (t.setNode c { cn with parent := some p }).getNode p with
    | none => simp [Tree.add_child, hc, hp] at h
    | some pn =>
      refine ⟨cn, pn, rfl, hp, ?_⟩
      simpa [Tree.add_child, hc, hp] using h

theorem Tree.insert_before_inv {t t' : Tree T} {id c : NodeId}
    (h : t.insert_before id c = some t') :
    ∃ n parentId nn pn index,
      t.getNode id = some n ∧ n.parent = some parentId ∧
      t.getNode c = some nn ∧
      (t.setNode c { nn with parent := some parentId }).getNode parentId = some pn ∧
      listPos pn.children id = some index ∧
      Tree.setHeightList
        (Tree.treeFuel ((t.setNode c { nn with parent := some parentId }).setNode parentId
          { pn with children := List.insertIdx index c pn.children }))
        ((t.setNode c { nn with parent := some parentId }).setNode parentId
          { pn with children := List.insertIdx index c pn.children })
        [c] (u16Mod (pn.height + 1)) = some t' := by
  cases h1 : t.getNode id with
  | none => simp [Tree.insert_before, h1] at h
  | some n =>
    cases h2 : n.parent with
    | none => simp [Tree.insert_before, h1, h2] at h
    | some parentId =>
      cases h3 : t.getNode c with
      | none => simp [Tree.insert_before, h1, h2, h3] at h
      | some nn =>
        cases h4 : (t.setNode c { nn with parent := some parentId }).getNode parentId with
        | none => simp [Tree.insert_before, h1, h2, h3, h4] at h
        | some pn =>
          cases h5 : listPos pn.children id with
          | none => simp [Tree.insert_before, h1, h2, h3, h4, h5] at h
          | some index =>
            refine ⟨n, parentId, nn, pn, index, rfl, h2, rfl, h4, h5, ?_⟩
            simpa [Tree.insert_before, h1, h2, h3, h4, h5] using h

theorem Tree.insert_after_inv {t t' : Tree T} {id c : NodeId}
    (h : t.insert_after id c = some t') :
    ∃ n parentId nn pn index,
      t.getNode id = some n ∧ n.parent = some parentId ∧
      t.getNode c = some nn ∧
      (t.setNode c { nn with parent := some parentId }).getNode parentId = some pn ∧
      listPos pn.children id = some index ∧
      Tree.setHeightList
        (Tree.treeFuel ((t.setNode c { nn with parent := some parentId }).setNode parentId
          { pn with children := List.insertIdx (index + 1) c pn.children }))
        ((t.setNode c { nn with parent := some parentId }).setNode parentId
          { pn with children := List.insertIdx (index + 1) c pn.children })
        [c] (u16Mod (pn.height + 1)) = some t' := by
  cases h1 : t.getNode id with
  | none => simp [Tree.insert_after, h1] at h
  | some n =>
    cases h2 : n.parent with
    | none => simp [Tree.insert_after, h1, h2] at h
    | some parentId =>
      cases h3 : t.getNode c with
      | none => simp [Tree.insert_after, h1, h2, h3] at h
      | some nn =>
        cases h4 : (t.setNode c { nn with parent := some parentId }).getNode parentId with
        | none => simp [Tree.insert_after, h1, h2, h3, h4] at h
        | some pn =>
          cases h5 : listPos pn.children id with
          | none => simp [Tree.insert_after, h1, h2, h3, h4, h5] at h
          | some index =>
            refine ⟨n, parentId, nn, pn, index, rfl, h2, rfl, h4, h5, ?_⟩
            simpa [Tree.insert_after, h1, h2, h3, h4, h5] using h

theorem Tree.replace_inv {t t' : Tree T} {oldId newId : NodeId}
    (h : t.replace oldId newId = some t') :
    ∃ old t1, t.tryRemove oldId = some (some (old, t1)) ∧
      ((old.parent = none ∧ t' = t1) ∨
       ∃ parentId pn, old.parent = some parentId ∧ t1.getNode parentId = some pn ∧
         Tree.setHeightList
           (Tree.treeFuel (t1.setNode parentId
             { pn with children := pn.children.map (fun x => if x = oldId then newId else x) }))
           (t1.setNode parentId
             { pn with children := pn.children.map (fun x => if x = oldId then newId else x) })
           [newId] (u16Mod (pn.height + 1)) = some t') := by
  cases h1 : t.tryRemove oldId with
  | none => simp [Tree.replace, h1] at h
  | some o =>
    cases o with
    | none => simp [Tree.replace, h1] at h
    | some pr =>
      obtain ⟨old, t1⟩ := pr
      refine ⟨old, t1, rfl, ?_⟩
      cases h2 : old.parent with
      | none =>
        left
        refine ⟨rfl, ?_⟩
        have h3 := h
        simp [Tree.replace, h1, h2] at h3
        exact h3.symm
      | some parentId =>
        right
        cases h3 : t1.getNode parentId with
        | none => simp [Tree.replace, h1, h2, h3] at h
        | some pn =>
          refine ⟨parentId, pn, rfl, h3, ?_⟩
          simpa [Tree.replace, h1, h2, h3] using h

theorem Tree.new_wf (v : T) : WF (Tree.new v) := by
  have hg0 : (Tree.new v).getNode ⟨0⟩ =
      some { value := v, parent := none, children := [], height := 0 } := rfl
  have hdead : ∀ x : NodeId, 1 ≤ x.val → (Tree.new v).getNode x = none := by
    intro x hx
    exact Tree.getNode_eq_none_of_ge (show (Tree.new v).nodes.entries.length ≤ x.val from hx)
  have hnopar : ∀ c p : NodeId, (Tree.new v).parent_id c = some p → False := by
    intro c p hcp
    rcases Nat.eq_zero_or_pos c.val with h0 | h1
    · have hc0 : c = ⟨0⟩ := NodeId.val_injective h0
      subst hc0
      rw [Tree.parent_id_of_node hg0] at hcp
      cases hcp
    · unfold Tree.parent_id at hcp
      rw [hdead c h1] at hcp
      cases hcp
  constructor
  case slab =>
    constructor
    · show (1 : Nat) = occupiedCount (Tree.new v).nodes.entries
      have hocc : occFinset (Tree.new v).nodes.entries = {0} := by
        ext k
        rw [occFinset_mem, Finset.mem_singleton]
        constructor
        · rintro ⟨hk, -⟩
          simpa using Nat.lt_one_iff.mp hk
        · intro hk
          subst hk
          exact ⟨Nat.one_pos, rfl⟩
      unfold occupiedCount
      rw [hocc]
      rfl
    · refine ⟨[], Chain.nil, ?_⟩
      intro k hvk
      obtain ⟨m, hm⟩ := hvk
      rcases Nat.eq_zero_or_pos k with h0 | h1
      · subst h0
        cases hm
      · rw [List.getElem?_eq_none_iff.mpr (show (Tree.new v).nodes.entries.length ≤ k from h1)] at hm
        cases hm
  case root_live => rfl
  case root_par => rfl
  case root_h => rfl
  case par_child =>
    intro c p hcp
    exact absurd hcp (fun h => hnopar c p h)
  case child_par =>
    intro p pn hp c hc
    rcases Nat.eq_zero_or_pos p.val with h0 | h1
    · have hp0 : p = ⟨0⟩ := NodeId.val_injective h0
      subst hp0
      rw [hg0] at hp
      have : pn = { value := v, parent := none, children := [], height := 0 } :=
        (Option.some.inj hp).symm
      subst this
      cases hc
    · rw [hdead p h1] at hp
      cases hp
  case child_nodup =>
    intro p pn hp
    rcases Nat.eq_zero_or_pos p.val with h0 | h1
    · have hp0 : p = ⟨0⟩ := NodeId.val_injective h0
      subst hp0
      rw [hg0] at hp
      have : pn = { value := v, parent := none, children := [], height := 0 } :=
        (Option.some.inj hp).symm
      subst this
      exact List.nodup_nil
    · rw [hdead p h1] at hp
      cases hp
  case hts =>
    intro c p hcp
    exact absurd hcp (fun h => hnopar c p h)
  case rank =>
    refine ⟨fun _ => 0, ?_⟩
    intro c p hcp
    exact absurd hcp (fun h => hnopar c p h)

/-- `create_node` on a slab whose free list is empty appends at the end:
the fresh key is the old physical length. -/
theorem Tree.create_node_append {t : Tree T} (h : t.nodes.next = t.nodes.entries.length)
    (v : T) :
    t.create_node v =
      (⟨t.nodes.entries.length⟩,
       { nodes := ⟨t.nodes.entries ++
            [Entry.occupied { value := v, parent := none, children := [], height := 0 }],
          t.nodes.len + 1, t.nodes.entries.length + 1⟩, root := t.root }) := by
  simp [Tree.create_node, Slab.insert, h]

theorem Tree.create_node_spec {t : Tree T} (wf : WF t) (v : T) :
    WF (t.create_node v).2 ∧
    (t.create_node v).2.root = t.root ∧
    t.getNode (t.create_node v).1 = none ∧
    (t.create_node v).2.getNode (t.create_node v).1 =
      some { value := v, parent := none, children := [], height := 0 } ∧
    (∀ x, x ≠ (t.create_node v).1 → (t.create_node v).2.getNode x = t.getNode x) := by
  obtain ⟨hfresh, hget, hpres0, hlen, hslab⟩ := SlabWF.insert_spec wf.slab
    { value := v, parent := none, children := [], height := 0 }
  have hkey : (t.create_node v).1.val =
      (t.nodes.insert { value := v, parent := none, children := [], height := 0 }).1 := rfl
  have hnodes : (t.create_node v).2.nodes =
      (t.nodes.insert { value := v, parent := none, children := [], height := 0 }).2 := rfl
  have hfreshT : t.getNode (t.create_node v).1 = none := hfresh
  have hgetT : (t.create_node v).2.getNode (t.create_node v).1 =
      some { value := v, parent := none, children := [], height := 0 } := hget
  have hpres : ∀ x : NodeId, x ≠ (t.create_node v).1 →
      (t.create_node v).2.getNode x = t.getNode x := by
    intro x hx
    exact hpres0 x.val (fun hv => hx (NodeId.val_injective hv))
  have hroot' : (t.create_node v).2.root = t.root := rfl
  have hrootne : t.root ≠ (t.create_node v).1 := by
    intro he
    have := wf.root_live
    rw [he, hfreshT] at this
    cases this
  have hparP : ∀ x : NodeId, x ≠ (t.create_node v).1 →
      (t.create_node v).2.parent_id x = t.parent_id x := by
    intro x hx
    unfold Tree.parent_id
    rw [hpres x hx]
  have hparF : (t.create_node v).2.parent_id (t.create_node v).1 = none := by
    rw [Tree.parent_id_of_node hgetT]
  have hlinkold : ∀ c p : NodeId, (t.create_node v).2.parent_id c = some p →
      c ≠ (t.create_node v).1 ∧ t.parent_id c = some p ∧ p ≠ (t.create_node v).1 := by
    intro c p hcp
    have hcf : c ≠ (t.create_node v).1 := by
      intro he
      rw [he, hparF] at hcp
      cases hcp
    have hold : t.parent_id c = some p := by rw [← hparP c hcf]; exact hcp
    refine ⟨hcf, hold, ?_⟩
    intro he
    obtain ⟨pn, hpn, -⟩ := wf.par_child c p hold
    rw [he, hfreshT] at hpn
    cases hpn
  refine ⟨?_, hroot', hfreshT, hgetT, hpres⟩
  constructor
  case slab => exact hslab
  case root_live =>
    rw [hroot', hpres t.root hrootne]
    exact wf.root_live
  case root_par =>
    rw [hroot', hparP t.root hrootne]
    exact wf.root_par
  case root_h =>
    rw [hroot']
    show ((t.create_node v).2.getNode t.root).map Node.height = some 0
    rw [hpres t.root hrootne]
    exact wf.root_h
  case par_child =>
    intro c p hcp
    obtain ⟨hcf, hold, hpf⟩ := hlinkold c p hcp
    obtain ⟨pn, hpn, hmem⟩ := wf.par_child c p hold
    refine ⟨pn, ?_, hmem⟩
    rw [hpres p hpf]
    exact hpn
  case child_par =>
    intro p pn hpn c hc
    by_cases hpf : p = (t.create_node v).1
    · subst hpf
      rw [hgetT] at hpn
      have : pn = { value := v, parent := none, children := [], height := 0 } :=
        (Option.some.inj hpn).symm
      subst this
      cases hc
    · rw [hpres p hpf] at hpn
      have hold := wf.child_par p pn hpn c hc
      have hcf : c ≠ (t.create_node v).1 := by
        intro he
        rw [he] at hold
        have : (t.getNode (t.create_node v).1).isSome = true := by
          obtain ⟨n2, hn2, -⟩ := Tree.parent_id_eq_some hold
          rw [hn2]; rfl
        rw [hfreshT] at this
        cases this
      rw [hparP c hcf]
      exact hold
  case child_nodup =>
    intro p pn hpn
    by_cases hpf : p = (t.create_node v).1
    · subst hpf
      rw [hgetT] at hpn
      have : pn = { value := v, parent := none, children := [], height := 0 } :=
        (Option.some.inj hpn).symm
      subst this
      exact List.nodup_nil
    · rw [hpres p hpf] at hpn
      exact wf.child_nodup p pn hpn
  case hts =>
    intro c p hcp
    obtain ⟨hcf, hold, hpf⟩ := hlinkold c p hcp
    obtain ⟨hp0, hhp, hhc⟩ := wf.hts c p hold
    refine ⟨hp0, ?_, ?_⟩
    · show ((t.create_node v).2.getNode p).map Node.height = some hp0
      rw [hpres p hpf]
      exact hhp
    · show ((t.create_node v).2.getNode c).map Node.height = some (u16Mod (hp0 + 1))
      rw [hpres c hcf]
      exact hhc
  case rank =>
    obtain ⟨d, hd⟩ := wf.rank
    refine ⟨d, ?_⟩
    intro c p hcp
    exact hd c p (hlinkold c p hcp).2.1

theorem Tree.add_child_spec {t : Tree T} (wf : WF t) {p c : NodeId} {cn pn : Node T}
    (hc : t.getNode c = some cn) (hcdet : cn.parent = none) (hcroot : c ≠ t.root)
    (hp : t.getNode p = some pn) (hnc : ¬ InTree t c p) :
    ∃ t', t.add_child p c = some t' ∧ WF t' ∧ t'.root = t.root ∧
      t'.children_ids p = some (pn.children ++ [c]) ∧
      t'.parent_id c = some p ∧
      t'.height c = some (u16Mod (pn.height + 1)) ∧
      (∀ x, x ≠ c → t'.parent_id x = t.parent_id x) ∧
      (∀ x, x ≠ p → t'.children_ids x = t.children_ids x) ∧
      (∀ x, ¬ InTree t c x → t'.height x = t.height x) ∧
      (∀ x, (t'.getNode x).isSome = (t.getNode x).isSome) ∧
      t'.nodes.next = t.nodes.next ∧
      t'.nodes.entries.length = t.nodes.entries.length := by
  have hpc : p ≠ c := fun he => hnc (by rw [he]; exact InTree.refl c)
  have hcnot : c ∉ pn.children := by
    intro hmem
    have := wf.child_par p pn hp c hmem
    rw [Tree.parent_id_of_node hc, hcdet] at this
    cases this
  have hmem : ∀ x, x ∈ pn.children ++ [c] ↔ x ∈ pn.children ∨ x = c := by
    intro x
    simp
  have hnodup : (pn.children ++ [c]).Nodup := by
    rw [List.nodup_append]
    refine ⟨wf.child_nodup p pn hp, List.nodup_singleton c, ?_⟩
    intro a ha hb
    rw [List.mem_singleton] at hb
    subst hb
    exact hcnot ha
  obtain ⟨t', heq, hwf, hroot, hchP, hparC, hhtC, hpar, hchil, hht, hlive, hnext, hlen⟩ :=
    attach_spec wf hc hcdet hcroot hp hnc hmem hnodup
  refine ⟨t', ?_, hwf, hroot, hchP, hparC, hhtC, hpar, hchil, hht, hlive, hnext, hlen⟩
  have hp1 : (t.setNode c { cn with parent := some p }).getNode p = some pn := by
    rw [Tree.getNode_setNode_ne _ _ hpc]
    exact hp
  simpa [Tree.add_child, hc, hp1] using heq

theorem Tree.insert_before_spec {t : Tree T} (wf : WF t) {id c par : NodeId}
    {n cn : Node T}
    (hid : t.getNode id = some n) (hnpar : n.parent = some par)
    (hc : t.getNode c = some cn) (hcdet : cn.parent = none) (hcroot : c ≠ t.root)
    (hnc : ¬ InTree t c par) :
    ∃ i pn t', t.getNode par = some pn ∧ listPos pn.children id = some i ∧
      pn.children[i]? = some id ∧
      t.insert_before id c = some t' ∧ WF t' ∧ t'.root = t.root ∧
      t'.children_ids par = some (List.insertIdx i c pn.children) ∧
      t'.parent_id c = some par ∧
      t'.height c = some (u16Mod (pn.height + 1)) ∧
      (∀ x, x ≠ c → t'.parent_id x = t.parent_id x) ∧
      (∀ x, x ≠ par → t'.children_ids x = t.children_ids x) ∧
      (∀ x, ¬ InTree t c x → t'.height x = t.height x) ∧
      (∀ x, (t'.getNode x).isSome = (t.getNode x).isSome) ∧
      t'.nodes.next = t.nodes.next ∧
      t'.nodes.entries.length = t.nodes.entries.length := by
  have hparc : par ≠ c := fun he => hnc (by rw [he]; exact InTree.refl c)
  have hpid : t.parent_id id = some par := by
    rw [Tree.parent_id_of_node hid]
    exact hnpar
  obtain ⟨pn, hp, hidmem⟩ := wf.par_child id par hpid
  obtain ⟨i, hi⟩ := listPos_mem hidmem
  have hcnot : c ∉ pn.children := by
    intro hmem
    have := wf.child_par par pn hp c hmem
    rw [Tree.parent_id_of_node hc, hcdet] at this
    cases this
  have hile : i ≤ pn.children.length := le_of_lt (listPos_lt hi)
  have hmem : ∀ x, x ∈ List.insertIdx i c pn.children ↔ x ∈ pn.children ∨ x = c := by
    intro x
    rw [List.mem_insertIdx hile]
    tauto
  have hnodup : (List.insertIdx i c pn.children).Nodup := by
    rw [List.Perm.nodup_iff (List.perm_insertIdx c pn.children hile)]
    exact List.Nodup.cons hcnot (wf.child_nodup par pn hp)
  obtain ⟨t', heq, hwf, hroot, hchP, hparC, hhtC, hpar, hchil, hht, hlive, hnext, hlen⟩ :=
    attach_spec wf hc hcdet hcroot hp hnc hmem hnodup
  refine ⟨i, pn, t', hp, hi, listPos_get hi, ?_, hwf, hroot, hchP, hparC, hhtC,
    hpar, hchil, hht, hlive, hnext, hlen⟩
  have hp1 : (t.setNode c { cn with parent := some par }).getNode par = some pn := by
    rw [Tree.getNode_setNode_ne _ _ hparc]
    exact hp
  simpa [Tree.insert_before, hid, hnpar, hc, hp1, hi] using heq

theorem Tree.insert_after_spec {t : Tree T} (wf : WF t) {id c par : NodeId}
    {n cn : Node T}
    (hid : t.getNode id = some n) (hnpar : n.parent = some par)
    (hc : t.getNode c = some cn) (hcdet : cn.parent = none) (hcroot : c ≠ t.root)
    (hnc : ¬ InTree t c par) :
    ∃ i pn t', t.getNode par = some pn ∧ listPos pn.children id = some i ∧
      pn.children[i]? = some id ∧
      t.insert_after id c = some t' ∧ WF t' ∧ t'.root = t.root ∧
      t'.children_ids par = some (List.insertIdx (i + 1) c pn.children) ∧
      t'.parent_id c = some par ∧
      t'.height c = some (u16Mod (pn.height + 1)) ∧
      (∀ x, x ≠ c → t'.parent_id x = t.parent_id x) ∧
      (∀ x, x ≠ par → t'.children_ids x = t.children_ids x) ∧
      (∀ x, ¬ InTree t c x → t'.height x = t.height x) ∧
      (∀ x, (t'.getNode x).isSome = (t.getNode x).isSome) ∧
      t'.nodes.next = t.nodes.next ∧
      t'.nodes.entries.length = t.nodes.entries.length := by
  have hparc : par ≠ c := fun he => hnc (by rw [he]; exact InTree.refl c)
  have hpid : t.parent_id id = some par := by
    rw [Tree.parent_id_of_node hid]
    exact hnpar
  obtain ⟨pn, hp, hidmem⟩ := wf.par_child id par hpid
  obtain ⟨i, hi⟩ := listPos_mem hidmem
  have hcnot : c ∉ pn.children := by
    intro hmem
    have := wf.child_par par pn hp c hmem
    rw [Tree.parent_id_of_node hc, hcdet] at this
    cases this
  have hile : i + 1 ≤ pn.children.length := listPos_lt hi
  have hmem : ∀ x, x ∈ List.insertIdx (i + 1) c pn.children ↔ x ∈ pn.children ∨ x = c := by
    intro x
    rw [List.mem_insertIdx hile]
    tauto
  have hnodup : (List.insertIdx (i + 1) c pn.children).Nodup := by
    rw [List.Perm.nodup_iff (List.perm_insertIdx c pn.children hile)]
    exact List.Nodup.cons hcnot (wf.child_nodup par pn hp)
  obtain ⟨t', heq, hwf, hroot, hchP, hparC, hhtC, hpar, hchil, hht, hlive, hnext, hlen⟩ :=
    attach_spec wf hc hcdet hcroot hp hnc hmem hnodup
  refine ⟨i, pn, t', hp, hi, listPos_get hi, ?_, hwf, hroot, hchP, hparC, hhtC,
    hpar, hchil, hht, hlive, hnext, hlen⟩
  have hp1 : (t.setNode c { cn with parent := some par }).getNode par = some pn := by
    rw [Tree.getNode_setNode_ne _ _ hparc]
    exact hp
  simpa [Tree.insert_after, hid, hnpar, hc, hp1, hi] using heq

/-- `remove_recursive` only vacates slots: any slot still occupied after a
successful run held the same node before it. -/
theorem Tree.removeRecList_get_mono {T : Type} :
    ∀ (fuel : Nat) (s : Slab (Node T)) (L : List NodeId) (s' : Slab (Node T)),
      Tree.removeRecList fuel s L = some s' →
      ∀ (k : Nat) (v : Node T), s'.get k = some v → s.get k = some v := by
  intro fuel
  induction fuel with
  | zero =>
    intro s L s' h k v hv
    cases L with
    | nil =>
      rw [show Tree.removeRecList 0 s ([] : List NodeId) = some s from rfl] at h
      cases h
      exact hv
    | cons a l =>
      rw [show Tree.removeRecList 0 s (a :: l) = none from rfl] at h
      cases h
  | succ fuel ih =>
    intro s L s' h k v hv
    cases L with
    | nil =>
      rw [show Tree.removeRecList (fuel + 1) s ([] : List NodeId) = some s from rfl] at h
      cases h
      exact hv
    | cons a l =>
      cases h1 : s.tryRemoveAt a.val with
      | none => simp [Tree.removeRecList, h1] at h
      | some pr =>
        obtain ⟨n1, s1⟩ := pr
        cases h2 : Tree.removeRecList fuel s1 n1.children with
        | none => simp [Tree.removeRecList, h1, h2] at h
        | some s2 =>
          have h3 : Tree.removeRecList fuel s2 l = some s' := by
            simpa [Tree.removeRecList, h1, h2] using h
          have hv2 := ih s2 l s' h3 k v hv
          have hv1 := ih s1 n1.children s2 h2 k v hv2
          by_cases hk : k = a.val
          · subst hk
            rw [Slab.get_tryRemoveAt_self h1] at hv1
            cases hv1
          · rw [Slab.get_tryRemoveAt_ne h1 hk] at hv1
            exact hv1

/-- Shape of `try_remove`: not-found exactly when the slot is vacant;
otherwise it panics or succeeds returning the removed node, and every node
still live afterwards was live before with the same height (removal only
vacates slots and rewrites the parent's children list). -/
theorem Tree.tryRemove_shape {T : Type} (t : Tree T) (id : NodeId) :
    (t.nodes.tryRemoveAt id.val = none ∧ t.tryRemove id = some none) ∨
    t.tryRemove id = none ∨
    (∃ n s1 t1, t.nodes.tryRemoveAt id.val = some (n, s1) ∧
      t.tryRemove id = some (some (n, t1)) ∧
      ∀ (p : NodeId) (pn1 : Node T), t1.getNode p = some pn1 →
        ∃ pn0, t.getNode p = some pn0 ∧ pn1.height = pn0.height) := by
  cases h1 : t.nodes.tryRemoveAt id.val with
  | none =>
    left
    exact ⟨rfl, by simp [Tree.tryRemove, h1]⟩
  | some pr =>
    obtain ⟨n, s1⟩ := pr
    right
    cases h2 : n.parent with
    | none =>
      cases h3 : Tree.removeRecList (3 * s1.entries.length + 3) s1 n.children with
      | none =>
        left
        simp [Tree.tryRemove, h1, h2, h3]
      | some s3 =>
        right
        refine ⟨n, s1, { t with nodes := s3 }, rfl, by simp [Tree.tryRemove, h1, h2, h3], ?_⟩
        intro p pn1 hp
        have hs3 : s3.get p.val = some pn1 := hp
        have hs1 : s1.get p.val = some pn1 :=
          Tree.removeRecList_get_mono _ _ _ _ h3 _ _ hs3
        by_cases hk : p.val = id.val
        · rw [hk, Slab.get_tryRemoveAt_self h1] at hs1
          cases hs1
        · rw [Slab.get_tryRemoveAt_ne h1 hk] at hs1
          exact ⟨pn1, hs1, rfl⟩
    | some q =>
      cases h4 : s1.get q.val with
      | none =>
        left
        simp [Tree.tryRemove, h1, h2, h4]
      | some pnq =>
        cases h5 : Tree.removeRecList
            (3 * (s1.setAt q.val
              { pnq with children := pnq.children.filter (fun c => c != id) }).entries.length + 3)
            (s1.setAt q.val
              { pnq with children := pnq.children.filter (fun c => c != id) }) n.children with
        | none =>
          left
          simp [Tree.tryRemove, h1, h2, h4, h5]
        | some s3 =>
          right
          refine ⟨n, s1, { t with nodes := s3 }, rfl,
            by simp [Tree.tryRemove, h1, h2, h4, h5], ?_⟩
          intro p pn1 hp
          have hs3 : s3.get p.val = some pn1 := hp
          have hs2 : (s1.setAt q.val
              { pnq with children := pnq.children.filter (fun c => c != id) }).get p.val =
              some pn1 :=
            Tree.removeRecList_get_mono _ _ _ _ h5 _ _ hs3
          have hqid : q.val ≠ id.val := by
            intro he
            rw [he, Slab.get_tryRemoveAt_self h1] at h4
            cases h4
          by_cases hq : p.val = q.val
          · rw [hq, Slab.get_setAt_self h4] at hs2
            have hpn1 : pn1 =
                { pnq with children := pnq.children.filter (fun c => c != id) } :=
              (Option.some.inj hs2).symm
            have hget : t.nodes.get q.val = some pnq := by
              rw [← Slab.get_tryRemoveAt_ne h1 hqid]
              exact h4
            refine ⟨pnq, ?_, ?_⟩
            · show t.nodes.get p.val = some pnq
              rw [hq]
              exact hget
            · rw [hpn1]
          · rw [Slab.get_setAt_ne _ _ hq] at hs2
            by_cases hk : p.val = id.val
            · rw [hk, Slab.get_tryRemoveAt_self h1] at hs2
              cases hs2
            · rw [Slab.get_tryRemoveAt_ne h1 hk] at hs2
              exact ⟨pn1, hs2, rfl⟩

theorem InTree.has_parent {t : Tree T} (wf : WF t) {a x : NodeId}
    (h : InTree t a x) (hne : x ≠ a) : ∃ q, t.parent_id x = some q := by
  cases h with
  | refl => exact absurd rfl hne
  | step h1 h2 h3 =>
    obtain ⟨bn, hbn, hch⟩ := Tree.children_ids_eq_some h2
    rw [← hch] at h3
    exact ⟨_, wf.child_par _ bn hbn _ h3⟩

theorem Tree.remove_preserves {t t' : Tree T} (wf : WF t) {id : NodeId} {v : Option T}
    (hne : id ≠ t.root) (h : t.remove id = some (v, t')) : WF t' ∧ t'.root = t.root := by
  by_cases hlive : ∃ n0, t.getNode id = some n0
  · obtain ⟨n0, hn0⟩ := hlive
    obtain ⟨L, hs⟩ := SubF.exists_of_live wf hn0
    obtain ⟨n, t2, hn, hrem, hroot', hdeadL, hsz, hle, hparch, hpres, hwf'⟩ := remove_spec wf hs
    rw [hrem] at h
    have hpr := Option.some.inj h
    have ht2 : t2 = t' := congrArg Prod.snd hpr
    subst ht2
    exact ⟨hwf' hne, hroot'⟩
  · have hdead : t.getNode id = none := by
      cases hg : t.getNode id with
      | none => rfl
      | some n => exact absurd ⟨n, hg⟩ hlive
    have htr : t.tryRemove id = some none := by
      unfold Tree.tryRemove
      rw [Slab.tryRemoveAt_eq_none (show t.nodes.get id.val = none from hdead)]
    have h2 := h
    simp [Tree.remove, htr] at h2
    rw [← h2.2]
    exact ⟨wf, rfl⟩

theorem Tree.replace_preserves {t t' : Tree T} (wf : WF t) {oldId c : NodeId}
    (hold : oldId ≠ t.root) (hdet : t.parent_id c = none) (hcroot : c ≠ t.root)
    (h : t.replace oldId c = some t') : WF t' ∧ t'.root = t.root := by
  obtain ⟨old, t1, htr, hcase⟩ := Tree.replace_inv h
  have holdlive : ∃ n0, t.getNode oldId = some n0 := by
    by_contra hno
    have hdead : t.getNode oldId = none := by
      cases hg : t.getNode oldId with
      | none => rfl
      | some n => exact absurd ⟨n, hg⟩ hno
    have htr2 : t.tryRemove oldId = some none := by
      unfold Tree.tryRemove
      rw [Slab.tryRemoveAt_eq_none (show t.nodes.get oldId.val = none from hdead)]
    rw [htr2] at htr
    cases Option.some.inj htr
  obtain ⟨n0, hn0⟩ := holdlive
  obtain ⟨L, hs⟩ := SubF.exists_of_live wf hn0
  obtain ⟨n, t1', hn, htr', hroot1, hdeadL, hsz, hle, hslab, hsur, hchl⟩ := tryRemove_effect wf hs
  rw [htr'] at htr
  have hpr := Option.some.inj (Option.some.inj htr)
  have hne : n = old := congrArg Prod.fst hpr
  have ht1e : t1 = t1' := (congrArg Prod.snd hpr).symm
  subst hne
  subst ht1e
  have hwf1 : WF t1 := WF.rebuild wf hs hold hroot1 hdeadL
    (fun x hx => ⟨(hsur x hx).1, (hsur x hx).2.1, (hsur x hx).2.2.1⟩) hchl hslab
  rcases hcase with ⟨hpnone, ht'⟩ | ⟨parentId, pn, hparent, hpn, heq⟩
  · subst ht'
    exact ⟨hwf1, hroot1⟩
  · have hpidold : t.parent_id oldId = some parentId := by
      rw [Tree.parent_id_of_node hn]
      exact hparent
    have hcold : c ≠ oldId := by
      intro he
      rw [he, hpidold] at hdet
      cases hdet
    have hcL : c ∉ L := by
      intro hc
      have hin := (SubF.mem_iff hs).mp hc
      obtain ⟨q, hq⟩ := InTree.has_parent wf hin hcold
      rw [hdet] at hq
      cases hq
    have hparL : parentId ∉ L := by
      rw [SubF.mem_iff hs]
      exact parent_not_in_subtree wf hpidold
    have hpnT : ∃ pnT, t.getNode parentId = some pnT := by
      have hiso := (hsur parentId hparL).2.2.1
      rw [hpn] at hiso
      cases hg : t.getNode parentId with
      | none => rw [hg] at hiso; cases hiso
      | some pnT => exact ⟨pnT, rfl⟩
    obtain ⟨pnT, hpnTg⟩ := hpnT
    have hch1 : t1.children_ids parentId = some (pnT.children.filter (fun y => y != oldId)) :=
      hchl parentId hparL pnT.children (Tree.children_ids_of_node hpnTg)
    have hch1' : t1.children_ids parentId = some pn.children := Tree.children_ids_of_node hpn
    have hpnch : pn.children = pnT.children.filter (fun y => y != oldId) := by
      rw [hch1] at hch1'
      exact (Option.some.inj hch1').symm
    have holdnot : oldId ∉ pn.children := by
      rw [hpnch]
      intro hmem
      exact (mem_filter_ne.mp hmem).2 rfl
    have hmapeq : pn.children.map (fun x => if x = oldId then c else x) = pn.children := by
      have h1 : pn.children.map (fun x => if x = oldId then c else x) =
          pn.children.map (fun x => x) := by
        apply List.map_congr_left
        intro a ha
        exact if_neg (fun he => holdnot (by rw [← he]; exact ha))
      rw [h1]
      exact List.map_id _
    have hnodeq : { pn with children := pn.children.map (fun x => if x = oldId then c else x) } = pn := by
      rw [hmapeq]
    have ht2eq : t1.setNode parentId { pn with children := pn.children.map (fun x => if x = oldId then c else x) } = t1 := by
      rw [hnodeq]
      exact Tree.setNode_self hpn
    rw [ht2eq] at heq
    cases hgc : t1.getNode c with
    | none =>
      exfalso
      have hfe : Tree.treeFuel t1 = 3 * t1.nodes.entries.length + 2 + 1 := by
        unfold Tree.treeFuel
        omega
      rw [hfe] at heq
      simp [Tree.setHeightList, hgc] at heq
    | some cn1 =>
      have hcn1par : cn1.parent = none := by
        have := (hsur c hcL).1
        rw [hdet, Tree.parent_id_of_node hgc] at this
        exact this
      have hcroot1 : c ≠ t1.root := by
        rw [hroot1]
        exact hcroot
      obtain ⟨t'', heq', hwf'', hroot'', -⟩ :=
        setHeightList_detached_spec hwf1 hgc hcn1par hcroot1 (u16Mod (pn.height + 1))
      have ht'' : t'' = t' := Option.some.inj (heq'.symm.trans heq)
      subst ht''
      exact ⟨hwf'', hroot''.trans hroot1⟩

theorem Tree.remove_all_children_preserves {t t' : Tree T} (wf : WF t) {id : NodeId}
    {vs : List T} (h : t.remove_all_children id = some (vs, t')) :
    WF t' ∧ t'.root = t.root := by
  cases hcs : t.children_ids id with
  | none => simp [Tree.remove_all_children, hcs] at h
  | some cs =>
    cases hfold : (List.range cs.length).foldlM (Tree.racStep id) (t, cs, []) with
    | none => simp [Tree.remove_all_children, hcs, hfold] at h
    | some st =>
      obtain ⟨t1, buf1, acc1⟩ := st
      have hst : t' = t1 := by
        have h2 := h
        simp [Tree.remove_all_children, hcs, hfold] at h2
        exact h2.2.symm
      have hcsroot : ∀ x ∈ cs, x ≠ t.root := by
        intro x hx he
        obtain ⟨nid, hnid, hch⟩ := Tree.children_ids_eq_some hcs
        rw [← hch] at hx
        have := wf.child_par id nid hnid x hx
        rw [he, wf.root_par] at this
        cases this
      have hstep : ∀ (b : Tree T × List NodeId × List T) (i : Nat)
          (b' : Tree T × List NodeId × List T),
          (WF b.1 ∧ b.1.root = t.root ∧ ∀ x ∈ b.2.1, x ∈ cs) →
          Tree.racStep id b i = some b' →
          (WF b'.1 ∧ b'.1.root = t.root ∧ ∀ x ∈ b'.2.1, x ∈ cs) := by
        rintro ⟨tc, buf, acc⟩ i b' ⟨hwfc, hrootc, hbuf⟩ hsc
        cases h1 : buf[i]? with
        | none => simp [Tree.racStep, h1] at hsc
        | some cnode =>
          cases h2 : tc.remove cnode with
          | none => simp [Tree.racStep, h1, h2] at hsc
          | some pr =>
            obtain ⟨vo, t1c⟩ := pr
            cases vo with
            | none => simp [Tree.racStep, h1, h2] at hsc
            | some v =>
              have hb' : b' = (t1c,
                  if tc.parent_id cnode = some id then
                    Tree.retainBuf buf ((tc.children_ids id).getD []).length cnode
                  else buf, acc ++ [v]) := by
                have h3 := hsc
                simp [Tree.racStep, h1, h2] at h3
                exact h3.symm
              subst hb'
              have hmembuf : cnode ∈ buf := by
                have := List.getElem?_eq_some_iff.mp h1
                obtain ⟨hlt, hget⟩ := this
                rw [← hget]
                exact List.getElem_mem hlt
              have hcne : cnode ≠ tc.root := by
                rw [hrootc]
                exact hcsroot cnode (hbuf cnode hmembuf)
              obtain ⟨hwf1, hroot1⟩ := Tree.remove_preserves hwfc hcne h2
              refine ⟨hwf1, hroot1.trans hrootc, ?_⟩
              intro x hx
              dsimp only at hx
              by_cases hcond : tc.parent_id cnode = some id
              · rw [if_pos hcond] at hx
                exact hbuf x (mem_retainBuf hx)
              · rw [if_neg hcond] at hx
                exact hbuf x hx
      have hinv := foldlM_option_inv hstep (List.range cs.length) (t, cs, [])
        (t1, buf1, acc1) ⟨wf, rfl, fun x hx => hx⟩ hfold
      rw [hst]
      exact ⟨hinv.1, hinv.2.1⟩

/-- Every tree reachable through the public interface (under the
caller-maintained attachment preconditions) is structurally well-formed. -/
theorem Reached.wf {t : Tree T} (h : Reached t) : WF t := by
  induction h with
  | new v => exact Tree.new_wf v
  | create v _ ih => exact (Tree.create_node_spec ih v).1
  | add_child hr hdet hcroot hnc heq ih =>
    rename_i t0 t' p c
    obtain ⟨cn, pn1, hc, hp1, heq2⟩ := Tree.add_child_inv heq
    have hcdet : cn.parent = none := by
      rw [Tree.parent_id_of_node hc] at hdet
      exact hdet
    have hpc : p ≠ c := fun he => hnc (by rw [he]; exact InTree.refl c)
    have hp : t0.getNode p = some pn1 := by
      rw [Tree.getNode_setNode_ne _ _ hpc] at hp1
      exact hp1
    obtain ⟨t'', heq'', hwf'', -⟩ := Tree.add_child_spec ih hc hcdet hcroot hp hnc
    have := Option.some.inj (heq''.symm.trans heq)
    rw [← this]
    exact hwf''
  | insert_before hr hdet hcroot hnc heq ih =>
    rename_i t0 t' id c
    obtain ⟨n, parentId, nn, pn, index, h1, h2, h3, h4, h5, heq2⟩ := Tree.insert_before_inv heq
    have hpid : t0.parent_id id = some parentId := by
      rw [Tree.parent_id_of_node h1]
      exact h2
    have hcdet : nn.parent = none := by
      rw [Tree.parent_id_of_node h3] at hdet
      exact hdet
    obtain ⟨i2, pn2, t'', hp2, hi2, hg2, heq'', hwf'', -⟩ :=
      Tree.insert_before_spec ih h1 h2 h3 hcdet hcroot (hnc parentId hpid)
    have := Option.some.inj (heq''.symm.trans heq)
    rw [← this]
    exact hwf''
  | insert_after hr hdet hcroot hnc heq ih =>
    rename_i t0 t' id c
    obtain ⟨n, parentId, nn, pn, index, h1, h2, h3, h4, h5, heq2⟩ := Tree.insert_after_inv heq
    have hpid : t0.parent_id id = some parentId := by
      rw [Tree.parent_id_of_node h1]
      exact h2
    have hcdet : nn.parent = none := by
      rw [Tree.parent_id_of_node h3] at hdet
      exact hdet
    obtain ⟨i2, pn2, t'', hp2, hi2, hg2, heq'', hwf'', -⟩ :=
      Tree.insert_after_spec ih h1 h2 h3 hcdet hcroot (hnc parentId hpid)
    have := Option.some.inj (heq''.symm.trans heq)
    rw [← this]
    exact hwf''
  | remove hr hne heq ih => exact (Tree.remove_preserves ih hne heq).1
  | remove_all hr heq ih => exact (Tree.remove_all_children_preserves ih heq).1
  | replace hr hold hdet hcroot heq ih => exact (Tree.replace_preserves ih hold hdet hcroot heq).1

end OpTheory

/-! ### Claims settled on concrete inputs -/

/-- C1: the claim says `replace(old, new)` splices `new` into the sibling
position `old` occupied and assigns it `old`'s former parent.  The code
does neither: `try_remove` already deleted `old` from the parent's
children, so the substitution loop finds nothing, and `new`'s parent link
is never written.  On a root with a single child (id 1) replaced by a
detached node (id 2), the parent's children list ends up empty, `new`
stays parentless, and only its height was recomputed. -/
theorem C1_replace_leaves_new_detached :
    (exBase.bind fun t => t.replace ⟨1⟩ ⟨2⟩).map (fun t => t.children_ids ⟨0⟩) =
      some (some []) ∧
    (exBase.bind fun t => t.replace ⟨1⟩ ⟨2⟩).map (fun t => t.parent_id ⟨2⟩) =
      some none ∧
    (exBase.bind fun t => t.replace ⟨1⟩ ⟨2⟩).map (fun t => t.get ⟨1⟩) = some none ∧
    (exBase.bind fun t => t.replace ⟨1⟩ ⟨2⟩).map (fun t => t.height ⟨2⟩) =
      some (some 1) := by
  decide

/-- C2: the claim says `remove_all_children(id)` removes all `n` direct
children and returns their values in sibling order.  The loop iterates a
borrowed slice of `id`'s children vector while each `remove` shrinks that
same vector, so with three children it removes the first and third, then
reads a stale buffer slot that repeats the third id, and the `unwrap` on
that second removal panics. -/
theorem C2_remove_all_children_panics_on_three :
    (exThree.bind fun t => t.remove_all_children ⟨0⟩) = none := by
  decide

/-- C3: the claim says every `SharedView` navigation operation returns what
the corresponding operation on the underlying tree returns, in particular
that `parent(id)` yields the value stored at `id`'s parent.  The code's
`SharedView::parent` runs `with_node(id, |t| t.get(id))` — it returns the
node's own value: on a root valued 10 with a child valued 20, the view's
`parent(child)` is 20 while the tree's `parent(child)` is 10. -/
theorem C3_shared_view_parent_returns_own_value :
    (exBase.map fun t => SharedView.parent t ⟨1⟩) = some (some 20) ∧
    (exBase.map fun t => Tree.parent t ⟨1⟩) = some (some 10) := by
  decide

/-- C7: the projection adapter's `get`/`get_mut` equal the projections
applied to the wrapped tree's `get`/`get_mut`; a mutation through the
adapter's `get_mut` lands at the same id in the base tree (through the
lens write-back); and `root`, `children_ids`, `parent_id`, `height` and
`size` delegate unchanged. -/
theorem C7_tree_map_is_projection {T1 T2 : Type} (m : TreeMap T1 T2) (id : NodeId)
    (g : T2 → T2) :
    TreeMap.get m id = (m.tree.get id).map m.map ∧
    TreeMap.get_mut m id = (m.tree.get_mut id).map m.mapMut ∧
    (TreeMap.modifyValue m id g).tree.get id =
      (m.tree.get id).map (fun v => m.mapMutPut v (g (m.mapMut v))) ∧
    TreeMap.root m = m.tree.root ∧
    TreeMap.children_ids m id = m.tree.children_ids id ∧
    TreeMap.parent_id m id = m.tree.parent_id id ∧
    TreeMap.height m id = m.tree.height id ∧
    TreeMap.size m = m.tree.size := by
  refine ⟨rfl, rfl, ?_, rfl, rfl, rfl, rfl, rfl⟩
  unfold TreeMap.modifyValue Tree.modifyValue
  cases hn : m.tree.getNode id with
  | none =>
    simp [Tree.get, hn]
  | some n =>
    simp only [Tree.get, hn, Option.map_some]
    rw [Tree.getNode_setNode_self hn]
    rfl

/-- C10: on an id that is not live, `insert_before` and `insert_after`
panic at the very first lookup (`self.nodes.get(id.0).unwrap()`), before
any mutation; they have no recoverable not-found return. -/
theorem C10_insert_on_dead_id_panics {T : Type} (t : Tree T) (id newId : NodeId)
    (h : t.get id = none) :
    t.insert_before id newId = none ∧ t.insert_after id newId = none := by
  have hn : t.getNode id = none := Tree.get_eq_none_iff.mp h
  constructor
  · unfold Tree.insert_before
    rw [hn]
  · unfold Tree.insert_after
    rw [hn]

/-- Witness for C10 at a concrete input: id 5 is not live in a fresh
single-node tree. -/
theorem C10_insert_on_dead_id_panics_witness :
    (Tree.new 0).insert_before ⟨5⟩ ⟨0⟩ = none ∧ (Tree.new 0).insert_after ⟨5⟩ ⟨0⟩ = none :=
  C10_insert_on_dead_id_panics (Tree.new 0) ⟨5⟩ ⟨0⟩ (by decide)

/-- C8, counterexample: the claim says an attachment under a parent whose
height is already the maximal `u16` fails fatally rather than silently
wrapping.  Under the release-profile semantics the addition wraps: the
attachment succeeds and the child's height becomes 0. -/
theorem C8_release_profile_wraps :
    (Tree.add_child maxHeightTree ⟨1⟩ ⟨2⟩).isSome = true ∧
    (Tree.add_child maxHeightTree ⟨1⟩ ⟨2⟩).map (fun t => t.height ⟨2⟩) = some (some 0) := by
  decide

/-- C8, amended: the code has no explicit guard, so the behaviour follows
the build profile: with overflow checks (debug profile) the
`parent.height + 1` panics — all four attachment operations abort — while
the default release profile silently wraps the height to 0. -/
theorem C8_debug_profile_aborts :
    (∀ (T : Type) (t : Tree T) (p c : NodeId),
      t.height p = some 65535 → (t.getNode c).isSome = true → t.add_child_dbg p c = none) ∧
    (∀ (T : Type) (t : Tree T) (id newId p : NodeId),
      t.parent_id id = some p → t.height p = some 65535 → (t.getNode newId).isSome = true →
        t.insert_before_dbg id newId = none ∧ t.insert_after_dbg id newId = none) ∧
    (∀ (T : Type) (t : Tree T) (oldId newId p : NodeId),
      t.parent_id oldId = some p → t.height p = some 65535 →
        t.replace_dbg oldId newId = none) := by
  refine ⟨?_, ?_, ?_⟩
  · intro T t p c hp hc
    obtain ⟨cn, hcn⟩ := Option.isSome_iff_exists.mp hc
    obtain ⟨pn, hpn, hph⟩ := Tree.height_eq_some hp
    simp only [Tree.add_child_dbg, hcn]
    by_cases hpc : p = c
    · subst hpc
      rw [Tree.getNode_setNode_self hcn]
      have hch : cn.height = 65535 := by rw [hcn] at hpn; cases hpn; exact hph
      simp [checkedU16Succ, hch]
    · rw [Tree.getNode_setNode_ne _ _ hpc, hpn]
      simp [checkedU16Succ, hph]
  · intro T t id newId p hpid hp hnew
    obtain ⟨n, hn, hnp⟩ := Tree.parent_id_eq_some hpid
    obtain ⟨nn, hnn⟩ := Option.isSome_iff_exists.mp hnew
    obtain ⟨pn, hpn, hph⟩ := Tree.height_eq_some hp
    have key : ∀ pn1 : Node T,
        (t.setNode newId { nn with parent := some p }).getNode p = some pn1 →
        pn1.height = 65535 := by
      intro pn1 h1
      by_cases hpe : p = newId
      · subst hpe
        rw [Tree.getNode_setNode_self hnn] at h1
        cases h1
        rw [hnn] at hpn; cases hpn; exact hph
      · rw [Tree.getNode_setNode_ne _ _ hpe, hpn] at h1
        cases h1; exact hph
    constructor
    · simp only [Tree.insert_before_dbg, hn, hnp, hnn]
      cases h1 : (t.setNode newId { nn with parent := some p }).getNode p with
      | none => simp
      | some pn1 =>
        cases h2 : listPos pn1.children id with
        | none => simp [h2]
        | some idx => simp [h2, checkedU16Succ, key pn1 h1]
    · simp only [Tree.insert_after_dbg, hn, hnp, hnn]
      cases h1 : (t.setNode newId { nn with parent := some p }).getNode p with
      | none => simp
      | some pn1 =>
        cases h2 : listPos pn1.children id with
        | none => simp [h2]
        | some idx => simp [h2, checkedU16Succ, key pn1 h1]
  · intro T t oldId newId p hpid hp
    obtain ⟨n, hn, hnp⟩ := Tree.parent_id_eq_some hpid
    obtain ⟨pn, hpn, hph⟩ := Tree.height_eq_some hp
    rcases Tree.tryRemove_shape t oldId with ⟨hvac, -⟩ | htr | ⟨n1, s1, t1, h1, htr, hsur⟩
    · rw [Slab.tryRemoveAt_eq_some (show t.nodes.get oldId.val = some n from hn)] at hvac
      cases hvac
    · simp [Tree.replace_dbg, htr]
    · have hn1 : n1 = n := by
        rw [Slab.tryRemoveAt_eq_some (show t.nodes.get oldId.val = some n from hn)] at h1
        exact (congrArg Prod.fst (Option.some.inj h1)).symm
      subst hn1
      cases hgp : t1.getNode p with
      | none => simp [Tree.replace_dbg, htr, hnp, hgp]
      | some pn1 =>
        obtain ⟨pn0, hpn0, hhe⟩ := hsur p pn1 hgp
        have hpn0e : pn0 = pn := by
          rw [hpn] at hpn0
          exact (Option.some.inj hpn0).symm
        have hh1 : pn1.height = 65535 := by rw [hhe, hpn0e, hph]
        simp [Tree.replace_dbg, htr, hnp, hgp, checkedU16Succ, hh1]

/-- Witness for C8 on the concrete tree with a parent at height 65535:
all four checked attachment operations abort. -/
theorem C8_debug_profile_aborts_witness :
    maxHeightTree.add_child_dbg ⟨1⟩ ⟨0⟩ = none ∧
    maxHeightTree.insert_before_dbg ⟨2⟩ ⟨0⟩ = none ∧
    maxHeightTree.insert_after_dbg ⟨2⟩ ⟨0⟩ = none ∧
    maxHeightTree.replace_dbg ⟨2⟩ ⟨0⟩ = none :=
  ⟨C8_debug_profile_aborts.1 Nat maxHeightTree ⟨1⟩ ⟨0⟩ (by decide) (by decide),
    (C8_debug_profile_aborts.2.1 Nat maxHeightTree ⟨2⟩ ⟨0⟩ ⟨1⟩ (by decide) (by decide)
      (by decide)).1,
    (C8_debug_profile_aborts.2.1 Nat maxHeightTree ⟨2⟩ ⟨0⟩ ⟨1⟩ (by decide) (by decide)
      (by decide)).2,
    C8_debug_profile_aborts.2.2 Nat maxHeightTree ⟨2⟩ ⟨0⟩ ⟨1⟩ (by decide) (by decide)⟩

section IndexLemmas

theorem getElem?_insertIdx_self {l : List NodeId} {i : Nat} {a : NodeId}
    (h : i ≤ l.length) : (List.insertIdx i a l)[i]? = some a := by
  rw [List.getElem?_eq_some_iff]
  refine ⟨?_, List.getElem_insertIdx_self l a i h⟩
  rw [List.length_insertIdx i l h]
  omega

theorem getElem?_insertIdx_succ_self {l : List NodeId} {i : Nat} {a : NodeId}
    (h : i < l.length) : (List.insertIdx i a l)[i + 1]? = l[i]? := by
  have h1 : i + 1 < (List.insertIdx i a l).length := by
    rw [List.length_insertIdx i l (le_of_lt h)]
    omega
  rw [List.getElem?_eq_getElem h1, List.getElem?_eq_getElem h]
  congr 1
  have h2 := List.getElem_insertIdx_add_succ l a i 0 (by simpa using h)
  simpa using h2

theorem getElem?_insertIdx_lt {l : List NodeId} {i j : Nat} {a : NodeId} (hj : j < i)
    (h : i ≤ l.length) (hjl : j < l.length) : (List.insertIdx i a l)[j]? = l[j]? := by
  have h1 : j < (List.insertIdx i a l).length := by
    rw [List.length_insertIdx i l h]
    omega
  rw [List.getElem?_eq_getElem h1, List.getElem?_eq_getElem hjl]
  congr 1
  exact List.getElem_insertIdx_of_lt l a i j hj hjl

theorem isOccB_get {T : Type} {e : List (Entry T)} {k : Nat} (h : isOccB e k = true) :
    ∃ v, e[k]? = some (Entry.occupied v) := by
  cases he : e[k]? with
  | none => simp [isOccB, he] at h
  | some ent =>
    cases ent with
    | vacant m => simp [isOccB, he] at h
    | occupied v => exact ⟨v, rfl⟩

end IndexLemmas

section WitnessTrees

/-- `exA` is reachable: `new 10`, `create_node 20`, `add_child 0 1`. -/
theorem exA_reached : Reached exA := by
  have heq : Tree.add_child ((Tree.new 10).create_node 20).2 ⟨0⟩ ⟨1⟩ = some exA := by decide
  have hdet : (((Tree.new 10).create_node 20).2).parent_id ⟨1⟩ = none := rfl
  have hroot : (⟨1⟩ : NodeId) ≠ (((Tree.new 10).create_node 20).2).root := by decide
  have hnc : ¬ InTree (((Tree.new 10).create_node 20).2) ⟨1⟩ ⟨0⟩ := by
    intro hin
    have := InTree.eq_of_leaf
      (show (((Tree.new 10).create_node 20).2).children_ids ⟨1⟩ = some [] from rfl) hin
    exact absurd this (by decide)
  exact Reached.add_child (Reached.create 20 (Reached.new 10)) hdet hroot hnc heq

theorem exA_wf : WF exA := Reached.wf exA_reached

/-- `exB` is reachable: `exA` then `create_node 30`. -/
theorem exB_reached : Reached exB := by
  have h := Reached.create 30 exA_reached
  rwa [show (exA.create_node 30).2 = exB by decide] at h

theorem exB_wf : WF exB := Reached.wf exB_reached

theorem exA_sub_child : SubF exA [⟨1⟩] [⟨1⟩] :=
  SubF.cons (show exA.children_ids ⟨1⟩ = some [] from rfl) SubF.nil SubF.nil

theorem exA_sub_root : SubF exA [⟨0⟩] [⟨0⟩, ⟨1⟩] :=
  SubF.cons (show exA.children_ids ⟨0⟩ = some [⟨1⟩] from rfl)
    (SubF.cons (show exA.children_ids ⟨1⟩ = some [] from rfl) SubF.nil SubF.nil) SubF.nil

theorem exB_nc : ¬ InTree exB ⟨2⟩ ⟨0⟩ := by
  intro hin
  have := InTree.eq_of_leaf (show exB.children_ids ⟨2⟩ = some [] from rfl) hin
  exact absurd this (by decide)

theorem exA_cov : ∀ x : NodeId, (exA.getNode x).isSome = true → InTree exA exA.root x := by
  intro x hx
  rcases x with ⟨_ | _ | n⟩
  · exact InTree.refl _
  · exact InTree.step (InTree.refl _)
      (show exA.children_ids ⟨0⟩ = some [⟨1⟩] from rfl) (by simp)
  · rw [Tree.getNode_eq_none_of_ge (show exA.nodes.entries.length ≤ n + 2 by
      show 2 ≤ n + 2
      omega)] at hx
    cases hx

end WitnessTrees

section ChainTheory

/-- For every `k` the public interface can build a linear chain of `k + 1`
nodes (node `j` the parent of node `j + 1`); its cached heights follow the
wrapping `u16` arithmetic of the release profile. -/
theorem chain_exists : ∀ k : Nat, ∃ t : Tree Nat, Reached t ∧ t.root = ⟨0⟩ ∧
    t.nodes.next = k + 1 ∧ t.nodes.entries.length = k + 1 ∧
    t.children_ids ⟨k⟩ = some [] ∧ t.height ⟨k⟩ = some (k % 65536) ∧
    (0 < k → t.parent_id ⟨k⟩ = some ⟨k - 1⟩ ∧ t.height ⟨k - 1⟩ = some ((k - 1) % 65536)) := by
  intro k
  induction k with
  | zero =>
    refine ⟨Tree.new 0, Reached.new 0, rfl, rfl, rfl, rfl, rfl, ?_⟩
    intro h
    exact absurd h (by decide)
  | succ k ih =>
    obtain ⟨t, hr, hroot, hnext, hlen, hch, hht, -⟩ := ih
    have hwf : WF t := Reached.wf hr
    obtain ⟨n, hn, hnch⟩ := Tree.children_ids_eq_some hch
    have hnht : n.height = k % 65536 := by
      have h1 := Tree.height_of_node hn
      rw [hht] at h1
      exact (Option.some.inj h1).symm
    have hcre := Tree.create_node_append
      (show t.nodes.next = t.nodes.entries.length by rw [hnext, hlen]) 0
    have hfst : (t.create_node (0 : Nat)).1 = ⟨k + 1⟩ := by
      have h1 := congrArg Prod.fst hcre
      rw [h1, hlen]
    obtain ⟨hwfm, hrootm, hfreshdead, hfreshget, hpresm⟩ := Tree.create_node_spec hwf 0
    rw [hfst] at hfreshget
    have hpresm' : ∀ x : NodeId, x ≠ ⟨k + 1⟩ →
        (t.create_node (0 : Nat)).2.getNode x = t.getNode x := by
      intro x hx
      rw [← hfst] at hx
      exact hpresm x hx
    have hsnd := congrArg Prod.snd hcre
    have hnextm : (t.create_node (0 : Nat)).2.nodes.next = k + 2 := by
      rw [hsnd]
      show t.nodes.entries.length + 1 = k + 2
      rw [hlen]
    have hlenm : (t.create_node (0 : Nat)).2.nodes.entries.length = k + 2 := by
      rw [hsnd]
      show (t.nodes.entries ++
        [(Entry.occupied { value := 0, parent := none, children := [], height := 0 } :
          Entry (Node Nat))]).length = k + 2
      rw [List.length_append, hlen]
      rfl
    have hkne : (⟨k⟩ : NodeId) ≠ ⟨k + 1⟩ := by
      intro he
      have hv : k = k + 1 := congrArg NodeId.val he
      omega
    have hmk : (t.create_node (0 : Nat)).2.getNode ⟨k⟩ = some n := by
      rw [hpresm' ⟨k⟩ hkne]
      exact hn
    have hrm : Reached (t.create_node (0 : Nat)).2 := Reached.create 0 hr
    have hdetm : (t.create_node (0 : Nat)).2.parent_id ⟨k + 1⟩ = none := by
      rw [Tree.parent_id_of_node hfreshget]
    have hchfresh : (t.create_node (0 : Nat)).2.children_ids ⟨k + 1⟩ = some [] := by
      rw [Tree.children_ids_of_node hfreshget]
    have hcrootm : (⟨k + 1⟩ : NodeId) ≠ (t.create_node (0 : Nat)).2.root := by
      rw [hrootm, hroot]
      intro he
      have hv : k + 1 = 0 := congrArg NodeId.val he
      omega
    have hncm : ¬ InTree (t.create_node (0 : Nat)).2 ⟨k + 1⟩ ⟨k⟩ := by
      intro hin
      have he := InTree.eq_of_leaf hchfresh hin
      have hv : k = k + 1 := congrArg NodeId.val he
      omega
    obtain ⟨t', heq, hwf', hroot', hchP, hparC, hhtC, hparpres, hchilpres, hhtpres,
      hlivepres, hnextpres, hlenpres⟩ :=
      Tree.add_child_spec hwfm hfreshget rfl hcrootm hmk hncm
    have hk1ne : (⟨k + 1⟩ : NodeId) ≠ ⟨k⟩ := fun he => hkne he.symm
    refine ⟨t', Reached.add_child hrm hdetm hcrootm hncm heq,
      hroot'.trans (hrootm.trans hroot), hnextpres.trans hnextm, hlenpres.trans hlenm,
      ?_, ?_, ?_⟩
    · rw [hchilpres ⟨k + 1⟩ hk1ne]
      exact hchfresh
    · rw [hhtC, hnht]
      have hmod : u16Mod (k % 65536 + 1) = (k + 1) % 65536 := by
        unfold u16Mod
        omega
      rw [hmod]
    · intro hpos
      constructor
      · show t'.parent_id ⟨k + 1⟩ = some ⟨k⟩
        exact hparC
      · show t'.height ⟨k⟩ = some (k % 65536)
        rw [hhtpres ⟨k⟩ hncm, Tree.height_of_node hmk, hnht]

end ChainTheory

/-! ### Height invariant (C4), removal (C5, C9), insertion placement (C6) -/

/-- C4: in every tree reachable through the public interface (under the
spec's attachment preconditions, with the root never detached), the
cached heights satisfy `height(root) = 0` and, along every parent link,
`height(child) = (height(parent) + 1) mod 2^16` — the claim's exact
`height(parent) + 1`, without the wrap, holds only while the depth stays
below the `u16` range (see the deep-chain counterexample). -/
theorem C4_reachable_heights {T : Type} {t : Tree T} (h : Reached t) :
    t.height t.root = some 0 ∧
    ∀ c p, t.parent_id c = some p →
      ∃ hp, t.height p = some hp ∧ t.height c = some (u16Mod (hp + 1)) :=
  ⟨(Reached.wf h).root_h, (Reached.wf h).hts⟩

theorem C4_reachable_heights_witness :
    (Tree.new (0 : Nat)).height (Tree.new (0 : Nat)).root = some 0 ∧
    ∀ c p, (Tree.new (0 : Nat)).parent_id c = some p →
      ∃ hp, (Tree.new (0 : Nat)).height p = some hp ∧
        (Tree.new (0 : Nat)).height c = some (u16Mod (hp + 1)) :=
  C4_reachable_heights (Reached.new 0)

/-- C4, counterexample to the claim's exact equation: a reachable chain of
65537 nodes has a node at cached height 65535 whose child's recomputed
height wrapped to 0, so `height(child) = height(parent) + 1` fails in a
reachable tree. -/
theorem C4_deep_chain_wraps : ∃ (t : Tree Nat) (c p : NodeId) (hp hc : Nat),
    Reached t ∧ t.parent_id c = some p ∧ t.height p = some hp ∧
    t.height c = some hc ∧ hc ≠ hp + 1 := by
  obtain ⟨t, hr, hroot, hnext, hlen, hch, hht, himp⟩ := chain_exists 65536
  obtain ⟨hpar, hhtp⟩ := himp (by omega)
  refine ⟨t, ⟨65536⟩, ⟨65535⟩, 65535 % 65536, 65536 % 65536, hr, ?_, ?_, hht, ?_⟩
  · exact hpar
  · exact hhtp
  · decide

/-- C5: removing a live id that heads a subtree enumerated by `L` returns
the value stored at the id, shrinks `size()` by exactly `|L|`, makes every
id of the subtree not-found while leaving every other id's value intact,
and deletes the id from its former parent's children sequence. -/
theorem C5_remove_frees_subtree {T : Type} {t : Tree T} (wf : WF t) {id par : NodeId}
    {L : List NodeId} (hs : SubF t [id] L) (hpar : t.parent_id id = some par) :
    ∃ n t', t.getNode id = some n ∧
      t.remove id = some (some n.value, t') ∧
      t'.size + L.length = t.size ∧
      (∀ x ∈ L, t'.get x = none) ∧
      (∀ x, x ∉ L → t'.get x = t.get x) ∧
      ∃ cs, t'.children_ids par = some cs ∧ id ∉ cs := by
  obtain ⟨n, t', hn, hrem, hroot', hdead, hsz, hle, hparch, hpres, hwf'⟩ := remove_spec wf hs
  exact ⟨n, t', hn, hrem, hsz, hdead, hpres, hparch par hpar⟩

theorem C5_remove_frees_subtree_witness :
    exA.parent_id ⟨1⟩ = some ⟨0⟩ ∧
    (∃ n t', exA.getNode ⟨1⟩ = some n ∧
      exA.remove ⟨1⟩ = some (some n.value, t') ∧
      t'.size + [(⟨1⟩ : NodeId)].length = exA.size ∧
      (∀ x ∈ [(⟨1⟩ : NodeId)], t'.get x = none) ∧
      (∀ x, x ∉ [(⟨1⟩ : NodeId)] → t'.get x = exA.get x) ∧
      ∃ cs, t'.children_ids ⟨0⟩ = some cs ∧ (⟨1⟩ : NodeId) ∉ cs) :=
  ⟨rfl, C5_remove_frees_subtree exA_wf exA_sub_child rfl⟩

/-- C6: for a live id with a parent, at first occurrence index `i` of the
parent's children sequence, `insert_before` puts the (existing, detached,
non-root, acyclic) `new` at index `i` and shifts `id` to `i + 1`, while
`insert_after` leaves `id` at `i` and puts `new` at `i + 1`; both link
`new` under `id`'s parent and recompute its height; on the root (which has
no parent) both operations panic. -/
theorem C6_insert_adjacent {T : Type} {t : Tree T} (wf : WF t) {id c par : NodeId}
    {n cn : Node T}
    (hid : t.getNode id = some n) (hnpar : n.parent = some par)
    (hc : t.getNode c = some cn) (hcdet : cn.parent = none) (hcroot : c ≠ t.root)
    (hnc : ¬ InTree t c par) :
    (∃ i pn, t.getNode par = some pn ∧ pn.children[i]? = some id ∧
      (∃ t' cs, t.insert_before id c = some t' ∧ WF t' ∧
        t'.children_ids par = some cs ∧ cs[i]? = some c ∧ cs[i + 1]? = some id ∧
        t'.parent_id c = some par ∧ t'.height c = some (u16Mod (pn.height + 1))) ∧
      (∃ t' cs, t.insert_after id c = some t' ∧ WF t' ∧
        t'.children_ids par = some cs ∧ cs[i]? = some id ∧ cs[i + 1]? = some c ∧
        t'.parent_id c = some par ∧ t'.height c = some (u16Mod (pn.height + 1)))) ∧
    (t.insert_before t.root c = none ∧ t.insert_after t.root c = none) := by
  constructor
  · obtain ⟨i1, pn1, t1, hp1, hi1, hg1, heq1, hwf1, hroot1, hch1, hparc1, hht1, -⟩ :=
      Tree.insert_before_spec wf hid hnpar hc hcdet hcroot hnc
    obtain ⟨i2, pn2, t2, hp2, hi2, hg2, heq2, hwf2, hroot2, hch2, hparc2, hht2, -⟩ :=
      Tree.insert_after_spec wf hid hnpar hc hcdet hcroot hnc
    rw [hp1] at hp2
    have hpe : pn2 = pn1 := (Option.some.inj hp2).symm
    rw [hpe] at hi2 hch2 hht2
    rw [hi1] at hi2
    have hie : i2 = i1 := (Option.some.inj hi2).symm
    rw [hie] at hch2
    have hlt : i1 < pn1.children.length := listPos_lt hi1
    refine ⟨i1, pn1, hp1, hg1,
      ⟨t1, List.insertIdx i1 c pn1.children, heq1, hwf1, hch1, ?_, ?_, hparc1, hht1⟩,
      ⟨t2, List.insertIdx (i1 + 1) c pn1.children, heq2, hwf2, hch2, ?_, ?_, hparc2, hht2⟩⟩
    · exact getElem?_insertIdx_self (le_of_lt hlt)
    · rw [getElem?_insertIdx_succ_self hlt]
      exact hg1
    · rw [getElem?_insertIdx_lt (Nat.lt_succ_self i1) hlt hlt]
      exact hg1
    · exact getElem?_insertIdx_self hlt
  · have hroot_live := wf.root_live
    cases hrg : t.getNode t.root with
    | none =>
      rw [hrg] at hroot_live
      cases hroot_live
    | some rn =>
      have hrnpar : rn.parent = none := by
        have h1 := wf.root_par
        rw [Tree.parent_id_of_node hrg] at h1
        exact h1
      constructor
      · simp [Tree.insert_before, hrg, hrnpar]
      · simp [Tree.insert_after, hrg, hrnpar]

theorem C6_insert_adjacent_witness :
    (∃ i pn, exB.getNode ⟨0⟩ = some pn ∧ pn.children[i]? = some ⟨1⟩ ∧
      (∃ t' cs, exB.insert_before ⟨1⟩ ⟨2⟩ = some t' ∧ WF t' ∧
        t'.children_ids ⟨0⟩ = some cs ∧ cs[i]? = some ⟨2⟩ ∧ cs[i + 1]? = some ⟨1⟩ ∧
        t'.parent_id ⟨2⟩ = some ⟨0⟩ ∧ t'.height ⟨2⟩ = some (u16Mod (pn.height + 1))) ∧
      (∃ t' cs, exB.insert_after ⟨1⟩ ⟨2⟩ = some t' ∧ WF t' ∧
        t'.children_ids ⟨0⟩ = some cs ∧ cs[i]? = some ⟨1⟩ ∧ cs[i + 1]? = some ⟨2⟩ ∧
        t'.parent_id ⟨2⟩ = some ⟨0⟩ ∧ t'.height ⟨2⟩ = some (u16Mod (pn.height + 1)))) ∧
    (exB.insert_before exB.root ⟨2⟩ = none ∧ exB.insert_after exB.root ⟨2⟩ = none) :=
  C6_insert_adjacent exB_wf rfl rfl rfl rfl (by decide) exB_nc

/-- C9, counterexample: `remove(root)` does succeed and returns the root's
value, but it only frees the root's subtree — a detached node survives, so
`size()` ends at 1, not 0, and the claim's "frees every node" fails.  The
root id itself is reported unchanged and looking it up is not-found. -/
theorem C9_remove_root_strands_detached :
    (exBase.bind fun t => t.remove ⟨0⟩).map (fun r => r.2.size) = some 1 ∧
    (exBase.bind fun t => t.remove ⟨0⟩).map (fun r => r.2.get ⟨2⟩) = some (some 30) ∧
    (exBase.bind fun t => t.remove ⟨0⟩).map (fun r => r.1) = some (some 10) ∧
    (exBase.bind fun t => t.remove ⟨0⟩).map (fun r => r.2.get r.2.root) = some none := by
  decide

/-- C9: `remove(root)` is not rejected — it returns the root's stored value,
the designated root id stays what it was and becomes not-found; and when
every live node actually lies in the root's subtree, the whole arena is
freed and `size()` reaches 0 (with stray detached nodes the size stays
positive, see the counterexample). -/
theorem C9_remove_root_spec {T : Type} {t : Tree T} (wf : WF t) {L : List NodeId}
    (hs : SubF t [t.root] L)
    (hcov : ∀ x : NodeId, (t.getNode x).isSome = true → InTree t t.root x) :
    ∃ n t', t.getNode t.root = some n ∧
      t.remove t.root = some (some n.value, t') ∧
      t'.root = t.root ∧ t'.size = 0 ∧ t'.get t'.root = none := by
  obtain ⟨n, t', hn, hrem, hroot', hdead, hsz, hle, hparch, hpres, hwf'⟩ := remove_spec wf hs
  have hrootL : t.root ∈ L := SubF.subset hs t.root (by simp)
  have hsize : t.size ≤ L.length := by
    have hsub : occFinset t.nodes.entries ⊆ (L.map NodeId.val).toFinset := by
      intro k hk
      rw [List.mem_toFinset]
      have hocc := (occFinset_mem.mp hk).2
      obtain ⟨nk, hnk⟩ := isOccB_get hocc
      have hlv : (t.getNode ⟨k⟩).isSome = true := by
        show (t.nodes.get k).isSome = true
        rw [Slab.get_eq_some_iff.mpr hnk]
        rfl
      have hin : InTree t t.root ⟨k⟩ := hcov ⟨k⟩ hlv
      have hmem : (⟨k⟩ : NodeId) ∈ L := (SubF.mem_iff hs).mpr hin
      exact mem_vals.mpr hmem
    calc t.size = (occFinset t.nodes.entries).card := wf.slab.lenEq
      _ ≤ (L.map NodeId.val).toFinset.card := Finset.card_le_card hsub
      _ ≤ (L.map NodeId.val).length := List.toFinset_card_le _
      _ = L.length := List.length_map _ _
  have hsz0 : t'.size = 0 := by omega
  refine ⟨n, t', hn, hrem, hroot', hsz0, ?_⟩
  rw [hroot']
  exact hdead t.root hrootL

theorem C9_remove_root_spec_witness :
    ∃ n t', exA.getNode exA.root = some n ∧
      exA.remove exA.root = some (some n.value, t') ∧
      t'.root = exA.root ∧ t'.size = 0 ∧ t'.get t'.root = none :=
  C9_remove_root_spec exA_wf exA_sub_root exA_cov

end NativeCore
